import Mathlib

/-!
The CSV-to-SQLite loader of mask-map (`conversion.js`).

A shallow embedding of the loader script: the JavaScript string primitives
`parseRow` uses, the SQLite tables and prepared statements, the three lookup
caches, the batch buffers and the two stream handlers.

Conventions of the embedding:
* a JavaScript string is a `String`; character-level work is done on its
  list of characters;
* a JavaScript number that may be `NaN` is an `Option Int` (`none` is `NaN`);
  integers are exact, so digit strings beyond 2^53 are not rounded;
* an exception is the `error` case of `Except`; state changed before the
  exception stays changed, as in JavaScript;
* a table is the list of its rows in insertion order.
-/

namespace MaskMap

/-! ## JavaScript string primitives -/

/-- The code points `String.prototype.trim` and `parseInt` skip: ECMAScript
WhiteSpace and LineTerminator. -/
def isWhiteSpace (c : Char) : Bool :=
  let n := c.toNat
  n = 0x9 || n = 0xA || n = 0xB || n = 0xC || n = 0xD || n = 0x20 || n = 0xA0 ||
  n = 0x1680 || (0x2000 ≤ n && n ≤ 0x200A) || n = 0x2028 || n = 0x2029 ||
  n = 0x202F || n = 0x205F || n = 0x3000 || n = 0xFEFF

/-- `String.prototype.trim`. -/
def trim (s : List Char) : List Char :=
  ((s.dropWhile isWhiteSpace).reverse.dropWhile isWhiteSpace).reverse

/-- Lower-casing of one code point, as `String.prototype.toLowerCase` does it.
The Latin capitals, the Kelvin sign and the dotted capital I are the code
points whose lower case contains an ASCII letter; every other code point is
left in place (its lower case, if it has one, is outside ASCII). -/
def lowerChar (c : Char) : List Char :=
  if 65 ≤ c.toNat ∧ c.toNat ≤ 90 then [Char.ofNat (c.toNat + 32)]
  else if c.toNat = 0x212A then ['k']
  else if c.toNat = 0x130 then ['i', Char.ofNat 0x307]
  else [c]

/-- `String.prototype.toLowerCase`. -/
def toLowerCase (s : List Char) : List Char :=
  s.flatMap lowerChar

/-- `String.prototype.includes`: does `needle` occur in `s`? -/
def includes : List Char → List Char → Bool
  | [], needle => needle.isEmpty
  | c :: cs, needle => needle.isPrefixOf (c :: cs) || includes cs needle

/-- Value of a string of decimal digits, most significant first. -/
def digitsValue (ds : List Char) : Nat :=
  ds.foldl (fun acc d => 10 * acc + (d.toNat - 48)) 0

/-- `parseInt(s, 10)`: skip leading white space, take an optional sign, read
the longest run of decimal digits; `NaN` when that run is empty. -/
def parseInt (s : List Char) : Option Int :=
  let t := s.dropWhile isWhiteSpace
  let signed : Bool × List Char :=
    match t with
    | '-' :: r => (true, r)
    | '+' :: r => (false, r)
    | r => (false, r)
  let z := signed.2.takeWhile Char.isDigit
  if z.isEmpty then none
  else some (if signed.1 then -(digitsValue z : Int) else (digitsValue z : Int))

/-- `s.replace(/^\[|\]$/g, '')`: a `[` at the very start and a `]` at the very
end are removed. -/
def stripBrackets (s : List Char) : List Char :=
  let t := match s with
    | '[' :: r => r
    | r => r
  match t.reverse with
  | ']' :: r => r.reverse
  | _ => t

/-- `String.prototype.split` on a one-character separator. -/
def splitOn (sep : Char) : List Char → List (List Char)
  | [] => [[]]
  | c :: cs =>
    if c = sep then [] :: splitOn sep cs
    else
      match splitOn sep cs with
      | [] => [[c]]
      | h :: t => (c :: h) :: t

/-- The citation texts of a `Citations` field (line 193 of `conversion.js`). -/
def parseCitations (field : List Char) : List (List Char) :=
  ((splitOn ',' (stripBrackets field)).map trim).filter (fun c => decide (c.length > 0))

/-- The `face_masks_required` value of a `Face_Masks_Required_in_Public`
field (line 183 of `conversion.js`). -/
def faceMasksRequired (field : List Char) : Nat :=
  if includes (toLowerCase (trim field)) "yes".toList
      || includes (toLowerCase (trim field)) "public mask mandate".toList then 1 else 0

/-! ## Input records -/

/-- One record as `csv-parser` hands it to the `data` handler: every column
is text. -/
structure Row where
  State_Tribe_Territory : String
  County_Name : String
  FIPS_Code : String
  Date : String
  Masks_Order_Code : String
  Face_Masks_Required_in_Public : String
  Citations : String
deriving DecidableEq, Repr

/-- What `new Date(s).getTime()` returns: milliseconds since the epoch, or
`NaN` for a text the runtime cannot read as a date. Which texts are readable
is the runtime's choice for everything but the ISO forms, so the loader is
modelled over an arbitrary such function. -/
abbrev DateParser := String → Option Int

/-- `Math.floor(new Date(s).getTime() / 1000)` (line 186). `NaN` stays `NaN`. -/
def unixSeconds (dp : DateParser) (s : String) : Option Int :=
  (dp s).map (fun ms => Int.fdiv ms 1000)

/-! ## The SQLite store -/

/-- A row of `states`. -/
structure StateRow where
  id : Int
  name : String
deriving DecidableEq, Repr

/-- A row of `masks_orders`; `code` is `NULL` (`none`) when `NaN` was bound. -/
structure MasksOrderRow where
  id : Int
  code : Option Int
deriving DecidableEq, Repr

/-- A row of `citations`. -/
structure CitationRow where
  id : Int
  citation : String
deriving DecidableEq, Repr

/-- A row of `counties`; a bound `NaN` is stored as `NULL` (`none`). -/
structure CountyRow where
  id : Int
  state_id : Int
  county_name : String
  fips_code : Option Int
  date : Option Int
  masks_order_id : Int
  face_masks_required : Nat
deriving DecidableEq, Repr

/-- A row of `county_citations`, also the shape of an entry of
`countyCitationsBatch`. -/
structure CountyCitation where
  county_id : Int
  citation_id : Int
deriving DecidableEq, Repr

/-- The database behind the connection `db`. The `seq` fields are the
`sqlite_sequence` counters of the four `AUTOINCREMENT` tables;
`lastInsertRowid` is what `SELECT last_insert_rowid()` returns. -/
structure Db where
  states : List StateRow
  masks_orders : List MasksOrderRow
  citations : List CitationRow
  counties : List CountyRow
  county_citations : List CountyCitation
  seqStates : Int
  seqMasksOrders : Int
  seqCitations : Int
  seqCounties : Int
  lastInsertRowid : Int
deriving DecidableEq, Repr

/-- The store after the `DROP TABLE` / `CREATE TABLE` script (lines 18-65). -/
def Db.empty : Db :=
  { states := [], masks_orders := [], citations := [], counties := [],
    county_citations := [], seqStates := 0, seqMasksOrders := 0, seqCitations := 0,
    seqCounties := 0, lastInsertRowid := 0 }

/-- What a `catch` block receives. -/
inductive JsError where
  | typeError
  | foreignKey
  | uniqueConstraint
  | storeFailure
deriving DecidableEq, Repr

/-- The object `parseRow` returns, which the `data` handler copies into
`countyBatch`. -/
structure ParsedRow where
  state_id : Int
  county_name : String
  fips_code : Option Int
  date : Option Int
  masks_order_id : Int
  face_masks_required : Nat
  citation_ids : List Int
deriving DecidableEq, Repr

/-- `insertState.run(name)`: `INSERT OR IGNORE INTO states (name)`. -/
def insertState (db : Db) (name : String) : Db :=
  if db.states.any (fun r => decide (r.name = name)) then db
  else { db with states := db.states ++ [{ id := db.seqStates + 1, name := name }],
                 seqStates := db.seqStates + 1,
                 lastInsertRowid := db.seqStates + 1 }

/-- `getStateId.get(name)`: the row object is reduced to its `id`; `none` is
`undefined`. -/
def getStateId (db : Db) (name : String) : Option Int :=
  (db.states.find? (fun r => decide (r.name = name))).map (fun r => r.id)

/-- `insertMasksOrder.run(code)`: `INSERT OR IGNORE INTO masks_orders (code)`.
A `NULL` code never conflicts with the `UNIQUE` constraint. -/
def insertMasksOrder (db : Db) (code : Option Int) : Db :=
  if code.isSome && db.masks_orders.any (fun r => decide (r.code = code)) then db
  else { db with masks_orders := db.masks_orders ++ [{ id := db.seqMasksOrders + 1, code := code }],
                 seqMasksOrders := db.seqMasksOrders + 1,
                 lastInsertRowid := db.seqMasksOrders + 1 }

/-- `getMasksOrderId.get(code)`: `WHERE code = ?` selects nothing for `NULL`. -/
def getMasksOrderId (db : Db) (code : Option Int) : Option Int :=
  if code.isSome then
    (db.masks_orders.find? (fun r => decide (r.code = code))).map (fun r => r.id)
  else none

/-- `insertCitation.run(citation)`: `INSERT OR IGNORE INTO citations (citation)`. -/
def insertCitation (db : Db) (citation : String) : Db :=
  if db.citations.any (fun r => decide (r.citation = citation)) then db
  else { db with citations := db.citations ++ [{ id := db.seqCitations + 1, citation := citation }],
                 seqCitations := db.seqCitations + 1,
                 lastInsertRowid := db.seqCitations + 1 }

/-- `getCitationId.get(citation)`. -/
def getCitationId (db : Db) (citation : String) : Option Int :=
  (db.citations.find? (fun r => decide (r.citation = citation))).map (fun r => r.id)

/-- The row `insertCounty.run` writes for a buffered record, under the id the
table assigns. -/
def countyRow (id : Int) (c : ParsedRow) : CountyRow :=
  { id := id, state_id := c.state_id, county_name := c.county_name,
    fips_code := c.fips_code, date := c.date, masks_order_id := c.masks_order_id,
    face_masks_required := c.face_masks_required }

/-- `insertCounty.run(...)`: a plain `INSERT`; with `foreign_keys = ON` it
throws when `state_id` or `masks_order_id` names no row. -/
def insertCounty (db : Db) (c : ParsedRow) : Except JsError Db :=
  if db.states.any (fun r => decide (r.id = c.state_id))
      && db.masks_orders.any (fun r => decide (r.id = c.masks_order_id)) then
    .ok { db with counties := db.counties ++ [countyRow (db.seqCounties + 1) c],
                  seqCounties := db.seqCounties + 1,
                  lastInsertRowid := db.seqCounties + 1 }
  else .error .foreignKey

/-- `insertCountyCitation.run(county_id, citation_id)`: `INSERT OR IGNORE`; a
pair already present is skipped, a pair naming a missing county or citation
throws. `county_citations` is an ordinary rowid table whose rows are never
deleted, so the new rowid is the row count plus one. -/
def insertCountyCitation (db : Db) (cc : CountyCitation) : Except JsError Db :=
  if db.county_citations.any (fun r => decide (r = cc)) then .ok db
  else if db.counties.any (fun r => decide (r.id = cc.county_id))
      && db.citations.any (fun r => decide (r.id = cc.citation_id)) then
    .ok { db with county_citations := db.county_citations ++ [cc],
                  lastInsertRowid := (db.county_citations.length : Int) + 1 }
  else .error .foreignKey

/-- `insertCounties(counties)`: the loop of `insertCounty.run` inside one
`db.transaction`. An exception rolls the transaction back, so the caller keeps
the database it had. `fail` stands for a failure of the store itself. -/
def insertCounties (fail : Bool) (db : Db) (counties : List ParsedRow) : Except JsError Db :=
  if fail then .error .storeFailure else counties.foldlM insertCounty db

/-- `insertCountyCitations(countyCitations)`: as `insertCounties`. -/
def insertCountyCitations (fail : Bool) (db : Db) (ccs : List CountyCitation) :
    Except JsError Db :=
  if fail then .error .storeFailure else ccs.foldlM insertCountyCitation db

/-! ## The loader's state -/

/-- The module-level variables of `conversion.js`, the database, and the
ordinals written by `console.error`. A `Map` is the list of its bindings;
the binding found first is the current one. -/
structure Pipeline where
  db : Db
  stateCache : List (String × Int)
  masksOrderCache : List (Option Int × Int)
  citationCache : List (String × Int)
  countyBatch : List ParsedRow
  countyCitationsBatch : List CountyCitation
  totalRows : Nat
  rowErrors : List Nat
  finalError : Bool
deriving DecidableEq, Repr

/-- The state when the stream is opened. -/
def Pipeline.init : Pipeline :=
  { db := Db.empty, stateCache := [], masksOrderCache := [], citationCache := [],
    countyBatch := [], countyCitationsBatch := [], totalRows := 0, rowErrors := [],
    finalError := false }

/-- Lines 160-168: the id of a jurisdiction name. -/
def resolveState (p : Pipeline) (name : String) : Pipeline × Except JsError Int :=
  match p.stateCache.lookup name with
  | some id => (p, .ok id)
  | none =>
    let db := insertState p.db name
    match getStateId db name with
    | none => ({ p with db := db }, .error .typeError)
    | some id => ({ p with db := db, stateCache := (name, id) :: p.stateCache }, .ok id)

/-- Lines 171-180: the id of a policy code. -/
def resolveMasksOrder (p : Pipeline) (code : Option Int) : Pipeline × Except JsError Int :=
  match p.masksOrderCache.lookup code with
  | some id => (p, .ok id)
  | none =>
    let db := insertMasksOrder p.db code
    match getMasksOrderId db code with
    | none => ({ p with db := db }, .error .typeError)
    | some id => ({ p with db := db, masksOrderCache := (code, id) :: p.masksOrderCache }, .ok id)

/-- Lines 197-204: the id of one citation text. -/
def resolveCitation (p : Pipeline) (citation : String) : Pipeline × Except JsError Int :=
  match p.citationCache.lookup citation with
  | some id => (p, .ok id)
  | none =>
    let db := insertCitation p.db citation
    match getCitationId db citation with
    | none => ({ p with db := db }, .error .typeError)
    | some id => ({ p with db := db, citationCache := (citation, id) :: p.citationCache }, .ok id)

/-- Line 196: `citations.map(...)`, left to right. -/
def resolveCitations (p : Pipeline) : List String → Pipeline × Except JsError (List Int)
  | [] => (p, .ok [])
  | c :: cs =>
    match resolveCitation p c with
    | (p1, .error e) => (p1, .error e)
    | (p1, .ok id) =>
      match resolveCitations p1 cs with
      | (p2, .error e) => (p2, .error e)
      | (p2, .ok ids) => (p2, .ok (id :: ids))

/-- The citation texts of a record, as strings. -/
def citationTexts (row : Row) : List String :=
  (parseCitations row.Citations.toList).map String.mk

/-- `parseRow(row)` (lines 158-216). The state is returned in both cases. -/
def parseRow (dp : DateParser) (p : Pipeline) (row : Row) : Pipeline × Except JsError ParsedRow :=
  match resolveState p row.State_Tribe_Territory with
  | (p1, .error e) => (p1, .error e)
  | (p1, .ok stateId) =>
    match resolveMasksOrder p1 (parseInt row.Masks_Order_Code.toList) with
    | (p2, .error e) => (p2, .error e)
    | (p2, .ok masksOrderId) =>
      match resolveCitations p2 (citationTexts row) with
      | (p3, .error e) => (p3, .error e)
      | (p3, .ok citationIds) =>
        (p3, .ok { state_id := stateId,
                   county_name := row.County_Name,
                   fips_code := parseInt row.FIPS_Code.toList,
                   date := unixSeconds dp row.Date,
                   masks_order_id := masksOrderId,
                   face_masks_required := faceMasksRequired row.Face_Masks_Required_in_Public.toList,
                   citation_ids := citationIds })

/-! ## The stream handlers -/

/-- Line 151. -/
def batchSize : Nat := 1000

/-- Which transaction of a flush the store fails, if any. -/
inductive Fault where
  | none
  | counties
  | links
deriving DecidableEq, Repr

/-- One `data` event: the record, and what the store does if this record
triggers a flush. -/
structure Event where
  row : Row
  fault : Fault
deriving DecidableEq, Repr

/-- Lines 246-255: the links of the batch entries from position `i` on, the
entry at position `i` getting county id `firstId + i`. -/
def deriveLinksFrom (firstId : Int) : Nat → List ParsedRow → List CountyCitation
  | _, [] => []
  | i, county :: rest =>
    county.citation_ids.map (fun citation_id =>
        { county_id := firstId + (i : Int), citation_id := citation_id })
      ++ deriveLinksFrom firstId (i + 1) rest

/-- Lines 238-258 and 278-298: insert the buffered counties, derive their ids
from `last_insert_rowid()` and the count `n`, push the links, insert them. -/
def flushBatch (n : Nat) (fault : Fault) (p : Pipeline) : Pipeline × Except JsError Unit :=
  match insertCounties (decide (fault = Fault.counties)) p.db p.countyBatch with
  | .error e => (p, .error e)
  | .ok db1 =>
    let lastId := db1.lastInsertRowid
    let firstId := lastId - (n : Int) + 1
    let links := p.countyCitationsBatch ++ deriveLinksFrom firstId 0 p.countyBatch
    let p1 := { p with db := db1, countyCitationsBatch := links }
    match insertCountyCitations (decide (fault = Fault.links)) db1 links with
    | .error e => (p1, .error e)
    | .ok db2 => ({ p1 with db := db2 }, .ok ())

/-- The `data` handler (lines 221-273). -/
def onData (dp : DateParser) (p : Pipeline) (ev : Event) : Pipeline :=
  let p0 := { p with totalRows := p.totalRows + 1 }
  match parseRow dp p0 ev.row with
  | (p1, .error _) => { p1 with rowErrors := p1.rowErrors ++ [p1.totalRows] }
  | (p1, .ok parsed) =>
    let p2 := { p1 with countyBatch := p1.countyBatch ++ [parsed] }
    if p2.countyBatch.length = batchSize then
      match flushBatch batchSize ev.fault p2 with
      | (p3, .error _) => { p3 with rowErrors := p3.rowErrors ++ [p3.totalRows] }
      | (p3, .ok _) => { p3 with countyBatch := [], countyCitationsBatch := [] }
    else p2

/-- The `end` handler (lines 274-309). -/
def onEnd (fault : Fault) (p : Pipeline) : Pipeline :=
  if p.countyBatch.length > 0 then
    match flushBatch p.countyBatch.length fault p with
    | (p1, .error _) => { p1 with finalError := true }
    | (p1, .ok _) => p1
  else p

/-- The state after the `data` events `evs`, starting from `p`. -/
def runFrom (dp : DateParser) (p : Pipeline) (evs : List Event) : Pipeline :=
  evs.foldl (onData dp) p

/-- The state after the `data` events `evs` of a fresh run. -/
def run (dp : DateParser) (evs : List Event) : Pipeline :=
  runFrom dp Pipeline.init evs

/-- A whole run: the `data` events, then `end`. -/
def runToEnd (dp : DateParser) (evs : List Event) (endFault : Fault) : Pipeline :=
  onEnd endFault (run dp evs)

/-- The call `parseRow(row)` the `data` handler makes for a record that arrives
after the events `evs` of a fresh run: the state it leaves and what it returns
or throws. -/
def parseAt (dp : DateParser) (evs : List Event) (row : Row) :
    Pipeline × Except JsError ParsedRow :=
  parseRow dp { run dp evs with totalRows := (run dp evs).totalRows + 1 } row

/-- A record used in the worked examples. -/
def sampleRow : Row :=
  { State_Tribe_Territory := "Ohio", County_Name := "Franklin", FIPS_Code := "39049",
    Date := "2020-04-01", Masks_Order_Code := "12",
    Face_Masks_Required_in_Public := "Yes - Public Mask Mandate",
    Citations := "[Exec Order 2020-01, Exec Order 2020-02]" }

/-- What `parseRow` returns for the sample record in a fresh run when the
runtime cannot read its date. -/
def sampleParsed : ParsedRow :=
  { state_id := 1, county_name := "Franklin", fips_code := some 39049, date := none,
    masks_order_id := 1, face_masks_required := 1, citation_ids := [1, 2] }

/-- The objects returned by the `parseRow` calls of the `data` events `evs`
handled from state `p` on, in input order; a record whose call throws
contributes nothing. -/
def parsedRecords (dp : DateParser) : Pipeline → List Event → List ParsedRow
  | _, [] => []
  | p, ev :: evs =>
    match (parseRow dp { p with totalRows := p.totalRows + 1 } ev.row).2 with
    | .ok parsed => parsed :: parsedRecords dp (onData dp p ev) evs
    | .error _ => parsedRecords dp (onData dp p ev) evs

/-- The converted fields of a record that do not depend on the store. -/
def rowFields (dp : DateParser) (row : Row) : String × Option Int × Option Int × Nat :=
  (row.County_Name, parseInt row.FIPS_Code.toList, unixSeconds dp row.Date,
    faceMasksRequired row.Face_Masks_Required_in_Public.toList)

/-- The same fields of a stored county row. -/
def CountyRow.fields (r : CountyRow) : String × Option Int × Option Int × Nat :=
  (r.county_name, r.fips_code, r.date, r.face_masks_required)

/-- The same fields of a parsed record. -/
def ParsedRow.fields (c : ParsedRow) : String × Option Int × Option Int × Nat :=
  (c.county_name, c.fips_code, c.date, c.face_masks_required)

/-- Does the record's policy code read as a number? -/
def codeIsNumber (ev : Event) : Bool :=
  (parseInt ev.row.Masks_Order_Code.toList).isSome

/-- The sample record with a policy code that is not a number. -/
def badCodeRow : Row := { sampleRow with Masks_Order_Code := "x" }

/-- The sample record with a date no runtime reads. -/
def badDateRow : Row := { sampleRow with Date := "not a date" }

/-- The sample record with a county identifier that is not a number. -/
def badFipsRow : Row := { sampleRow with FIPS_Code := "abc" }

/-- A date reader for the worked examples: it reads the ISO date of the sample
record, as every runtime does, and nothing else. -/
def sampleDates : DateParser :=
  fun s => if s = "2020-04-01" then some 1585699200000 else none

/-- The ordinals the `data` handler logs during a run without store failure:
those of the records whose policy code does not read as a number, the first
record of `evs` having ordinal `start + 1`. -/
def rejectedOrdinals (start : Nat) : List Event → List Nat
  | [] => []
  | ev :: evs =>
    if codeIsNumber ev then rejectedOrdinals (start + 1) evs
    else (start + 1) :: rejectedOrdinals (start + 1) evs

/-- The sample record arriving while the store works. -/
def sampleEvent : Event := ⟨sampleRow, Fault.none⟩

/-- The record with the unreadable date arriving while the store works. -/
def badDateEvent : Event := ⟨badDateRow, Fault.none⟩

/-- The record with the non-numeric identifier arriving while the store works. -/
def badFipsEvent : Event := ⟨badFipsRow, Fault.none⟩

/-- The record with the non-numeric policy code arriving while the store works. -/
def badCodeEvent : Event := ⟨badCodeRow, Fault.none⟩

/-- A stream of 100 sample records of which only record 37 has an unreadable
date; no store failure. -/
def stream100 : List Event :=
  List.replicate 36 ⟨sampleRow, Fault.none⟩ ++ [⟨badDateRow, Fault.none⟩]
    ++ List.replicate 63 ⟨sampleRow, Fault.none⟩

/-- What `parseRow` returns for the sample record in a fresh run when the
runtime reads its date. -/
def sampleParsedDated : ParsedRow := { sampleParsed with date := some 1585699200 }

/-- The sample record arriving when the store fails the county insert of the
flush it triggers. -/
def countyFaultEvent : Event := ⟨sampleRow, Fault.counties⟩

/-- A stream of 1001 sample records in which the flush triggered by record
1000 fails in its county insert. -/
def failingStream : List Event :=
  List.replicate 999 sampleEvent ++ countyFaultEvent :: [sampleEvent]

/-! ## The county query's jurisdiction lookup (`colored-counties/route.js`) -/

/-- SQLite's `LOWER`: the ASCII capitals are lower-cased, every other code
point is left as it is. -/
def sqlLower (s : List Char) : List Char :=
  s.map (fun c => if 65 ≤ c.toNat ∧ c.toNat ≤ 90 then Char.ofNat (c.toNat + 32) else c)

/-- SQLite's one-argument `TRIM`: the space characters (U+0020) at both ends
are removed, nothing else. -/
def sqlTrim (s : List Char) : List Char :=
  ((s.dropWhile (fun c => decide (c = ' '))).reverse.dropWhile
    (fun c => decide (c = ' '))).reverse

/-- The SQL expression `TRIM(LOWER(x))` of the lookup. -/
def sqlKey (s : String) : List Char :=
  sqlTrim (sqlLower s.toList)

/-- The ways the lookup ends: status 400, status 404, or a state id. -/
inductive LookupResult where
  | badRequest
  | notFound
  | found (id : Int)
deriving DecidableEq, Repr

/-- Lines 15-43 of `route.js`. `decoded` is
`decodeURIComponent(searchParams.get('state'))`; the handler trims it as
JavaScript trims, rejects the empty text, and selects the first `states` row
with `TRIM(LOWER(name)) = TRIM(LOWER(?))`. -/
def lookupState (db : Db) (decoded : String) : LookupResult :=
  let state := String.mk (trim decoded.toList)
  if state = "" then .badRequest
  else
    match db.states.find? (fun r => decide (sqlKey r.name = sqlKey state)) with
    | none => .notFound
    | some r => if r.id = 0 then .notFound else .found r.id

/-- A record for the jurisdiction "Texas". -/
def texasEvent : Event := ⟨{ sampleRow with State_Tribe_Territory := "Texas" }, Fault.none⟩

/-- The state after the sample record and the "Texas" record, before `end`:
both records are in the buffer. -/
def twoRecordRun : Pipeline := run sampleDates [sampleEvent, texasEvent]

/-- A record for the jurisdiction "texas " (lower case, one trailing space). -/
def texasLowerEvent : Event :=
  ⟨{ sampleRow with State_Tribe_Territory := "texas " }, Fault.none⟩

/-- A record for the jurisdiction "Texas" followed by a tab. -/
def texasTabEvent : Event :=
  ⟨{ sampleRow with State_Tribe_Territory := "Texas\t" }, Fault.none⟩

/-- What `parseRow` returns for the "Texas" record in a fresh run. -/
def texasParsed : ParsedRow := sampleParsedDated

/-- What `parseRow` returns for the "texas " record right after the "Texas"
record. -/
def texasLowerParsed : ParsedRow := { sampleParsedDated with state_id := 2 }

/-- ECMAScript `DayFromYear`: the day number of 1 January of year `y`,
counted from 1 January 1970. -/
def dayFromYear (y : Int) : Int :=
  365 * (y - 1970) + Int.fdiv (y - 1969) 4 - Int.fdiv (y - 1901) 100 + Int.fdiv (y - 1601) 400

/-- Is `y` a leap year of the Gregorian calendar? -/
def isLeapYear (y : Int) : Bool :=
  (y % 4 == 0 && y % 100 != 0) || y % 400 == 0

/-- The number of days of year `y` before its month `m` (1 to 12). -/
def daysBeforeMonth (y : Int) (m : Nat) : Int :=
  let lengths : List Int := [31, if isLeapYear y then 29 else 28, 31, 30, 31, 30, 31, 31, 30, 31,
    30, 31]
  (lengths.take (m - 1)).sum

/-- The time value ECMAScript gives the date-only form `YYYY-MM-DD`: midnight
UTC of that day, in milliseconds since the epoch. -/
def utcMidnightMs (y : Int) (m d : Nat) : Int :=
  (dayFromYear y + daysBeforeMonth y m + ((d : Int) - 1)) * 86400000

/-- What `parseRow` returns for the "Texas" record right after the record with
the non-numeric policy code. -/
def texasAfterBadParsed : ParsedRow :=
  { sampleParsedDated with state_id := 2, masks_order_id := 2 }

/-! ## The summary job (`populateStateAverageMandates.js`) -/

/-- Floor of the binary logarithm by repeated halving, `0` for `0`; the first
argument bounds the number of halvings. -/
def log2Aux : Nat → Nat → Nat
  | 0, _ => 0
  | fuel + 1, n => if n < 2 then 0 else log2Aux fuel (n / 2) + 1

/-- Floor of the binary logarithm of a positive number. -/
def log2Floor (n : Nat) : Nat := log2Aux n n

/-- The integer nearest to `num / den`, a tie going to the even one. -/
def roundHalfEven (num den : Nat) : Nat :=
  if 2 * (num % den) < den then num / den
  else if 2 * (num % den) = den ∧ (num / den) % 2 = 0 then num / den
  else num / den + 1

/-- The IEEE 754 double-precision quotient `s / c` of two integers that are
doubles themselves (below `2 ^ 53`, as numbers of rows are), `c` positive: the
double nearest to the exact quotient, a tie going to the even significand,
given by its exact value. The quotient is scaled by `2 ^ t` into
`[2 ^ 52, 2 ^ 53)`, rounded to an integer significand and scaled back. -/
def divDouble (s c : Nat) : ℚ :=
  let t0 := 52 + log2Floor c - log2Floor s
  let t := if 2 ^ 52 * c ≤ s * 2 ^ t0 then t0 else t0 + 1
  (roundHalfEven (s * 2 ^ t) c : ℚ) / (2 ^ t : ℚ)

/-- A row of `state_average_mandates`. The `REAL` column holds a double;
`average_mandate_count` is the exact value of that double. The list of rows
is in the order of writing; nothing below depends on the order. -/
structure SummaryRow where
  state_id : Int
  state_name : String
  average_mandate_count : ℚ
deriving DecidableEq

/-- One row going into a `GROUP BY` with an aggregate: a row whose key has a
group is folded into that group, a row with a new key opens a group. -/
def groupStep {α κ β : Type} [DecidableEq κ] (key : α → κ) (init : α → β) (step : β → α → β)
    (groups : List (κ × β)) (a : α) : List (κ × β) :=
  if groups.any (fun g => decide (g.1 = key a)) then
    groups.map (fun g => if g.1 = key a then (g.1, step g.2 a) else g)
  else groups ++ [(key a, init a)]

/-- `GROUP BY key` with the aggregate that starts at `init` of a group's first
row and takes in each further row by `step`. The groups come in the order in
which their keys first occur; nothing below depends on that order. -/
def groupAggregate {α κ β : Type} [DecidableEq κ] (key : α → κ) (init : α → β)
    (step : β → α → β) (l : List α) : List (κ × β) :=
  l.foldl (groupStep key init step) []

/-- The inner query of `calculateAverageStmt` (lines 30-38): the rows with
`face_masks_required = 1`, grouped by `state_id, county_name`, with `COUNT(*)`. -/
def countyMandateCounts (db : Db) : List ((Int × String) × Nat) :=
  groupAggregate (fun r : CountyRow => (r.state_id, r.county_name)) (fun _ => 1)
    (fun n _ => n + 1) (db.counties.filter (fun r => decide (r.face_masks_required = 1)))

/-- The outer query of `calculateAverageStmt` (lines 25-41) before the final
division: the groups of the inner query, grouped by `state_id`, each with the
sum of its counts and the number of its counts. -/
def stateMandateSums (db : Db) : List (Int × (Nat × Nat)) :=
  groupAggregate (fun g : (Int × String) × Nat => g.1.1) (fun g => (g.2, 1))
    (fun acc g => (acc.1 + g.2, acc.2 + 1)) (countyMandateCounts db)

/-- `calculateAverageStmt.all()`: per `state_id`, `AVG(mandateCount)`. SQLite
adds the integer counts exactly and divides the sum by their number in double
precision; it groups through a sort on the grouping key, so the groups come
by ascending `state_id`. -/
def calculateAverage (db : Db) : List (Int × ℚ) :=
  ((stateMandateSums db).insertionSort (fun a b => a.1 ≤ b.1)).map
    (fun s => (s.1, divDouble s.2.1 s.2.2))

/-- The lookup object `stateIdToName` (lines 59-62): `forEach` assigns row by
row, so the last row with an id wins; `none` is `undefined`. -/
def stateIdToName (db : Db) (id : Int) : Option String :=
  (db.states.reverse.find? (fun r => decide (r.id = id))).map (fun r => r.name)

/-- `insertOrUpdateStmt.run(...)` (lines 44-50): an insert that, when the
`state_id` is taken, updates that row instead. A `state_name` held by another
row violates the `UNIQUE` constraint and throws. The foreign key cannot fail:
the statement is run only for ids found in `states`. -/
def insertOrUpdate (tbl : List SummaryRow) (r : SummaryRow) : Except JsError (List SummaryRow) :=
  if tbl.any (fun x => decide (x.state_id ≠ r.state_id ∧ x.state_name = r.state_name)) then
    .error .uniqueConstraint
  else if tbl.any (fun x => decide (x.state_id = r.state_id)) then
    .ok (tbl.map (fun x => if x.state_id = r.state_id then r else x))
  else .ok (tbl ++ [r])

/-- The body of the `forEach` in `insertMany` (lines 66-75): an item whose id
has no name, or the empty name, is skipped. -/
def insertItem (db : Db) (tbl : List SummaryRow) (item : Int × ℚ) :
    Except JsError (List SummaryRow) :=
  match stateIdToName db item.1 with
  | some name =>
    if name = "" then .ok tbl
    else insertOrUpdate tbl
      { state_id := item.1, state_name := name, average_mandate_count := item.2 }
  | none => .ok tbl

/-- `insertMany(data)`: one transaction around the `forEach`. -/
def insertMany (db : Db) (tbl : List SummaryRow) (data : List (Int × ℚ)) :
    Except JsError (List SummaryRow) :=
  data.foldlM (insertItem db) tbl

/-- The summary job on a store whose `state_average_mandates` table holds
`tbl` (empty when the job creates it): the table afterwards. An exception
rolls the transaction back and is caught. -/
def populate (db : Db) (tbl : List SummaryRow) : List SummaryRow :=
  match insertMany db tbl (calculateAverage db) with
  | .ok t => t
  | .error _ => tbl

/-- The number of `counties` rows of a jurisdiction and county name that have
`face_masks_required = 1`. -/
def mandateCount (db : Db) (sid : Int) (name : String) : Nat :=
  db.counties.countP
    (fun r => decide (r.state_id = sid ∧ r.county_name = name ∧ r.face_masks_required = 1))

/-- The county names of a jurisdiction. -/
def countyNames (db : Db) (sid : Int) : Finset String :=
  ((db.counties.filter (fun r => decide (r.state_id = sid))).map
    (fun r => r.county_name)).toFinset

/-- The county names of a jurisdiction that have at least one row with
`face_masks_required = 1`. -/
def mandatedNames (db : Db) (sid : Int) : Finset String :=
  ((db.counties.filter (fun r => decide (r.state_id = sid ∧ r.face_masks_required = 1))).map
    (fun r => r.county_name)).toFinset

/-- The mean over the county names `names` of a jurisdiction of their numbers
of rows with `face_masks_required = 1`: the sum of the numbers over the number
of names. -/
def meanOver (db : Db) (sid : Int) (names : Finset String) : ℚ :=
  (Finset.sum names (fun n => (mandateCount db sid n : ℚ))) / (names.card : ℚ)

/-- The double-precision quotient of the sum, over the county names of a
jurisdiction that have a row with `face_masks_required = 1`, of their numbers
of such rows, by the number of these names. -/
def doubleMean (db : Db) (sid : Int) : ℚ :=
  divDouble (Finset.sum (mandatedNames db sid) (mandateCount db sid))
    (mandatedNames db sid).card

/-- The sample record for another county of the same jurisdiction. -/
def delawareEvent : Event := ⟨{ sampleRow with County_Name := "Delaware" }, Fault.none⟩

/-- The sample record for a third county of the same jurisdiction. -/
def cuyahogaEvent : Event := ⟨{ sampleRow with County_Name := "Cuyahoga" }, Fault.none⟩

/-- The store after loading four Ohio records with a mandate: one for
Franklin, one for Delaware, two for Cuyahoga. -/
def threeCountyDb : Db :=
  (runToEnd sampleDates [sampleEvent, delawareEvent, cuyahogaEvent, cuyahogaEvent]
    Fault.none).db

/-- The sample record for another county of the same jurisdiction, without a
mandate. -/
def noMandateEvent : Event :=
  ⟨{ sampleRow with County_Name := "Delaware", Face_Masks_Required_in_Public := "No" },
    Fault.none⟩

/-- The store after loading the sample record and the record without a
mandate. -/
def twoCountyDb : Db := (runToEnd sampleDates [sampleEvent, noMandateEvent] Fault.none).db

/-- A `state_average_mandates` table left by an earlier run of the job on the
store `twoCountyDb`, with another value. -/
def staleSummary : List SummaryRow :=
  [{ state_id := 1, state_name := "Ohio", average_mandate_count := 7 }]

/-! ## Predicates used to state the properties -/

/-- The text `s`, compared case-insensitively, contains the substring
`needle`: some stretch of `s` equals `needle` once both are lower-cased. -/
def containsIgnoringCase (s needle : List Char) : Prop :=
  ∃ pre mid post, s = pre ++ mid ++ post ∧ toLowerCase mid = toLowerCase needle



/-- The rows a run of `insertCounty.run` writes for the records of a batch
when the `counties` counter stands at `seq`. -/
def assignIds (seq : Int) : List ParsedRow → List CountyRow
  | [] => []
  | c :: cs => countyRow (seq + 1) c :: assignIds (seq + 1) cs

/-- The database after the records of a batch have been inserted into
`counties`. -/
def Db.addCounties (db : Db) (batch : List ParsedRow) : Db :=
  { db with counties := db.counties ++ assignIds db.seqCounties batch,
            seqCounties := db.seqCounties + (batch.length : Int),
            lastInsertRowid :=
              if batch.isEmpty then db.lastInsertRowid
              else db.seqCounties + (batch.length : Int) }



/-- A state row with this id exists. -/
def Db.hasState (db : Db) (id : Int) : Prop := ∃ r ∈ db.states, r.id = id

/-- A policy-code row with this id exists. -/
def Db.hasMasksOrder (db : Db) (id : Int) : Prop := ∃ r ∈ db.masks_orders, r.id = id

/-- A citation row with this id exists. -/
def Db.hasCitation (db : Db) (id : Int) : Prop := ∃ r ∈ db.citations, r.id = id

/-- A county row with this id exists. -/
def Db.hasCounty (db : Db) (id : Int) : Prop := ∃ r ∈ db.counties, r.id = id

/-- Every table of `b` starts with the rows of `a`, in the same order: rows
are only ever added at the end. -/
structure Db.Extends (a b : Db) : Prop where
  states : a.states <+: b.states
  masks_orders : a.masks_orders <+: b.masks_orders
  citations : a.citations <+: b.citations
  counties : a.counties <+: b.counties
  county_citations : a.county_citations <+: b.county_citations

/-- The constraints of the schema, and the order of the county ids and of the
state ids. -/
structure Db.WF (db : Db) : Prop where
  state_names : ∀ name, db.states.countP (fun r => decide (r.name = name)) ≤ 1
  masks_codes : ∀ code : Int, db.masks_orders.countP (fun r => decide (r.code = some code)) ≤ 1
  citation_texts : ∀ t, db.citations.countP (fun r => decide (r.citation = t)) ≤ 1
  county_ids_le : ∀ r ∈ db.counties, r.id ≤ db.seqCounties
  county_ids_sorted : db.counties.Pairwise (fun a b => a.id < b.id)
  county_fk : ∀ r ∈ db.counties, db.hasState r.state_id ∧ db.hasMasksOrder r.masks_order_id
  link_fk : ∀ l ∈ db.county_citations, db.hasCounty l.county_id ∧ db.hasCitation l.citation_id
  state_ids_le : ∀ r ∈ db.states, r.id ≤ db.seqStates
  state_ids_sorted : db.states.Pairwise (fun a b => a.id < b.id)
  state_ids_pos : ∀ r ∈ db.states, 0 < r.id
  seqStates_nonneg : 0 ≤ db.seqStates

/-- A buffered record whose references all exist in the store. -/
def Db.admits (db : Db) (c : ParsedRow) : Prop :=
  db.hasState c.state_id ∧ db.hasMasksOrder c.masks_order_id ∧
    ∀ cid ∈ c.citation_ids, db.hasCitation cid

/-- What holds of the loader's state between any two statements of a run. -/
structure Pipeline.Inv (p : Pipeline) : Prop where
  db_wf : p.db.WF
  stateCache_sound : ∀ k id, p.stateCache.lookup k = some id →
    ({ id := id, name := k } : StateRow) ∈ p.db.states
  masksOrderCache_sound : ∀ k id, p.masksOrderCache.lookup k = some id →
    ({ id := id, code := k } : MasksOrderRow) ∈ p.db.masks_orders ∧ k.isSome = true
  citationCache_sound : ∀ k id, p.citationCache.lookup k = some id →
    ({ id := id, citation := k } : CitationRow) ∈ p.db.citations
  batch_fk : ∀ c ∈ p.countyBatch, p.db.admits c
  links_fk : ∀ l ∈ p.countyCitationsBatch,
    p.db.hasCounty l.county_id ∧ p.db.hasCitation l.citation_id

/-- The store and the caches of `b` continue those of `a`: rows are only
added, and a cached binding never changes. -/
structure Pipeline.Le (a b : Pipeline) : Prop where
  db : a.db.Extends b.db
  stateCache : ∀ k id, a.stateCache.lookup k = some id → b.stateCache.lookup k = some id
  masksOrderCache : ∀ k id, a.masksOrderCache.lookup k = some id →
    b.masksOrderCache.lookup k = some id
  citationCache : ∀ k id, a.citationCache.lookup k = some id →
    b.citationCache.lookup k = some id

/-- What reference resolution leaves alone: the buffers, the counters of the
handlers, and the `counties` and `county_citations` tables. -/
structure Pipeline.SameLoad (a b : Pipeline) : Prop where
  countyBatch : b.countyBatch = a.countyBatch
  countyCitationsBatch : b.countyCitationsBatch = a.countyCitationsBatch
  totalRows : b.totalRows = a.totalRows
  rowErrors : b.rowErrors = a.rowErrors
  finalError : b.finalError = a.finalError
  counties : b.db.counties = a.db.counties
  county_citations : b.db.county_citations = a.db.county_citations
  seqCounties : b.db.seqCounties = a.db.seqCounties

/-- The states in which a handler starts a flush, each with the count the
handler subtracts from `last_insert_rowid()`: in the `data` handler the state
after a parsed record was pushed and the buffer length equals `batchSize`
(count `batchSize`); in the `end` handler a state with a non-empty buffer
(count `countyBatch.length`). -/
inductive FlushPoint (dp : DateParser) : Pipeline → Nat → Prop where
  | atData (evs : List Event) (row : Row) (p1 : Pipeline) (parsed : ParsedRow) :
      parseAt dp evs row = (p1, .ok parsed) →
      (p1.countyBatch ++ [parsed]).length = batchSize →
      FlushPoint dp { p1 with countyBatch := p1.countyBatch ++ [parsed] } batchSize
  | atEnd (evs : List Event) :
      (run dp evs).countyBatch.length > 0 →
      FlushPoint dp (run dp evs) (run dp evs).countyBatch.length

/-- The county row `r` is the row of the record `row`: it carries the record's
converted fields and names the `states` row of the record's jurisdiction name
and the `masks_orders` row of the record's policy code. -/
def Db.rowOf (db : Db) (dp : DateParser) (row : Row) (r : CountyRow) : Prop :=
  r.fields = rowFields dp row ∧
  ({ id := r.state_id, name := row.State_Tribe_Territory } : StateRow) ∈ db.states ∧
  ({ id := r.masks_order_id, code := parseInt row.Masks_Order_Code.toList } : MasksOrderRow)
    ∈ db.masks_orders

/-- The aggregate of the rows of one group, in their order: `none` for no
rows. -/
def aggOf {α β : Type} (init : α → β) (step : β → α → β) : List α → Option β
  | [] => none
  | a :: as => some (as.foldl step (init a))

/-- A `state_average_mandates` table that the job can find before it runs:
the primary key `state_id` is not repeated, and each row names a row of
`states` by id and name, as the rows of an earlier run of the job do. -/
structure SummaryOK (db : Db) (tbl : List SummaryRow) : Prop where
  ids_nodup : (tbl.map (fun x => x.state_id)).Nodup
  names : ∀ x ∈ tbl, ({ id := x.state_id, name := x.state_name } : StateRow) ∈ db.states

/-- The row an item of `calculateAverageStmt.all()` is upserted as; `none` for
an item the `forEach` skips. -/
def itemRow (db : Db) (item : Int × ℚ) : Option SummaryRow :=
  match stateIdToName db item.1 with
  | some name =>
    if name = "" then none
    else some { state_id := item.1, state_name := name, average_mandate_count := item.2 }
  | none => none

/-! ## Properties -/

/-! ### The store only grows -/

theorem Db.Extends.same (a : Db) : a.Extends a :=
  ⟨List.prefix_refl _, List.prefix_refl _, List.prefix_refl _, List.prefix_refl _,
    List.prefix_refl _⟩

theorem Db.Extends.andThen {a b c : Db} (h₁ : a.Extends b) (h₂ : b.Extends c) : a.Extends c :=
  ⟨h₁.states.trans h₂.states, h₁.masks_orders.trans h₂.masks_orders,
    h₁.citations.trans h₂.citations, h₁.counties.trans h₂.counties,
    h₁.county_citations.trans h₂.county_citations⟩

theorem Db.Extends.hasState {a b : Db} (h : a.Extends b) {id : Int} (hs : a.hasState id) :
    b.hasState id := by
  obtain ⟨r, hr, e⟩ := hs
  exact ⟨r, h.states.subset hr, e⟩

theorem Db.Extends.hasMasksOrder {a b : Db} (h : a.Extends b) {id : Int}
    (hs : a.hasMasksOrder id) : b.hasMasksOrder id := by
  obtain ⟨r, hr, e⟩ := hs
  exact ⟨r, h.masks_orders.subset hr, e⟩

theorem Db.Extends.hasCitation {a b : Db} (h : a.Extends b) {id : Int}
    (hs : a.hasCitation id) : b.hasCitation id := by
  obtain ⟨r, hr, e⟩ := hs
  exact ⟨r, h.citations.subset hr, e⟩

theorem Db.Extends.hasCounty {a b : Db} (h : a.Extends b) {id : Int}
    (hs : a.hasCounty id) : b.hasCounty id := by
  obtain ⟨r, hr, e⟩ := hs
  exact ⟨r, h.counties.subset hr, e⟩

theorem Db.Extends.admits {a b : Db} (h : a.Extends b) {c : ParsedRow} (hc : a.admits c) :
    b.admits c :=
  ⟨h.hasState hc.1, h.hasMasksOrder hc.2.1, fun cid hcid => h.hasCitation (hc.2.2 cid hcid)⟩

theorem insertState_extends (db : Db) (name : String) : db.Extends (insertState db name) := by
  unfold insertState
  split
  · exact Db.Extends.same db
  · exact ⟨List.prefix_append _ _, List.prefix_refl _, List.prefix_refl _, List.prefix_refl _,
      List.prefix_refl _⟩

theorem insertMasksOrder_extends (db : Db) (code : Option Int) :
    db.Extends (insertMasksOrder db code) := by
  unfold insertMasksOrder
  split
  · exact Db.Extends.same db
  · exact ⟨List.prefix_refl _, List.prefix_append _ _, List.prefix_refl _, List.prefix_refl _,
      List.prefix_refl _⟩

theorem insertCitation_extends (db : Db) (citation : String) :
    db.Extends (insertCitation db citation) := by
  unfold insertCitation
  split
  · exact Db.Extends.same db
  · exact ⟨List.prefix_refl _, List.prefix_refl _, List.prefix_append _ _, List.prefix_refl _,
      List.prefix_refl _⟩

theorem insertCounty_extends {db db1 : Db} {c : ParsedRow} (h : insertCounty db c = .ok db1) :
    db.Extends db1 := by
  unfold insertCounty at h
  split at h
  · cases h
    exact ⟨List.prefix_refl _, List.prefix_refl _, List.prefix_refl _, List.prefix_append _ _,
      List.prefix_refl _⟩
  · cases h

theorem insertCountyCitation_extends {db db1 : Db} {cc : CountyCitation}
    (h : insertCountyCitation db cc = .ok db1) : db.Extends db1 := by
  unfold insertCountyCitation at h
  split at h
  · cases h
    exact Db.Extends.same db
  · split at h
    · cases h
      exact ⟨List.prefix_refl _, List.prefix_refl _, List.prefix_refl _, List.prefix_refl _,
        List.prefix_append _ _⟩
    · cases h

theorem insertCounties_extends {fail : Bool} {db db1 : Db} {batch : List ParsedRow}
    (h : insertCounties fail db batch = .ok db1) : db.Extends db1 := by
  unfold insertCounties at h
  split at h
  · cases h
  · clear * - h
    induction batch generalizing db with
    | nil => cases h; exact Db.Extends.same _
    | cons c cs ih =>
      rw [List.foldlM_cons] at h
      cases hc : insertCounty db c with
      | error e => rw [hc] at h; cases h
      | ok d => rw [hc] at h; exact (insertCounty_extends hc).andThen (ih h)

theorem insertCountyCitations_extends {fail : Bool} {db db1 : Db} {ccs : List CountyCitation}
    (h : insertCountyCitations fail db ccs = .ok db1) : db.Extends db1 := by
  unfold insertCountyCitations at h
  split at h
  · cases h
  · clear * - h
    induction ccs generalizing db with
    | nil => cases h; exact Db.Extends.same _
    | cons c cs ih =>
      rw [List.foldlM_cons] at h
      cases hc : insertCountyCitation db c with
      | error e => rw [hc] at h; cases h
      | ok d => rw [hc] at h; exact (insertCountyCitation_extends hc).andThen (ih h)

/-! ### The schema constraints are kept -/

theorem Db.WF.empty : Db.empty.WF := by
  refine ⟨?_, ?_, ?_, ?_, ?_, ?_, ?_, ?_, ?_, ?_, ?_⟩ <;> simp [Db.empty]

theorem insertState_wf {db : Db} (h : db.WF) (name : String) : (insertState db name).WF := by
  have hext := insertState_extends db name
  unfold insertState at hext ⊢
  split
  · exact h
  · rename_i hany
    rw [if_neg hany] at hext
    refine ⟨?_, h.masks_codes, h.citation_texts, h.county_ids_le, h.county_ids_sorted, ?_,
      h.link_fk, ?_, ?_, ?_, ?_⟩
    · intro k
      have hk := h.state_names k
      simp only [List.countP_append, List.countP_singleton]
      by_cases hkn : name = k
      · subst hkn
        have : db.states.countP (fun r => decide (r.name = name)) = 0 := by
          rw [List.countP_eq_zero]
          simpa using hany
        simp [this]
      · simp [hkn]
        exact hk
    · intro r hr
      exact ⟨hext.hasState (h.county_fk r hr).1, (h.county_fk r hr).2⟩
    · intro r hr
      show r.id ≤ db.seqStates + 1
      rcases List.mem_append.1 hr with hr | hr
      · have := h.state_ids_le r hr
        omega
      · simp only [List.mem_singleton] at hr
        subst hr
        exact Int.le_refl _
    · show (db.states ++ [({ id := db.seqStates + 1, name := name } : StateRow)]).Pairwise _
      rw [List.pairwise_append]
      refine ⟨h.state_ids_sorted, List.pairwise_singleton _ _, ?_⟩
      intro a ha b hb
      simp only [List.mem_singleton] at hb
      subst hb
      have := h.state_ids_le a ha
      show a.id < db.seqStates + 1
      omega
    · intro r hr
      rcases List.mem_append.1 hr with hr | hr
      · exact h.state_ids_pos r hr
      · simp only [List.mem_singleton] at hr
        subst hr
        have := h.seqStates_nonneg
        show 0 < db.seqStates + 1
        omega
    · have := h.seqStates_nonneg
      show 0 ≤ db.seqStates + 1
      omega

theorem insertMasksOrder_wf {db : Db} (h : db.WF) (code : Option Int) :
    (insertMasksOrder db code).WF := by
  have hext := insertMasksOrder_extends db code
  unfold insertMasksOrder at hext ⊢
  split
  · exact h
  · rename_i hany
    rw [if_neg hany] at hext
    refine ⟨h.state_names, ?_, h.citation_texts, h.county_ids_le, h.county_ids_sorted, ?_,
      h.link_fk, h.state_ids_le, h.state_ids_sorted,
      h.state_ids_pos, h.seqStates_nonneg⟩
    · intro k
      have hk := h.masks_codes k
      simp only [List.countP_append, List.countP_singleton]
      by_cases hkn : code = some k
      · subst hkn
        have : db.masks_orders.countP (fun r => decide (r.code = some k)) = 0 := by
          rw [List.countP_eq_zero]
          simpa using hany
        simp [this]
      · simp [hkn]
        exact hk
    · intro r hr
      exact ⟨(h.county_fk r hr).1, hext.hasMasksOrder (h.county_fk r hr).2⟩

theorem insertCitation_wf {db : Db} (h : db.WF) (citation : String) :
    (insertCitation db citation).WF := by
  have hext := insertCitation_extends db citation
  unfold insertCitation at hext ⊢
  split
  · exact h
  · rename_i hany
    rw [if_neg hany] at hext
    refine ⟨h.state_names, h.masks_codes, ?_, h.county_ids_le, h.county_ids_sorted,
      h.county_fk, ?_, h.state_ids_le, h.state_ids_sorted, h.state_ids_pos,
      h.seqStates_nonneg⟩
    · intro k
      have hk := h.citation_texts k
      simp only [List.countP_append, List.countP_singleton]
      by_cases hkn : citation = k
      · subst hkn
        have : db.citations.countP (fun r => decide (r.citation = citation)) = 0 := by
          rw [List.countP_eq_zero]
          simpa using hany
        simp [this]
      · simp [hkn]
        exact hk
    · intro r hr
      exact ⟨(h.link_fk r hr).1, hext.hasCitation (h.link_fk r hr).2⟩


theorem insertCounty_eq_ok {db : Db} {c : ParsedRow} (hs : db.hasState c.state_id)
    (hm : db.hasMasksOrder c.masks_order_id) :
    insertCounty db c = .ok (db.addCounties [c]) := by
  have h1 : db.states.any (fun r => decide (r.id = c.state_id)) = true := by
    simpa [Db.hasState] using hs
  have h2 : db.masks_orders.any (fun r => decide (r.id = c.masks_order_id)) = true := by
    simpa [Db.hasMasksOrder] using hm
  simp [insertCounty, h1, h2, Db.addCounties, assignIds]

theorem insertCounty_ok_inv {db db1 : Db} {c : ParsedRow} (h : insertCounty db c = .ok db1) :
    db1 = db.addCounties [c] ∧ db.hasState c.state_id ∧ db.hasMasksOrder c.masks_order_id := by
  unfold insertCounty at h
  split at h
  · rename_i hc
    simp only [Bool.and_eq_true, List.any_eq_true, decide_eq_true_eq] at hc
    cases h
    exact ⟨by simp [Db.addCounties, assignIds], hc.1, hc.2⟩
  · cases h

theorem Db.addCounties_nil (db : Db) : db.addCounties [] = db := by
  simp [Db.addCounties, assignIds]

theorem Db.addCounties_cons (db : Db) (c : ParsedRow) (cs : List ParsedRow) :
    (db.addCounties [c]).addCounties cs = db.addCounties (c :: cs) := by
  cases cs with
  | nil => simp [Db.addCounties, assignIds]
  | cons d ds =>
    simp only [Db.addCounties, assignIds, List.length_cons, List.length_nil, List.isEmpty_cons,
      List.append_assoc, List.singleton_append, Bool.false_eq_true, if_false]
    congr 1 <;> push_cast <;> ring

theorem Db.addCounties_states (db : Db) (batch : List ParsedRow) :
    (db.addCounties batch).states = db.states := rfl

theorem Db.addCounties_masks_orders (db : Db) (batch : List ParsedRow) :
    (db.addCounties batch).masks_orders = db.masks_orders := rfl

theorem foldlM_insertCounty_eq_ok {db : Db} {batch : List ParsedRow}
    (h : ∀ c ∈ batch, db.hasState c.state_id ∧ db.hasMasksOrder c.masks_order_id) :
    batch.foldlM insertCounty db = .ok (db.addCounties batch) := by
  induction batch generalizing db with
  | nil => simp [Db.addCounties_nil]; rfl
  | cons c cs ih =>
    rw [List.foldlM_cons, insertCounty_eq_ok (h c (by simp)).1 (h c (by simp)).2]
    show cs.foldlM insertCounty (db.addCounties [c]) = _
    rw [ih, Db.addCounties_cons]
    intro d hd
    exact h d (by simp [hd])

theorem foldlM_insertCounty_ok_inv {db db1 : Db} {batch : List ParsedRow}
    (h : batch.foldlM insertCounty db = .ok db1) :
    db1 = db.addCounties batch ∧
      ∀ c ∈ batch, db.hasState c.state_id ∧ db.hasMasksOrder c.masks_order_id := by
  induction batch generalizing db with
  | nil => cases h; simp [Db.addCounties_nil]
  | cons c cs ih =>
    rw [List.foldlM_cons] at h
    cases hc : insertCounty db c with
    | error e => rw [hc] at h; cases h
    | ok d =>
      rw [hc] at h
      obtain ⟨hd, hs, hm⟩ := insertCounty_ok_inv hc
      obtain ⟨h1, h2⟩ := ih h
      subst hd
      refine ⟨by rw [h1, Db.addCounties_cons], ?_⟩
      intro x hx
      rcases List.mem_cons.1 hx with rfl | hx
      · exact ⟨hs, hm⟩
      · exact h2 x hx


/-! ### The ids a batch insert assigns -/

theorem assignIds_length (seq : Int) (batch : List ParsedRow) :
    (assignIds seq batch).length = batch.length := by
  induction batch generalizing seq with
  | nil => rfl
  | cons c cs ih => simp [assignIds, ih]

theorem assignIds_getElem (seq : Int) (batch : List ParsedRow) (i : Nat) (h : i < batch.length) :
    (assignIds seq batch)[i]? = some (countyRow (seq + 1 + (i : Int)) batch[i]) := by
  induction batch generalizing seq i with
  | nil => simp at h
  | cons c cs ih =>
    cases i with
    | zero => simp [assignIds]
    | succ j =>
      simp only [assignIds, List.getElem?_cons_succ, List.getElem_cons_succ]
      rw [ih (seq + 1) j (by simpa using h)]
      congr 2
      push_cast
      ring

theorem mem_assignIds {seq : Int} {batch : List ParsedRow} {r : CountyRow}
    (h : r ∈ assignIds seq batch) :
    ∃ c ∈ batch, r = countyRow r.id c ∧ seq < r.id ∧ r.id ≤ seq + (batch.length : Int) := by
  induction batch generalizing seq with
  | nil => simp [assignIds] at h
  | cons c cs ih =>
    simp only [assignIds, List.mem_cons] at h
    rcases h with rfl | h
    · refine ⟨c, by simp, rfl, ?_, ?_⟩
      · show seq < seq + 1
        omega
      · show seq + 1 ≤ seq + ((c :: cs).length : Int)
        simp only [List.length_cons]
        push_cast
        omega
    · obtain ⟨d, hd, e, h1, h2⟩ := ih h
      refine ⟨d, by simp [hd], e, by omega, ?_⟩
      simp only [List.length_cons]
      push_cast
      omega

theorem assignIds_sorted (seq : Int) (batch : List ParsedRow) :
    (assignIds seq batch).Pairwise (fun a b => a.id < b.id) := by
  induction batch generalizing seq with
  | nil => simp [assignIds]
  | cons c cs ih =>
    simp only [assignIds, List.pairwise_cons]
    refine ⟨?_, ih (seq + 1)⟩
    intro r hr
    obtain ⟨_, _, _, h1, _⟩ := mem_assignIds hr
    show seq + 1 < r.id
    exact h1

theorem Db.addCounties_extends (db : Db) (batch : List ParsedRow) :
    db.Extends (db.addCounties batch) :=
  ⟨List.prefix_refl _, List.prefix_refl _, List.prefix_refl _, List.prefix_append _ _,
    List.prefix_refl _⟩

theorem Db.addCounties_wf {db : Db} (h : db.WF) {batch : List ParsedRow}
    (hb : ∀ c ∈ batch, db.hasState c.state_id ∧ db.hasMasksOrder c.masks_order_id) :
    (db.addCounties batch).WF := by
  have hext := db.addCounties_extends batch
  refine ⟨h.state_names, h.masks_codes, h.citation_texts, ?_, ?_, ?_, ?_, h.state_ids_le,
    h.state_ids_sorted, h.state_ids_pos, h.seqStates_nonneg⟩
  · intro r hr
    show r.id ≤ db.seqCounties + (batch.length : Int)
    rcases List.mem_append.1 hr with hr | hr
    · have := h.county_ids_le r hr
      omega
    · obtain ⟨_, _, _, _, h2⟩ := mem_assignIds hr
      exact h2
  · show (db.counties ++ assignIds db.seqCounties batch).Pairwise _
    rw [List.pairwise_append]
    refine ⟨h.county_ids_sorted, assignIds_sorted _ _, ?_⟩
    intro a ha b hb'
    have := h.county_ids_le a ha
    obtain ⟨_, _, _, h1, _⟩ := mem_assignIds hb'
    omega
  · intro r hr
    rcases List.mem_append.1 hr with hr | hr
    · exact ⟨hext.hasState (h.county_fk r hr).1, hext.hasMasksOrder (h.county_fk r hr).2⟩
    · obtain ⟨c, hc, e, _, _⟩ := mem_assignIds hr
      have := hb c hc
      rw [e]
      exact ⟨hext.hasState this.1, hext.hasMasksOrder this.2⟩
  · intro l hl
    exact ⟨hext.hasCounty (h.link_fk l hl).1, hext.hasCitation (h.link_fk l hl).2⟩

/-! ### The link insert -/

theorem insertCountyCitation_eq_ok {db : Db} {cc : CountyCitation}
    (hc : db.hasCounty cc.county_id) (ht : db.hasCitation cc.citation_id) :
    ∃ db1, insertCountyCitation db cc = .ok db1 ∧ db1.states = db.states ∧
      db1.masks_orders = db.masks_orders ∧ db1.citations = db.citations ∧
      db1.counties = db.counties ∧ db1.seqCounties = db.seqCounties ∧
      (db1.county_citations = db.county_citations ∨
        db1.county_citations = db.county_citations ++ [cc]) := by
  unfold insertCountyCitation
  split
  · exact ⟨db, rfl, rfl, rfl, rfl, rfl, rfl, Or.inl rfl⟩
  · have h1 : db.counties.any (fun r => decide (r.id = cc.county_id)) = true := by
      simpa [Db.hasCounty] using hc
    have h2 : db.citations.any (fun r => decide (r.id = cc.citation_id)) = true := by
      simpa [Db.hasCitation] using ht
    simp [h1, h2]

theorem insertCountyCitation_ok_inv {db db1 : Db} {cc : CountyCitation}
    (h : insertCountyCitation db cc = .ok db1) :
    db1.states = db.states ∧ db1.masks_orders = db.masks_orders ∧
      db1.citations = db.citations ∧ db1.counties = db.counties ∧
      db1.seqCounties = db.seqCounties ∧
      ((cc ∈ db.county_citations ∧ db1.county_citations = db.county_citations) ∨
        (db.hasCounty cc.county_id ∧ db.hasCitation cc.citation_id ∧
          db1.county_citations = db.county_citations ++ [cc])) := by
  unfold insertCountyCitation at h
  split at h
  · rename_i hany
    cases h
    simp only [List.any_eq_true, decide_eq_true_eq] at hany
    obtain ⟨x, hx, rfl⟩ := hany
    exact ⟨rfl, rfl, rfl, rfl, rfl, Or.inl ⟨hx, rfl⟩⟩
  · split at h
    · rename_i hfk
      cases h
      simp only [Bool.and_eq_true, List.any_eq_true, decide_eq_true_eq] at hfk
      exact ⟨rfl, rfl, rfl, rfl, rfl, Or.inr ⟨hfk.1, hfk.2, rfl⟩⟩
    · cases h

theorem insertCountyCitation_wf {db db1 : Db} {cc : CountyCitation} (hw : db.WF)
    (h : insertCountyCitation db cc = .ok db1) : db1.WF := by
  have hext := insertCountyCitation_extends h
  have e6 : db1.seqStates = db.seqStates := by
    unfold insertCountyCitation at h
    split at h
    · cases h
      rfl
    · split at h
      · cases h
        rfl
      · cases h
  obtain ⟨e1, e2, e3, e4, e5, hl⟩ := insertCountyCitation_ok_inv h
  refine ⟨by rw [e1]; exact hw.state_names, by rw [e2]; exact hw.masks_codes,
    by rw [e3]; exact hw.citation_texts, by rw [e4, e5]; exact hw.county_ids_le,
    by rw [e4]; exact hw.county_ids_sorted, ?_, ?_, by rw [e1, e6]; exact hw.state_ids_le,
    by rw [e1]; exact hw.state_ids_sorted, by rw [e1]; exact hw.state_ids_pos,
    by rw [e6]; exact hw.seqStates_nonneg⟩
  · intro r hr
    rw [e4] at hr
    exact ⟨hext.hasState (hw.county_fk r hr).1, hext.hasMasksOrder (hw.county_fk r hr).2⟩
  · intro l hl'
    rcases hl with ⟨_, e⟩ | ⟨hc, ht, e⟩
    · rw [e] at hl'
      exact ⟨hext.hasCounty (hw.link_fk l hl').1, hext.hasCitation (hw.link_fk l hl').2⟩
    · rw [e] at hl'
      rcases List.mem_append.1 hl' with hl' | hl'
      · exact ⟨hext.hasCounty (hw.link_fk l hl').1, hext.hasCitation (hw.link_fk l hl').2⟩
      · simp only [List.mem_singleton] at hl'
        subst hl'
        exact ⟨hext.hasCounty hc, hext.hasCitation ht⟩


theorem foldlM_insertCountyCitation_eq_ok {db : Db} {ccs : List CountyCitation}
    (h : ∀ l ∈ ccs, db.hasCounty l.county_id ∧ db.hasCitation l.citation_id) :
    ∃ db1, ccs.foldlM insertCountyCitation db = .ok db1 ∧ db1.states = db.states ∧
      db1.masks_orders = db.masks_orders ∧ db1.citations = db.citations ∧
      db1.counties = db.counties ∧ db1.seqCounties = db.seqCounties := by
  induction ccs generalizing db with
  | nil => exact ⟨db, rfl, rfl, rfl, rfl, rfl, rfl⟩
  | cons c cs ih =>
    obtain ⟨d, hd, e1, e2, e3, e4, e5, _⟩ :=
      insertCountyCitation_eq_ok (h c (by simp)).1 (h c (by simp)).2
    have hd' : ∀ l ∈ cs, d.hasCounty l.county_id ∧ d.hasCitation l.citation_id := by
      intro l hl
      have := h l (by simp [hl])
      exact ⟨(insertCountyCitation_extends hd).hasCounty this.1,
        (insertCountyCitation_extends hd).hasCitation this.2⟩
    obtain ⟨d2, hd2, f1, f2, f3, f4, f5⟩ := ih hd'
    refine ⟨d2, ?_, f1.trans e1, f2.trans e2, f3.trans e3, f4.trans e4, f5.trans e5⟩
    rw [List.foldlM_cons, hd]
    exact hd2

theorem foldlM_insertCountyCitation_ok_inv {db db1 : Db} {ccs : List CountyCitation}
    (h : ccs.foldlM insertCountyCitation db = .ok db1) :
    db1.states = db.states ∧ db1.masks_orders = db.masks_orders ∧
      db1.citations = db.citations ∧ db1.counties = db.counties ∧
      db1.seqCounties = db.seqCounties ∧ (db.WF → db1.WF) ∧
      (∀ l ∈ db1.county_citations, l ∈ db.county_citations ∨ l ∈ ccs) ∧
      (∀ l ∈ ccs, l ∈ db1.county_citations) := by
  induction ccs generalizing db with
  | nil =>
    cases h
    exact ⟨rfl, rfl, rfl, rfl, rfl, id, fun l hl => Or.inl hl, by simp⟩
  | cons c cs ih =>
    rw [List.foldlM_cons] at h
    cases hc : insertCountyCitation db c with
    | error e => rw [hc] at h; cases h
    | ok d =>
      rw [hc] at h
      obtain ⟨e1, e2, e3, e4, e5, hl⟩ := insertCountyCitation_ok_inv hc
      obtain ⟨f1, f2, f3, f4, f5, fw, fl, fm⟩ := ih h
      refine ⟨f1.trans e1, f2.trans e2, f3.trans e3, f4.trans e4, f5.trans e5,
        fun hw => fw (insertCountyCitation_wf hw hc), ?_, ?_⟩
      · intro l hl1
        rcases fl l hl1 with hl2 | hl2
        · rcases hl with ⟨_, e⟩ | ⟨_, _, e⟩
          · rw [e] at hl2
            exact Or.inl hl2
          · rw [e] at hl2
            rcases List.mem_append.1 hl2 with hl2 | hl2
            · exact Or.inl hl2
            · right
              simp only [List.mem_singleton] at hl2
              simp [hl2]
        · right
          simp [hl2]
      · intro l hl1
        rcases List.mem_cons.1 hl1 with rfl | hl1
        · have hsub : d.county_citations ⊆ db1.county_citations := by
            have : d.Extends db1 := by
              have := @insertCountyCitations_extends false d db1 cs (by
                simpa [insertCountyCitations] using h)
              exact this
            exact this.county_citations.subset
          apply hsub
          rcases hl with ⟨hmem, e⟩ | ⟨_, _, e⟩
          · rw [e]; exact hmem
          · rw [e]; simp
        · exact fm l hl1

/-! ### Reference resolution -/

theorem Pipeline.Le.self (p : Pipeline) : p.Le p :=
  ⟨Db.Extends.same _, fun _ _ h => h, fun _ _ h => h, fun _ _ h => h⟩

theorem Pipeline.Le.step {a b c : Pipeline} (h₁ : a.Le b) (h₂ : b.Le c) : a.Le c :=
  ⟨h₁.db.andThen h₂.db, fun k id h => h₂.stateCache k id (h₁.stateCache k id h),
    fun k id h => h₂.masksOrderCache k id (h₁.masksOrderCache k id h),
    fun k id h => h₂.citationCache k id (h₁.citationCache k id h)⟩

theorem Pipeline.SameLoad.rfl_load (p : Pipeline) : p.SameLoad p :=
  ⟨rfl, rfl, rfl, rfl, rfl, rfl, rfl, rfl⟩

theorem Pipeline.SameLoad.chain {a b c : Pipeline} (h₁ : a.SameLoad b) (h₂ : b.SameLoad c) :
    a.SameLoad c :=
  ⟨h₂.countyBatch.trans h₁.countyBatch, h₂.countyCitationsBatch.trans h₁.countyCitationsBatch,
    h₂.totalRows.trans h₁.totalRows, h₂.rowErrors.trans h₁.rowErrors,
    h₂.finalError.trans h₁.finalError, h₂.counties.trans h₁.counties,
    h₂.county_citations.trans h₁.county_citations, h₂.seqCounties.trans h₁.seqCounties⟩

/-- Replacing the database by a well-formed extension keeps the invariant. -/
theorem Pipeline.Inv.of_extends {p : Pipeline} (h : p.Inv) {db : Db} (hext : p.db.Extends db)
    (hw : db.WF) : ({ p with db := db } : Pipeline).Inv :=
  ⟨hw, fun k id hk => hext.states.subset (h.stateCache_sound k id hk),
    fun k id hk => ⟨hext.masks_orders.subset (h.masksOrderCache_sound k id hk).1,
      (h.masksOrderCache_sound k id hk).2⟩,
    fun k id hk => hext.citations.subset (h.citationCache_sound k id hk),
    fun c hc => hext.admits (h.batch_fk c hc),
    fun l hl => ⟨hext.hasCounty (h.links_fk l hl).1, hext.hasCitation (h.links_fk l hl).2⟩⟩

theorem lookup_cons_of_none {κ : Type} [BEq κ] [LawfulBEq κ] {cache : List (κ × Int)} {k : κ}
    (hk : cache.lookup k = none) (v : Int) (k' : κ) (id : Int)
    (h : cache.lookup k' = some id) : ((k, v) :: cache).lookup k' = some id := by
  rw [List.lookup_cons]
  have : (k' == k) = false := by
    apply Bool.eq_false_iff.2
    intro hkk
    rw [eq_of_beq hkk, hk] at h
    cases h
  rw [this]
  exact h


theorem getStateId_mem {db : Db} {name : String} {id : Int} (h : getStateId db name = some id) :
    ({ id := id, name := name } : StateRow) ∈ db.states := by
  unfold getStateId at h
  cases hf : db.states.find? (fun r => decide (r.name = name)) with
  | none => rw [hf] at h; cases h
  | some r =>
    rw [hf] at h
    have h1 := List.find?_some hf
    have h2 := List.mem_of_find?_eq_some hf
    simp only [decide_eq_true_eq] at h1
    simp only [Option.map_some', Option.some.injEq] at h
    subst h
    subst h1
    exact h2

theorem getStateId_insertState (db : Db) (name : String) :
    ∃ id, getStateId (insertState db name) name = some id := by
  have : ((insertState db name).states.find? (fun r => decide (r.name = name))).isSome := by
    rw [List.find?_isSome]
    unfold insertState
    split
    · rename_i hany
      simpa using hany
    · exact ⟨_, List.mem_append_right _ (List.mem_singleton_self _), by simp⟩
  obtain ⟨r, hr⟩ := Option.isSome_iff_exists.1 this
  exact ⟨r.id, by simp [getStateId, hr]⟩

theorem getMasksOrderId_mem {db : Db} {code : Option Int} {id : Int}
    (h : getMasksOrderId db code = some id) :
    ({ id := id, code := code } : MasksOrderRow) ∈ db.masks_orders ∧ code.isSome = true := by
  unfold getMasksOrderId at h
  split at h
  · rename_i hsome
    refine ⟨?_, hsome⟩
    cases hf : db.masks_orders.find? (fun r => decide (r.code = code)) with
    | none => rw [hf] at h; cases h
    | some r =>
      rw [hf] at h
      have h1 := List.find?_some hf
      have h2 := List.mem_of_find?_eq_some hf
      simp only [decide_eq_true_eq] at h1
      simp only [Option.map_some', Option.some.injEq] at h
      subst h
      subst h1
      exact h2
  · cases h

theorem getMasksOrderId_insertMasksOrder (db : Db) (c : Int) :
    ∃ id, getMasksOrderId (insertMasksOrder db (some c)) (some c) = some id := by
  have : ((insertMasksOrder db (some c)).masks_orders.find?
      (fun r => decide (r.code = some c))).isSome := by
    rw [List.find?_isSome]
    unfold insertMasksOrder
    split
    · rename_i hany
      simpa using hany
    · exact ⟨_, List.mem_append_right _ (List.mem_singleton_self _), by simp⟩
  obtain ⟨r, hr⟩ := Option.isSome_iff_exists.1 this
  exact ⟨r.id, by simp [getMasksOrderId, hr]⟩

theorem getCitationId_mem {db : Db} {citation : String} {id : Int}
    (h : getCitationId db citation = some id) :
    ({ id := id, citation := citation } : CitationRow) ∈ db.citations := by
  unfold getCitationId at h
  cases hf : db.citations.find? (fun r => decide (r.citation = citation)) with
  | none => rw [hf] at h; cases h
  | some r =>
    rw [hf] at h
    have h1 := List.find?_some hf
    have h2 := List.mem_of_find?_eq_some hf
    simp only [decide_eq_true_eq] at h1
    simp only [Option.map_some', Option.some.injEq] at h
    subst h
    subst h1
    exact h2

theorem getCitationId_insertCitation (db : Db) (citation : String) :
    ∃ id, getCitationId (insertCitation db citation) citation = some id := by
  have : ((insertCitation db citation).citations.find?
      (fun r => decide (r.citation = citation))).isSome := by
    rw [List.find?_isSome]
    unfold insertCitation
    split
    · rename_i hany
      simpa using hany
    · exact ⟨_, List.mem_append_right _ (List.mem_singleton_self _), by simp⟩
  obtain ⟨r, hr⟩ := Option.isSome_iff_exists.1 this
  exact ⟨r.id, by simp [getCitationId, hr]⟩

theorem insertState_sameLoad (p : Pipeline) (name : String) :
    p.SameLoad { p with db := insertState p.db name } := by
  refine ⟨rfl, rfl, rfl, rfl, rfl, ?_, ?_, ?_⟩ <;>
    (unfold insertState; split <;> rfl)

theorem insertMasksOrder_sameLoad (p : Pipeline) (code : Option Int) :
    p.SameLoad { p with db := insertMasksOrder p.db code } := by
  refine ⟨rfl, rfl, rfl, rfl, rfl, ?_, ?_, ?_⟩ <;>
    (unfold insertMasksOrder; split <;> rfl)

theorem insertCitation_sameLoad (p : Pipeline) (citation : String) :
    p.SameLoad { p with db := insertCitation p.db citation } := by
  refine ⟨rfl, rfl, rfl, rfl, rfl, ?_, ?_, ?_⟩ <;>
    (unfold insertCitation; split <;> rfl)

/-- Resolving a jurisdiction name always yields an id, which is then the
cached one. -/
theorem resolveState_spec (p : Pipeline) (name : String) :
    ∃ id, (resolveState p name).2 = .ok id ∧
      (resolveState p name).1.stateCache.lookup name = some id ∧
      p.Le (resolveState p name).1 ∧ p.SameLoad (resolveState p name).1 ∧
      (p.Inv → (resolveState p name).1.Inv) := by
  unfold resolveState
  cases hl : p.stateCache.lookup name with
  | some id => exact ⟨id, rfl, hl, Pipeline.Le.self p, Pipeline.SameLoad.rfl_load p, fun h => h⟩
  | none =>
    obtain ⟨id, hid⟩ := getStateId_insertState p.db name
    simp only [hid]
    refine ⟨id, rfl, by simp, ?_, ?_, ?_⟩
    · exact ⟨insertState_extends _ _, lookup_cons_of_none hl id, fun _ _ h => h,
        fun _ _ h => h⟩
    · have := insertState_sameLoad p name
      exact ⟨this.countyBatch, this.countyCitationsBatch, this.totalRows, this.rowErrors,
        this.finalError, this.counties, this.county_citations, this.seqCounties⟩
    · intro hinv
      have h1 := hinv.of_extends (insertState_extends p.db name) (insertState_wf hinv.db_wf name)
      refine ⟨h1.db_wf, ?_, h1.masksOrderCache_sound, h1.citationCache_sound, h1.batch_fk,
        h1.links_fk⟩
      intro k i hk
      rw [List.lookup_cons] at hk
      by_cases hkn : k = name
      · subst hkn
        simp only [beq_self_eq_true, Option.some.injEq] at hk
        subst hk
        exact getStateId_mem hid
      · have : (k == name) = false := by simpa using hkn
        rw [this] at hk
        exact h1.stateCache_sound k i hk


/-- Resolving a policy code: a number always yields an id, which is then the
cached one; `NaN` inserts a `NULL` row, finds nothing and throws. -/
theorem resolveMasksOrder_spec (p : Pipeline) (code : Option Int) :
    p.Le (resolveMasksOrder p code).1 ∧ p.SameLoad (resolveMasksOrder p code).1 ∧
      (p.Inv → (resolveMasksOrder p code).1.Inv) ∧
      (∀ c, code = some c → ∃ id, (resolveMasksOrder p code).2 = .ok id ∧
        (resolveMasksOrder p code).1.masksOrderCache.lookup code = some id) ∧
      (code = none → p.Inv → (resolveMasksOrder p code).2 = .error .typeError) := by
  unfold resolveMasksOrder
  cases hl : p.masksOrderCache.lookup code with
  | some id =>
    refine ⟨Pipeline.Le.self p, Pipeline.SameLoad.rfl_load p, fun h => h, fun c _ => ⟨id, rfl, hl⟩, ?_⟩
    intro hc hinv
    have := (hinv.masksOrderCache_sound code id hl).2
    rw [hc] at this
    cases this
  | none =>
    have hsl := insertMasksOrder_sameLoad p code
    cases hg : getMasksOrderId (insertMasksOrder p.db code) code with
    | none =>
      simp only [hg]
      refine ⟨⟨insertMasksOrder_extends _ _, fun _ _ h => h, fun _ _ h => h, fun _ _ h => h⟩,
        hsl, ?_, ?_, fun _ _ => trivial⟩
      · intro hinv
        exact hinv.of_extends (insertMasksOrder_extends p.db code)
          (insertMasksOrder_wf hinv.db_wf code)
      · intro c hc
        subst hc
        obtain ⟨id, hid⟩ := getMasksOrderId_insertMasksOrder p.db c
        rw [hid] at hg
        cases hg
    | some id =>
      simp only [hg]
      refine ⟨⟨insertMasksOrder_extends _ _, fun _ _ h => h, lookup_cons_of_none hl id,
        fun _ _ h => h⟩, ?_, ?_, fun c _ => ⟨id, rfl, by simp⟩, ?_⟩
      · exact ⟨hsl.countyBatch, hsl.countyCitationsBatch, hsl.totalRows, hsl.rowErrors,
          hsl.finalError, hsl.counties, hsl.county_citations, hsl.seqCounties⟩
      · intro hinv
        have h1 := hinv.of_extends (insertMasksOrder_extends p.db code)
          (insertMasksOrder_wf hinv.db_wf code)
        refine ⟨h1.db_wf, h1.stateCache_sound, ?_, h1.citationCache_sound, h1.batch_fk,
          h1.links_fk⟩
        intro k i hk
        rw [List.lookup_cons] at hk
        by_cases hkn : k = code
        · subst hkn
          simp only [beq_self_eq_true, Option.some.injEq] at hk
          subst hk
          exact getMasksOrderId_mem hg
        · have : (k == code) = false := by simpa using hkn
          rw [this] at hk
          exact h1.masksOrderCache_sound k i hk
      · intro hc _
        have := (getMasksOrderId_mem hg).2
        rw [hc] at this
        cases this

/-- Resolving a citation text always yields an id, which is then the cached
one. -/
theorem resolveCitation_spec (p : Pipeline) (citation : String) :
    ∃ id, (resolveCitation p citation).2 = .ok id ∧
      (resolveCitation p citation).1.citationCache.lookup citation = some id ∧
      p.Le (resolveCitation p citation).1 ∧ p.SameLoad (resolveCitation p citation).1 ∧
      (p.Inv → (resolveCitation p citation).1.Inv) := by
  unfold resolveCitation
  cases hl : p.citationCache.lookup citation with
  | some id => exact ⟨id, rfl, hl, Pipeline.Le.self p, Pipeline.SameLoad.rfl_load p, fun h => h⟩
  | none =>
    obtain ⟨id, hid⟩ := getCitationId_insertCitation p.db citation
    simp only [hid]
    refine ⟨id, rfl, by simp, ?_, ?_, ?_⟩
    · exact ⟨insertCitation_extends _ _, fun _ _ h => h, fun _ _ h => h,
        lookup_cons_of_none hl id⟩
    · have := insertCitation_sameLoad p citation
      exact ⟨this.countyBatch, this.countyCitationsBatch, this.totalRows, this.rowErrors,
        this.finalError, this.counties, this.county_citations, this.seqCounties⟩
    · intro hinv
      have h1 := hinv.of_extends (insertCitation_extends p.db citation)
        (insertCitation_wf hinv.db_wf citation)
      refine ⟨h1.db_wf, h1.stateCache_sound, h1.masksOrderCache_sound, ?_, h1.batch_fk,
        h1.links_fk⟩
      intro k i hk
      rw [List.lookup_cons] at hk
      by_cases hkn : k = citation
      · subst hkn
        simp only [beq_self_eq_true, Option.some.injEq] at hk
        subst hk
        exact getCitationId_mem hid
      · have : (k == citation) = false := by simpa using hkn
        rw [this] at hk
        exact h1.citationCache_sound k i hk

/-- Resolving a list of citation texts yields one id per text, each the
cached id of its text. -/
theorem resolveCitations_spec (p : Pipeline) (texts : List String) :
    ∃ ids, (resolveCitations p texts).2 = .ok ids ∧
      List.Forall₂ (fun t id => (resolveCitations p texts).1.citationCache.lookup t = some id)
        texts ids ∧
      p.Le (resolveCitations p texts).1 ∧ p.SameLoad (resolveCitations p texts).1 ∧
      (p.Inv → (resolveCitations p texts).1.Inv) := by
  induction texts generalizing p with
  | nil =>
    exact ⟨[], rfl, List.Forall₂.nil, Pipeline.Le.self p, Pipeline.SameLoad.rfl_load p, fun h => h⟩
  | cons t ts ih =>
    obtain ⟨id, h1, h2, h3, h4, h5⟩ := resolveCitation_spec p t
    obtain ⟨ids, g1, g2, g3, g4, g5⟩ := ih (resolveCitation p t).1
    have e : resolveCitations p (t :: ts) =
        ((resolveCitations (resolveCitation p t).1 ts).1, .ok (id :: ids)) := by
      rw [resolveCitations]
      generalize resolveCitation p t = r at h1 g1 ⊢
      obtain ⟨r1, r2⟩ := r
      simp only at h1
      subst h1
      simp only
      generalize resolveCitations r1 ts = q at g1 ⊢
      obtain ⟨q1, q2⟩ := q
      simp only at g1
      subst g1
      rfl
    rw [e]
    exact ⟨id :: ids, rfl, List.Forall₂.cons (g3.citationCache t id h2) g2, h3.step g3,
      h4.chain g4, fun h => g5 (h5 h)⟩


/-! ### `parseRow` -/

theorem Pipeline.Inv.hasState_of_cache {p : Pipeline} (h : p.Inv) {k : String} {id : Int}
    (hk : p.stateCache.lookup k = some id) : p.db.hasState id :=
  ⟨_, h.stateCache_sound k id hk, rfl⟩

theorem Pipeline.Inv.hasMasksOrder_of_cache {p : Pipeline} (h : p.Inv) {k : Option Int} {id : Int}
    (hk : p.masksOrderCache.lookup k = some id) : p.db.hasMasksOrder id :=
  ⟨_, (h.masksOrderCache_sound k id hk).1, rfl⟩

theorem Pipeline.Inv.hasCitation_of_cache {p : Pipeline} (h : p.Inv) {k : String} {id : Int}
    (hk : p.citationCache.lookup k = some id) : p.db.hasCitation id :=
  ⟨_, h.citationCache_sound k id hk, rfl⟩

/-- What `parseRow` does: it only adds reference rows and cache bindings; it
throws exactly when the policy code is `NaN`; otherwise the object it returns
carries the cached ids of the record's keys and the converted fields. -/
theorem parseRow_spec (dp : DateParser) (p : Pipeline) (row : Row) :
    p.Le (parseRow dp p row).1 ∧ p.SameLoad (parseRow dp p row).1 ∧
      (p.Inv → (parseRow dp p row).1.Inv) ∧
      (parseInt row.Masks_Order_Code.toList = none → p.Inv →
        (parseRow dp p row).2 = .error .typeError) ∧
      (∀ c, parseInt row.Masks_Order_Code.toList = some c →
        ∃ parsed, (parseRow dp p row).2 = .ok parsed ∧
          (parseRow dp p row).1.stateCache.lookup row.State_Tribe_Territory
            = some parsed.state_id ∧
          (parseRow dp p row).1.masksOrderCache.lookup (some c) = some parsed.masks_order_id ∧
          List.Forall₂ (fun t id => (parseRow dp p row).1.citationCache.lookup t = some id)
            (citationTexts row) parsed.citation_ids ∧
          parsed.county_name = row.County_Name ∧
          parsed.fips_code = parseInt row.FIPS_Code.toList ∧
          parsed.date = unixSeconds dp row.Date ∧
          parsed.face_masks_required
            = faceMasksRequired row.Face_Masks_Required_in_Public.toList) := by
  obtain ⟨sid, a1, a2, a3, a4, a5⟩ := resolveState_spec p row.State_Tribe_Territory
  unfold parseRow
  rcases hrs : resolveState p row.State_Tribe_Territory with ⟨p1, r1⟩
  rw [hrs] at a1 a2 a3 a4 a5
  simp only at a1 a2 a3 a4 a5
  subst a1
  simp only
  obtain ⟨b1, b2, b3, b4, b5⟩ := resolveMasksOrder_spec p1 (parseInt row.Masks_Order_Code.toList)
  rcases hrm : resolveMasksOrder p1 (parseInt row.Masks_Order_Code.toList) with ⟨p2, r2⟩
  rw [hrm] at b1 b2 b3 b4 b5
  simp only at b1 b2 b3 b4 b5
  cases hcode : parseInt row.Masks_Order_Code.toList with
  | none =>
    cases r2 with
    | error e =>
      simp only
      refine ⟨a3.step b1, a4.chain b2, fun h => b3 (a5 h), ?_, fun c hc => by cases hc⟩
      intro _ hinv
      have := b5 hcode (a5 hinv)
      cases this
      rfl
    | ok mid =>
      simp only
      obtain ⟨ids, c1, c2, c3, c4, c5⟩ := resolveCitations_spec p2 (citationTexts row)
      rcases hrc : resolveCitations p2 (citationTexts row) with ⟨p3, r3⟩
      rw [hrc] at c1 c2 c3 c4 c5
      simp only at c1 c2 c3 c4 c5
      subst c1
      simp only
      refine ⟨a3.step (b1.step c3), a4.chain (b2.chain c4), fun h => c5 (b3 (a5 h)), ?_,
        fun c hc => by cases hc⟩
      intro _ hinv
      have := b5 hcode (a5 hinv)
      cases this
  | some c =>
    obtain ⟨mid, m1, m2⟩ := b4 c hcode
    subst m1
    simp only
    obtain ⟨ids, c1, c2, c3, c4, c5⟩ := resolveCitations_spec p2 (citationTexts row)
    rcases hrc : resolveCitations p2 (citationTexts row) with ⟨p3, r3⟩
    rw [hrc] at c1 c2 c3 c4 c5
    simp only at c1 c2 c3 c4 c5
    subst c1
    simp only
    refine ⟨a3.step (b1.step c3), a4.chain (b2.chain c4), fun h => c5 (b3 (a5 h)),
      (fun hc => by cases hc), ?_⟩
    intro c' hc'
    cases hc'
    refine ⟨_, rfl, ?_, ?_, c2, rfl, rfl, rfl, rfl⟩
    · exact c3.stateCache _ _ (b1.stateCache _ _ a2)
    · rw [hcode] at m2
      exact c3.masksOrderCache _ _ m2


/-! ### The flush -/

theorem mem_deriveLinksFrom {firstId : Int} {i : Nat} {batch : List ParsedRow}
    {l : CountyCitation} (h : l ∈ deriveLinksFrom firstId i batch) :
    ∃ j, ∃ hj : j < batch.length, l.county_id = firstId + ((i + j : Nat) : Int) ∧
      l.citation_id ∈ batch[j].citation_ids := by
  induction batch generalizing i with
  | nil => simp [deriveLinksFrom] at h
  | cons c cs ih =>
    simp only [deriveLinksFrom, List.mem_append, List.mem_map] at h
    rcases h with ⟨cid, hcid, rfl⟩ | h
    · exact ⟨0, by simp, by simp, by simpa using hcid⟩
    · obtain ⟨j, hj, e1, e2⟩ := ih h
      refine ⟨j + 1, by simpa using hj, ?_, by simpa using e2⟩
      rw [e1]
      congr 2
      omega

theorem Db.addCounties_hasCounty (db : Db) (batch : List ParsedRow) (j : Nat)
    (hj : j < batch.length) : (db.addCounties batch).hasCounty (db.seqCounties + 1 + (j : Int)) := by
  have h := assignIds_getElem db.seqCounties batch j hj
  refine ⟨countyRow (db.seqCounties + 1 + (j : Int)) batch[j], ?_, rfl⟩
  show countyRow (db.seqCounties + 1 + (j : Int)) batch[j] ∈
    db.counties ++ assignIds db.seqCounties batch
  exact List.mem_append_right _ (List.getElem?_mem h)

theorem Db.addCounties_lastInsertRowid (db : Db) (batch : List ParsedRow) (h : batch ≠ []) :
    (db.addCounties batch).lastInsertRowid = db.seqCounties + (batch.length : Int) := by
  cases batch with
  | nil => exact absurd rfl h
  | cons c cs => simp [Db.addCounties]

/-- The links derived after a successful county insert name rows that exist,
provided the count subtracted from `last_insert_rowid()` is the batch length. -/
theorem derived_links_valid {p : Pipeline} (hinv : p.Inv) (l : CountyCitation)
    (hl : l ∈ deriveLinksFrom
      ((p.db.addCounties p.countyBatch).lastInsertRowid - (p.countyBatch.length : Int) + 1) 0
      p.countyBatch) :
    (p.db.addCounties p.countyBatch).hasCounty l.county_id ∧
      (p.db.addCounties p.countyBatch).hasCitation l.citation_id := by
  have hne : p.countyBatch ≠ [] := by
    intro h
    rw [h] at hl
    simp [deriveLinksFrom] at hl
  obtain ⟨j, hj, e1, e2⟩ := mem_deriveLinksFrom hl
  rw [Db.addCounties_lastInsertRowid _ _ hne] at e1
  constructor
  · have := Db.addCounties_hasCounty p.db p.countyBatch j hj
    have e : l.county_id = p.db.seqCounties + 1 + (j : Int) := by
      rw [e1]
      push_cast
      omega
    rw [e]
    exact this
  · exact (Db.addCounties_extends _ _).hasCitation
      ((hinv.batch_fk _ (List.getElem_mem hj)).2.2 _ e2)

theorem Pipeline.Inv.batch_insertable {p : Pipeline} (hinv : p.Inv) :
    ∀ c ∈ p.countyBatch, p.db.hasState c.state_id ∧ p.db.hasMasksOrder c.masks_order_id :=
  fun c hc => ⟨(hinv.batch_fk c hc).1, (hinv.batch_fk c hc).2.1⟩

/-- The state between the two transactions of a flush whose county insert
succeeded. -/
theorem flush_mid_inv {p : Pipeline} (hinv : p.Inv) :
    ({ p with db := p.db.addCounties p.countyBatch,
              countyCitationsBatch := p.countyCitationsBatch ++ deriveLinksFrom
                ((p.db.addCounties p.countyBatch).lastInsertRowid
                  - (p.countyBatch.length : Int) + 1) 0 p.countyBatch } : Pipeline).Inv := by
  have h1 := hinv.of_extends (Db.addCounties_extends p.db p.countyBatch)
    (Db.addCounties_wf hinv.db_wf hinv.batch_insertable)
  refine ⟨h1.db_wf, h1.stateCache_sound, h1.masksOrderCache_sound, h1.citationCache_sound,
    h1.batch_fk, ?_⟩
  intro l hl
  rcases List.mem_append.1 hl with hl | hl
  · exact h1.links_fk l hl
  · exact derived_links_valid hinv l hl

/-- A flush, whatever the store does: it keeps the caches, the record buffer
and the counters of the handlers, only adds rows, and keeps the invariant
when the count `n` is the batch length. -/
theorem flushBatch_spec (n : Nat) (fault : Fault) (p : Pipeline) :
    p.Le (flushBatch n fault p).1 ∧
      (flushBatch n fault p).1.countyBatch = p.countyBatch ∧
      (flushBatch n fault p).1.totalRows = p.totalRows ∧
      (flushBatch n fault p).1.rowErrors = p.rowErrors ∧
      (flushBatch n fault p).1.finalError = p.finalError ∧
      (flushBatch n fault p).1.stateCache = p.stateCache ∧
      (flushBatch n fault p).1.masksOrderCache = p.masksOrderCache ∧
      (flushBatch n fault p).1.citationCache = p.citationCache ∧
      (p.Inv → n = p.countyBatch.length → (flushBatch n fault p).1.Inv) := by
  unfold flushBatch
  cases h1 : insertCounties (decide (fault = Fault.counties)) p.db p.countyBatch with
  | error e => exact ⟨Pipeline.Le.self p, rfl, rfl, rfl, rfl, rfl, rfl, rfl, fun h _ => h⟩
  | ok db1 =>
    simp only
    have hext1 := insertCounties_extends h1
    have hdb1 : db1 = p.db.addCounties p.countyBatch := by
      unfold insertCounties at h1
      split at h1
      · cases h1
      · exact (foldlM_insertCounty_ok_inv h1).1
    cases h2 : insertCountyCitations (decide (fault = Fault.links)) db1
        (p.countyCitationsBatch ++ deriveLinksFrom (db1.lastInsertRowid - (n : Int) + 1) 0
          p.countyBatch) with
    | error e =>
      refine ⟨⟨hext1, fun _ _ h => h, fun _ _ h => h, fun _ _ h => h⟩, rfl, rfl, rfl, rfl, rfl,
        rfl, rfl, ?_⟩
      intro hinv hn
      subst hn
      subst hdb1
      exact flush_mid_inv hinv
    | ok db2 =>
      have hext2 := insertCountyCitations_extends h2
      refine ⟨⟨hext1.andThen hext2, fun _ _ h => h, fun _ _ h => h, fun _ _ h => h⟩, rfl, rfl, rfl,
        rfl, rfl, rfl, rfl, ?_⟩
      intro hinv hn
      subst hn
      subst hdb1
      have hmid := flush_mid_inv hinv
      have hw : db2.WF := by
        unfold insertCountyCitations at h2
        split at h2
        · cases h2
        · exact (foldlM_insertCountyCitation_ok_inv h2).2.2.2.2.2.1 hmid.db_wf
      exact hmid.of_extends hext2 hw


/-- A flush whose county insert the store fails changes nothing. -/
theorem flushBatch_counties_fault (n : Nat) (p : Pipeline) :
    flushBatch n Fault.counties p = (p, .error .storeFailure) := by
  simp [flushBatch, insertCounties]

/-- A flush whose link insert the store fails: the county rows of the batch
are stored, the derived links are left in the link buffer, no link is stored. -/
theorem flushBatch_links_fault {p : Pipeline} (hinv : p.Inv) (n : Nat) :
    flushBatch n Fault.links p =
      ({ p with db := p.db.addCounties p.countyBatch,
                countyCitationsBatch := p.countyCitationsBatch ++ deriveLinksFrom
                  ((p.db.addCounties p.countyBatch).lastInsertRowid - (n : Int) + 1) 0
                  p.countyBatch },
        .error .storeFailure) := by
  have h1 : insertCounties (decide (Fault.links = Fault.counties)) p.db p.countyBatch
      = .ok (p.db.addCounties p.countyBatch) := by
    simp only [insertCounties]
    exact foldlM_insertCounty_eq_ok hinv.batch_insertable
  unfold flushBatch
  simp only [h1]
  simp [insertCountyCitations]

/-! ### The `data` handler -/

theorem Pipeline.Inv.congr {p q : Pipeline} (h : p.Inv) (e1 : q.db = p.db)
    (e2 : q.stateCache = p.stateCache) (e3 : q.masksOrderCache = p.masksOrderCache)
    (e4 : q.citationCache = p.citationCache) (e5 : q.countyBatch = p.countyBatch)
    (e6 : q.countyCitationsBatch = p.countyCitationsBatch) : q.Inv := by
  refine ⟨?_, ?_, ?_, ?_, ?_, ?_⟩
  · rw [e1]; exact h.db_wf
  · rw [e1, e2]; exact h.stateCache_sound
  · rw [e1, e3]; exact h.masksOrderCache_sound
  · rw [e1, e4]; exact h.citationCache_sound
  · rw [e1, e5]; exact h.batch_fk
  · rw [e1, e6]; exact h.links_fk

theorem onData_parse_error {dp : DateParser} {p p1 : Pipeline} {ev : Event} {e : JsError}
    (h : parseRow dp { p with totalRows := p.totalRows + 1 } ev.row = (p1, .error e)) :
    onData dp p ev = { p1 with rowErrors := p1.rowErrors ++ [p1.totalRows] } := by
  unfold onData
  simp only [h]

theorem onData_parse_ok {dp : DateParser} {p p1 : Pipeline} {ev : Event} {parsed : ParsedRow}
    (h : parseRow dp { p with totalRows := p.totalRows + 1 } ev.row = (p1, .ok parsed)) :
    onData dp p ev =
      if (p1.countyBatch ++ [parsed]).length = batchSize then
        match flushBatch batchSize ev.fault { p1 with countyBatch := p1.countyBatch ++ [parsed] } with
        | (p3, .error _) => { p3 with rowErrors := p3.rowErrors ++ [p3.totalRows] }
        | (p3, .ok _) => { p3 with countyBatch := [], countyCitationsBatch := [] }
      else { p1 with countyBatch := p1.countyBatch ++ [parsed] } := by
  unfold onData
  simp only [h]

theorem admits_of_parse {p1 : Pipeline} (hinv : p1.Inv) {name : String} {c : Int}
    {texts : List String} {parsed : ParsedRow}
    (h1 : p1.stateCache.lookup name = some parsed.state_id)
    (h2 : p1.masksOrderCache.lookup (some c) = some parsed.masks_order_id)
    (h3 : List.Forall₂ (fun t id => p1.citationCache.lookup t = some id) texts
      parsed.citation_ids) : p1.db.admits parsed := by
  refine ⟨hinv.hasState_of_cache h1, hinv.hasMasksOrder_of_cache h2, ?_⟩
  intro cid hcid
  generalize parsed.citation_ids = ids at h3 hcid
  induction h3 with
  | nil => simp at hcid
  | cons hd _ ih =>
    rcases List.mem_cons.1 hcid with rfl | hcid
    · exact hinv.hasCitation_of_cache hd
    · exact ih hcid

/-- One `data` event: rows and cache bindings are only added, the invariant
is kept, and the record is counted. -/
theorem onData_spec (dp : DateParser) (p : Pipeline) (ev : Event) :
    p.Le (onData dp p ev) ∧ (p.Inv → (onData dp p ev).Inv) ∧
      (onData dp p ev).totalRows = p.totalRows + 1 ∧
      (onData dp p ev).finalError = p.finalError := by
  obtain ⟨a1, a2, a3, a4, a5⟩ := parseRow_spec dp { p with totalRows := p.totalRows + 1 } ev.row
  have hinv0 : p.Inv → ({ p with totalRows := p.totalRows + 1 } : Pipeline).Inv :=
    fun h => h.congr rfl rfl rfl rfl rfl rfl
  rcases hpr : parseRow dp { p with totalRows := p.totalRows + 1 } ev.row with ⟨p1, r⟩
  rw [hpr] at a1 a2 a3 a4 a5
  simp only at a1 a2 a3 a4 a5
  replace a1 : p.Le p1 := ⟨a1.db, a1.stateCache, a1.masksOrderCache, a1.citationCache⟩
  cases r with
  | error e =>
    rw [onData_parse_error hpr]
    exact ⟨⟨a1.db, a1.stateCache, a1.masksOrderCache, a1.citationCache⟩,
      fun h => (a3 (hinv0 h)).congr rfl rfl rfl rfl rfl rfl, a2.totalRows, a2.finalError⟩
  | ok parsed =>
    rw [onData_parse_ok hpr]
    have hadm : p.Inv → p1.db.admits parsed := by
      intro h
      cases hc : parseInt ev.row.Masks_Order_Code.toList with
      | none =>
        have := a4 hc (hinv0 h)
        cases this
      | some c =>
        obtain ⟨q, hq, b1, b2, b3, _⟩ := a5 c hc
        cases hq
        exact admits_of_parse (a3 (hinv0 h)) b1 b2 b3
    have hinv2 : p.Inv →
        ({ p1 with countyBatch := p1.countyBatch ++ [parsed] } : Pipeline).Inv := by
      intro h
      have h1 := a3 (hinv0 h)
      refine ⟨h1.db_wf, h1.stateCache_sound, h1.masksOrderCache_sound, h1.citationCache_sound,
        ?_, h1.links_fk⟩
      intro c hc
      rcases List.mem_append.1 hc with hc | hc
      · exact h1.batch_fk c hc
      · simp only [List.mem_singleton] at hc
        subst hc
        exact hadm h
    split
    · rename_i hlen
      obtain ⟨f1, f2, f3, f4, f5, f6, f7, f8, f9⟩ :=
        flushBatch_spec batchSize ev.fault { p1 with countyBatch := p1.countyBatch ++ [parsed] }
      rcases hfl : flushBatch batchSize ev.fault
        { p1 with countyBatch := p1.countyBatch ++ [parsed] } with ⟨p3, r3⟩
      rw [hfl] at f1 f2 f3 f4 f5 f6 f7 f8 f9
      simp only at f1 f2 f3 f4 f5 f6 f7 f8 f9
      have hle : p.Le p3 := a1.step ⟨f1.db, f1.stateCache, f1.masksOrderCache, f1.citationCache⟩
      cases r3 with
      | error e =>
        exact ⟨⟨hle.db, hle.stateCache, hle.masksOrderCache, hle.citationCache⟩,
          fun h => (f9 (hinv2 h) hlen.symm).congr rfl rfl rfl rfl rfl rfl,
          f3.trans a2.totalRows, f5.trans a2.finalError⟩
      | ok u =>
        refine ⟨⟨hle.db, hle.stateCache, hle.masksOrderCache, hle.citationCache⟩, ?_,
          f3.trans a2.totalRows, f5.trans a2.finalError⟩
        intro h
        have h3 := f9 (hinv2 h) hlen.symm
        exact ⟨h3.db_wf, h3.stateCache_sound, h3.masksOrderCache_sound, h3.citationCache_sound,
          fun c hc => by simp at hc, fun l hl => by simp at hl⟩
    · exact ⟨⟨a1.db, a1.stateCache, a1.masksOrderCache, a1.citationCache⟩, hinv2,
        a2.totalRows, a2.finalError⟩

theorem Pipeline.Inv.init : Pipeline.init.Inv := by
  refine ⟨Db.WF.empty, ?_, ?_, ?_, ?_, ?_⟩ <;> simp [Pipeline.init]

/-- A run of `data` events only adds rows and cache bindings and keeps the
invariant. -/
theorem runFrom_spec (dp : DateParser) (p : Pipeline) (evs : List Event) :
    p.Le (runFrom dp p evs) ∧ (p.Inv → (runFrom dp p evs).Inv) ∧
      (runFrom dp p evs).totalRows = p.totalRows + evs.length := by
  induction evs generalizing p with
  | nil => exact ⟨Pipeline.Le.self p, fun h => h, rfl⟩
  | cons ev evs ih =>
    obtain ⟨a1, a2, a3, _⟩ := onData_spec dp p ev
    obtain ⟨b1, b2, b3⟩ := ih (onData dp p ev)
    refine ⟨a1.step b1, fun h => b2 (a2 h), ?_⟩
    show (runFrom dp (onData dp p ev) evs).totalRows = _
    rw [b3, a3, List.length_cons]
    omega

theorem run_inv (dp : DateParser) (evs : List Event) : (run dp evs).Inv :=
  (runFrom_spec dp Pipeline.init evs).2.1 Pipeline.Inv.init

theorem runFrom_append (dp : DateParser) (p : Pipeline) (evs₁ evs₂ : List Event) :
    runFrom dp p (evs₁ ++ evs₂) = runFrom dp (runFrom dp p evs₁) evs₂ := by
  simp [runFrom, List.foldl_append]

/-- The `end` handler only adds rows and keeps the invariant. -/
theorem onEnd_spec (fault : Fault) (p : Pipeline) :
    p.Le (onEnd fault p) ∧ (p.Inv → (onEnd fault p).Inv) := by
  unfold onEnd
  split
  · obtain ⟨f1, f2, f3, f4, f5, f6, f7, f8, f9⟩ := flushBatch_spec p.countyBatch.length fault p
    rcases hfl : flushBatch p.countyBatch.length fault p with ⟨p3, r3⟩
    rw [hfl] at f1 f2 f3 f4 f5 f6 f7 f8 f9
    simp only at f1 f2 f3 f4 f5 f6 f7 f8 f9
    cases r3 with
    | error e =>
      exact ⟨⟨f1.db, f1.stateCache, f1.masksOrderCache, f1.citationCache⟩,
        fun h => (f9 h trivial).congr rfl rfl rfl rfl rfl rfl⟩
    | ok u => exact ⟨f1, fun h => f9 h trivial⟩
  · exact ⟨Pipeline.Le.self p, fun h => h⟩


theorem parseRow_le_onData (dp : DateParser) (p : Pipeline) (ev : Event) :
    (parseRow dp { p with totalRows := p.totalRows + 1 } ev.row).1.Le (onData dp p ev) := by
  rcases hpr : parseRow dp { p with totalRows := p.totalRows + 1 } ev.row with ⟨p1, r⟩
  cases r with
  | error e =>
    rw [onData_parse_error hpr]
    exact ⟨Db.Extends.same _, fun _ _ h => h, fun _ _ h => h, fun _ _ h => h⟩
  | ok parsed =>
    rw [onData_parse_ok hpr]
    split
    · obtain ⟨f1, _⟩ :=
        flushBatch_spec batchSize ev.fault { p1 with countyBatch := p1.countyBatch ++ [parsed] }
      rcases hfl : flushBatch batchSize ev.fault
        { p1 with countyBatch := p1.countyBatch ++ [parsed] } with ⟨p3, r3⟩
      rw [hfl] at f1
      cases r3 with
      | error e => exact ⟨f1.db, f1.stateCache, f1.masksOrderCache, f1.citationCache⟩
      | ok u => exact ⟨f1.db, f1.stateCache, f1.masksOrderCache, f1.citationCache⟩
    · exact ⟨Db.Extends.same _, fun _ _ h => h, fun _ _ h => h, fun _ _ h => h⟩

theorem run_snoc (dp : DateParser) (evs : List Event) (ev : Event) :
    run dp (evs ++ [ev]) = onData dp (run dp evs) ev := by
  simp [run, runFrom, List.foldl_append]

theorem run_append_cons (dp : DateParser) (evs₁ evs₂ : List Event) (ev : Event) :
    run dp (evs₁ ++ ev :: evs₂) = runFrom dp (onData dp (run dp evs₁) ev) evs₂ := by
  simp [run, runFrom, List.foldl_append]

/-- The state in which `parseRow` is called is reached with the invariant. -/
theorem arrive_inv (dp : DateParser) (evs : List Event) :
    ({ run dp evs with totalRows := (run dp evs).totalRows + 1 } : Pipeline).Inv :=
  (run_inv dp evs).congr rfl rfl rfl rfl rfl rfl

theorem parseAt_inv (dp : DateParser) (evs : List Event) (row : Row) :
    (parseAt dp evs row).1.Inv :=
  (parseRow_spec dp _ row).2.2.1 (arrive_inv dp evs)

/-- What a successful `parseRow` call of a run returns. -/
theorem parseAt_ok {dp : DateParser} {evs : List Event} {row : Row} {a : ParsedRow}
    (h : (parseAt dp evs row).2 = .ok a) :
    ∃ c, parseInt row.Masks_Order_Code.toList = some c ∧
      (parseAt dp evs row).1.stateCache.lookup row.State_Tribe_Territory = some a.state_id ∧
      (parseAt dp evs row).1.masksOrderCache.lookup (some c) = some a.masks_order_id ∧
      List.Forall₂ (fun t id => (parseAt dp evs row).1.citationCache.lookup t = some id)
        (citationTexts row) a.citation_ids ∧
      a.county_name = row.County_Name ∧ a.fips_code = parseInt row.FIPS_Code.toList ∧
      a.date = unixSeconds dp row.Date ∧
      a.face_masks_required = faceMasksRequired row.Face_Masks_Required_in_Public.toList := by
  obtain ⟨_, _, _, a4, a5⟩ := parseRow_spec dp
    { run dp evs with totalRows := (run dp evs).totalRows + 1 } row
  unfold parseAt at h ⊢
  cases hc : parseInt row.Masks_Order_Code.toList with
  | none =>
    rw [a4 hc (arrive_inv dp evs)] at h
    cases h
  | some c =>
    obtain ⟨q, hq, rest⟩ := a5 c hc
    rw [hq] at h
    cases h
    exact ⟨c, rfl, rest⟩

/-- The state a later `parseRow` call leaves continues the state an earlier
one left. -/
theorem parseAt_le (dp : DateParser) (evs₁ evs₂ : List Event) (e₁ : Event) (row₂ : Row) :
    (parseAt dp evs₁ e₁.row).1.Le (parseAt dp (evs₁ ++ e₁ :: evs₂) row₂).1 := by
  have h1 := parseRow_le_onData dp (run dp evs₁) e₁
  have h2 := (runFrom_spec dp (onData dp (run dp evs₁) e₁) evs₂).1
  rw [← run_append_cons] at h2
  have h3 := (parseRow_spec dp { run dp (evs₁ ++ e₁ :: evs₂) with
    totalRows := (run dp (evs₁ ++ e₁ :: evs₂)).totalRows + 1 } row₂).1
  have h12 := h1.step h2
  exact Pipeline.Le.step h12
    ⟨h3.db, fun k id h => h3.stateCache k id h, fun k id h => h3.masksOrderCache k id h,
      fun k id h => h3.citationCache k id h⟩

theorem countP_eq_one_of_mem {α : Type} {l : List α} {q : α → Bool} {x : α} (hx : x ∈ l)
    (hq : q x = true) (hle : l.countP q ≤ 1) : l.countP q = 1 := by
  have : 0 < l.countP q := List.countP_pos_iff.2 ⟨x, hx, hq⟩
  omega

theorem forall₂_lookup_unique {cache : List (String × Int)} {texts₁ texts₂ : List String}
    {ids₁ ids₂ : List Int}
    (h₁ : List.Forall₂ (fun t id => cache.lookup t = some id) texts₁ ids₁)
    (h₂ : List.Forall₂ (fun t id => cache.lookup t = some id) texts₂ ids₂)
    {i j : Nat} {t : String} (hi : texts₁[i]? = some t) (hj : texts₂[j]? = some t) :
    ∃ id, ids₁[i]? = some id ∧ ids₂[j]? = some id ∧ cache.lookup t = some id := by
  have key : ∀ {texts : List String} {ids : List Int},
      List.Forall₂ (fun t id => cache.lookup t = some id) texts ids →
      ∀ {i : Nat}, texts[i]? = some t → ∃ id, ids[i]? = some id ∧ cache.lookup t = some id := by
    intro texts ids h
    induction h with
    | nil => intro i hi; simp at hi
    | cons hd _ ih =>
      intro i hi
      cases i with
      | zero =>
        simp only [List.getElem?_cons_zero, Option.some.injEq] at hi
        subst hi
        exact ⟨_, by simp, hd⟩
      | succ k =>
        simp only [List.getElem?_cons_succ] at hi ⊢
        exact ih hi
  obtain ⟨a, ha, hla⟩ := key h₁ hi
  obtain ⟨b, hb, hlb⟩ := key h₂ hj
  rw [hla] at hlb
  cases hlb
  exact ⟨a, ha, hb, hla⟩

theorem forall₂_lookup_mono {c₁ c₂ : List (String × Int)}
    (hle : ∀ k id, c₁.lookup k = some id → c₂.lookup k = some id)
    {texts : List String} {ids : List Int}
    (h : List.Forall₂ (fun t id => c₁.lookup t = some id) texts ids) :
    List.Forall₂ (fun t id => c₂.lookup t = some id) texts ids := by
  induction h with
  | nil => exact List.Forall₂.nil
  | cons hd _ ih => exact List.Forall₂.cons (hle _ _ hd) ih


/-- After a successful `parseRow` call, each key of the record has exactly one
row in its reference table, and that row carries the id the call returned. -/
theorem parseAt_rows {dp : DateParser} {evs : List Event} {row : Row} {a : ParsedRow}
    (h : (parseAt dp evs row).2 = .ok a) :
    (({ id := a.state_id, name := row.State_Tribe_Territory } : StateRow)
        ∈ (parseAt dp evs row).1.db.states ∧
      (parseAt dp evs row).1.db.states.countP
        (fun r => decide (r.name = row.State_Tribe_Territory)) = 1) ∧
    (({ id := a.masks_order_id, code := parseInt row.Masks_Order_Code.toList } : MasksOrderRow)
        ∈ (parseAt dp evs row).1.db.masks_orders ∧
      (parseAt dp evs row).1.db.masks_orders.countP
        (fun r => decide (r.code = parseInt row.Masks_Order_Code.toList)) = 1) ∧
    (∀ (i : Nat) (t : String), (citationTexts row)[i]? = some t →
      ∃ id, a.citation_ids[i]? = some id ∧
      ({ id := id, citation := t } : CitationRow) ∈ (parseAt dp evs row).1.db.citations ∧
      (parseAt dp evs row).1.db.citations.countP (fun r => decide (r.citation = t)) = 1) := by
  obtain ⟨c, hc, h1, h2, h3, _⟩ := parseAt_ok h
  have hinv := parseAt_inv dp evs row
  refine ⟨?_, ?_, ?_⟩
  · have hm := hinv.stateCache_sound _ _ h1
    exact ⟨hm, countP_eq_one_of_mem hm (by simp) (hinv.db_wf.state_names _)⟩
  · have hm := (hinv.masksOrderCache_sound _ _ h2).1
    rw [hc]
    exact ⟨hm, countP_eq_one_of_mem hm (by simp) (hinv.db_wf.masks_codes c)⟩
  · intro i t hi
    obtain ⟨id, e1, _, e3⟩ := forall₂_lookup_unique h3 h3 hi hi
    have hm := hinv.citationCache_sound _ _ e3
    exact ⟨id, e1, hm, countP_eq_one_of_mem hm (by simp) (hinv.db_wf.citation_texts t)⟩


/-! ### C1: reference resolution is idempotent -/

/-- C1. Reference resolution is idempotent over a whole run. Take any run
(any records, any store failures during flushes), any record `e₁` of it whose
`parseRow` call returns `a`, and any record `row₂` arriving any number of
events later (so possibly in another batch) whose `parseRow` call returns `b`.
For each reference kind, if the two records carry the same key (jurisdiction
name, policy code, citation text at any positions), the two calls return the
same surrogate id for it, and after the later call the store holds exactly
one reference row for that key, the row with that id. The same holds between
two positions of one record's citation list. -/
theorem reference_resolution_idempotent (dp : DateParser) (evs₁ evs₂ : List Event)
    (e₁ : Event) (row₂ : Row) (a b : ParsedRow)
    (h₁ : (parseAt dp evs₁ e₁.row).2 = .ok a)
    (h₂ : (parseAt dp (evs₁ ++ e₁ :: evs₂) row₂).2 = .ok b) :
    (e₁.row.State_Tribe_Territory = row₂.State_Tribe_Territory →
      a.state_id = b.state_id ∧
      ({ id := b.state_id, name := row₂.State_Tribe_Territory } : StateRow)
        ∈ (parseAt dp (evs₁ ++ e₁ :: evs₂) row₂).1.db.states ∧
      (parseAt dp (evs₁ ++ e₁ :: evs₂) row₂).1.db.states.countP
        (fun r => decide (r.name = row₂.State_Tribe_Territory)) = 1) ∧
    (parseInt e₁.row.Masks_Order_Code.toList = parseInt row₂.Masks_Order_Code.toList →
      a.masks_order_id = b.masks_order_id ∧
      ({ id := b.masks_order_id, code := parseInt row₂.Masks_Order_Code.toList } : MasksOrderRow)
        ∈ (parseAt dp (evs₁ ++ e₁ :: evs₂) row₂).1.db.masks_orders ∧
      (parseAt dp (evs₁ ++ e₁ :: evs₂) row₂).1.db.masks_orders.countP
        (fun r => decide (r.code = parseInt row₂.Masks_Order_Code.toList)) = 1) ∧
    (∀ (i j : Nat) (t : String), (citationTexts e₁.row)[i]? = some t →
      (citationTexts row₂)[j]? = some t →
      ∃ id, a.citation_ids[i]? = some id ∧ b.citation_ids[j]? = some id ∧
        ({ id := id, citation := t } : CitationRow)
          ∈ (parseAt dp (evs₁ ++ e₁ :: evs₂) row₂).1.db.citations ∧
        (parseAt dp (evs₁ ++ e₁ :: evs₂) row₂).1.db.citations.countP
          (fun r => decide (r.citation = t)) = 1) ∧
    (∀ (i j : Nat) (t : String), (citationTexts row₂)[i]? = some t →
      (citationTexts row₂)[j]? = some t →
      ∃ id, b.citation_ids[i]? = some id ∧ b.citation_ids[j]? = some id) := by
  obtain ⟨c₁, hc₁, s₁, m₁, t₁, _⟩ := parseAt_ok h₁
  obtain ⟨c₂, hc₂, s₂, m₂, t₂, _⟩ := parseAt_ok h₂
  obtain ⟨r₁, r₂, r₃⟩ := parseAt_rows h₂
  have hle := parseAt_le dp evs₁ evs₂ e₁ row₂
  refine ⟨?_, ?_, ?_, ?_⟩
  · intro hname
    have := hle.stateCache _ _ s₁
    rw [hname, s₂] at this
    exact ⟨(Option.some.inj this).symm, r₁⟩
  · intro hcode
    have := hle.masksOrderCache _ _ m₁
    rw [hc₁, hc₂] at hcode
    rw [hcode, m₂] at this
    exact ⟨(Option.some.inj this).symm, r₂⟩
  · intro i j t hi hj
    obtain ⟨id, e1, e2, _⟩ :=
      forall₂_lookup_unique (forall₂_lookup_mono hle.citationCache t₁) t₂ hi hj
    obtain ⟨id', f1, f2, f3⟩ := r₃ j t hj
    rw [e2] at f1
    cases f1
    exact ⟨id, e1, e2, f2, f3⟩
  · intro i j t hi hj
    obtain ⟨id, e1, e2, _⟩ := forall₂_lookup_unique t₂ t₂ hi hj
    exact ⟨id, e1, e2⟩

/-- Witness for C1: three copies of the sample record, the second one hit by
a failing link insert; the first and third calls return the same ids. -/
theorem reference_resolution_idempotent_witness :
    (parseAt (fun _ => none) [] sampleRow).2 = .ok sampleParsed ∧
    (parseAt (fun _ => none) ([] ++ ⟨sampleRow, Fault.none⟩ :: [⟨sampleRow, Fault.links⟩])
      sampleRow).2 = .ok sampleParsed ∧
    (parseAt (fun _ => none) ([] ++ ⟨sampleRow, Fault.none⟩ :: [⟨sampleRow, Fault.links⟩])
      sampleRow).1.db.states.countP (fun r => decide (r.name = "Ohio")) = 1 :=
  ⟨rfl, rfl,
    ((reference_resolution_idempotent (fun _ => none) [] [⟨sampleRow, Fault.links⟩]
      ⟨sampleRow, Fault.none⟩ sampleRow sampleParsed sampleParsed rfl rfl).1 rfl).2.2⟩

/-! ### C3: referential integrity -/

/-- C3. Referential integrity. In the state after any sequence of `data`
events, and in the state after the `end` handler, whatever the store did
during the flushes: every `county_citations` row names an existing `counties`
row and an existing `citations` row, and every `counties` row names an
existing `states` row and an existing `masks_orders` row. -/
theorem referential_integrity (dp : DateParser) (evs : List Event) (endFault : Fault) :
    (∀ l ∈ (run dp evs).db.county_citations,
      (∃ c ∈ (run dp evs).db.counties, c.id = l.county_id) ∧
      (∃ t ∈ (run dp evs).db.citations, t.id = l.citation_id)) ∧
    (∀ r ∈ (run dp evs).db.counties,
      (∃ s ∈ (run dp evs).db.states, s.id = r.state_id) ∧
      (∃ m ∈ (run dp evs).db.masks_orders, m.id = r.masks_order_id)) ∧
    (∀ l ∈ (runToEnd dp evs endFault).db.county_citations,
      (∃ c ∈ (runToEnd dp evs endFault).db.counties, c.id = l.county_id) ∧
      (∃ t ∈ (runToEnd dp evs endFault).db.citations, t.id = l.citation_id)) ∧
    (∀ r ∈ (runToEnd dp evs endFault).db.counties,
      (∃ s ∈ (runToEnd dp evs endFault).db.states, s.id = r.state_id) ∧
      (∃ m ∈ (runToEnd dp evs endFault).db.masks_orders, m.id = r.masks_order_id)) := by
  have h1 := run_inv dp evs
  have h2 : (runToEnd dp evs endFault).Inv := (onEnd_spec endFault (run dp evs)).2 h1
  exact ⟨h1.db_wf.link_fk, h1.db_wf.county_fk, h2.db_wf.link_fk, h2.db_wf.county_fk⟩


/-! ### C2: the contiguous-id invariant -/

theorem assignIds_map_id (seq : Int) (batch : List ParsedRow) :
    (assignIds seq batch).map (fun r => r.id)
      = (List.range batch.length).map (fun (i : Nat) => seq + 1 + (i : Int)) := by
  apply List.ext_getElem?
  intro i
  by_cases hi : i < batch.length
  · rw [List.getElem?_map, assignIds_getElem seq batch i hi, List.getElem?_map,
      List.getElem?_range hi]
    rfl
  · rw [List.getElem?_eq_none (by simpa [assignIds_length] using hi),
      List.getElem?_eq_none (by simpa using hi)]

/-- After a parsed record is pushed, the invariant still holds. -/
theorem push_inv {dp : DateParser} {evs : List Event} {row : Row} {p1 : Pipeline}
    {parsed : ParsedRow} (h : parseAt dp evs row = (p1, .ok parsed)) :
    ({ p1 with countyBatch := p1.countyBatch ++ [parsed] } : Pipeline).Inv := by
  have hinv := parseAt_inv dp evs row
  have hok : (parseAt dp evs row).2 = .ok parsed := by rw [h]
  obtain ⟨c, _, b1, b2, b3, _⟩ := parseAt_ok hok
  rw [h] at hinv b1 b2 b3
  simp only at hinv b1 b2 b3
  refine ⟨hinv.db_wf, hinv.stateCache_sound, hinv.masksOrderCache_sound,
    hinv.citationCache_sound, ?_, hinv.links_fk⟩
  intro x hx
  rcases List.mem_append.1 hx with hx | hx
  · exact hinv.batch_fk x hx
  · simp only [List.mem_singleton] at hx
    subst hx
    exact admits_of_parse hinv b1 b2 b3

theorem FlushPoint.inv {dp : DateParser} {q : Pipeline} {n : Nat} (h : FlushPoint dp q n) :
    q.Inv ∧ n = q.countyBatch.length ∧ 1 ≤ q.countyBatch.length := by
  cases h with
  | atData evs row p1 parsed hp hlen =>
    refine ⟨push_inv hp, hlen.symm, ?_⟩
    simp
  | atEnd evs hpos => exact ⟨run_inv dp evs, rfl, hpos⟩

/-- The links the loop of lines 246-255 derives with `firstId` one past the
counter are the links of the rows the insert wrote: the entry at position `i`
is paired with the id of the row at position `i`. -/
theorem deriveLinks_zip (seq : Int) (i : Nat) (batch : List ParsedRow) :
    deriveLinksFrom (seq + 1) i batch
      = (List.zip (assignIds (seq + (i : Int)) batch) batch).flatMap
          (fun rc => rc.2.citation_ids.map
            (fun cid => ({ county_id := rc.1.id, citation_id := cid } : CountyCitation))) := by
  induction batch generalizing i with
  | nil => rfl
  | cons c cs ih =>
    have e1 : seq + ((i + 1 : Nat) : Int) = seq + (i : Int) + 1 := by push_cast; omega
    have e2 : seq + 1 + (i : Int) = seq + (i : Int) + 1 := by omega
    rw [deriveLinksFrom, ih (i + 1), e1, e2]
    simp only [assignIds, List.zip_cons_cons, List.flatMap_cons, countyRow]

/-- A flush whose county insert the store does not fail, started with the
count the handler uses: the rows of the buffered records are appended to
`counties`, and the link buffer receives the links derived from
`firstId = lastId - n + 1`, which is one past the counter before the insert. -/
theorem flushBatch_ids {p : Pipeline} (hinv : p.Inv) {n : Nat} (hn : n = p.countyBatch.length)
    (hne : p.countyBatch ≠ []) {fault : Fault} (hf : fault ≠ Fault.counties) :
    (flushBatch n fault p).1.db.counties
        = p.db.counties ++ assignIds p.db.seqCounties p.countyBatch ∧
      (flushBatch n fault p).1.countyCitationsBatch
        = p.countyCitationsBatch ++ deriveLinksFrom (p.db.seqCounties + 1) 0 p.countyBatch := by
  subst hn
  have hfirst : (p.db.addCounties p.countyBatch).lastInsertRowid
      - (p.countyBatch.length : Int) + 1 = p.db.seqCounties + 1 := by
    rw [Db.addCounties_lastInsertRowid p.db p.countyBatch hne]
    omega
  cases fault with
  | counties => exact absurd rfl hf
  | links =>
    rw [flushBatch_links_fault hinv, hfirst]
    exact ⟨rfl, rfl⟩
  | none =>
    have h1 : insertCounties (decide (Fault.none = Fault.counties)) p.db p.countyBatch
        = .ok (p.db.addCounties p.countyBatch) := by
      simp only [insertCounties]
      exact foldlM_insertCounty_eq_ok hinv.batch_insertable
    have hmid := flush_mid_inv hinv
    obtain ⟨db2, h2, _, _, _, e4, _⟩ :=
      @foldlM_insertCountyCitation_eq_ok (p.db.addCounties p.countyBatch) _ hmid.links_fk
    have h2' : insertCountyCitations (decide (Fault.none = Fault.links))
        (p.db.addCounties p.countyBatch)
        (p.countyCitationsBatch ++ deriveLinksFrom
          ((p.db.addCounties p.countyBatch).lastInsertRowid - (p.countyBatch.length : Int) + 1) 0
          p.countyBatch) = .ok db2 := by
      simp only [insertCountyCitations]
      exact h2
    unfold flushBatch
    simp only [h1, h2']
    rw [hfirst]
    exact ⟨e4, rfl⟩

theorem forall₂_assignIds_self (seq : Int) (batch : List ParsedRow) :
    List.Forall₂ (fun r c => r = countyRow r.id c) (assignIds seq batch) batch := by
  induction batch generalizing seq with
  | nil => exact List.Forall₂.nil
  | cons c cs ih => exact List.Forall₂.cons rfl (ih (seq + 1))

/-- C2. Contiguous-id invariant. In every state in which a handler starts a
flush (the full batch of the `data` handler or the partial batch of the `end`
handler, after any run), the buffer holds `K ≥ 1` records, and unless the
store fails the county insert, the flush the handler runs (`flushBatch` with
the handler's count) appends exactly `K` rows to `counties`, the row at
position `i` being the row of the `i`-th buffered record; their ids are the
closed ascending range `first, first + 1, …, first + K - 1` that starts one
past the counter, so `first` is the last assigned id minus `K` plus one; and
the links the handler derives and pushes onto the link buffer pair the
citations of the `i`-th buffered record with exactly the id of the row
inserted for that record: the id the code derives is the id assigned. -/
theorem contiguous_ids (dp : DateParser) (q : Pipeline) (n : Nat) (fault : Fault)
    (h : FlushPoint dp q n) (hf : fault ≠ Fault.counties) :
    1 ≤ q.countyBatch.length ∧
    ∃ rows : List CountyRow,
      (flushBatch n fault q).1.db.counties = q.db.counties ++ rows ∧
      List.Forall₂ (fun r c => r = countyRow r.id c) rows q.countyBatch ∧
      rows.map (fun r => r.id) = (List.range q.countyBatch.length).map
        (fun (i : Nat) => q.db.seqCounties + 1 + (i : Int)) ∧
      rows.getLast?.map (fun r => r.id)
        = some (q.db.seqCounties + 1 + ((q.countyBatch.length : Int) - 1)) ∧
      (flushBatch n fault q).1.countyCitationsBatch
        = q.countyCitationsBatch ++ (List.zip rows q.countyBatch).flatMap
            (fun rc => rc.2.citation_ids.map
              (fun cid => ({ county_id := rc.1.id, citation_id := cid } : CountyCitation))) := by
  obtain ⟨hinv, hn, hpos⟩ := h.inv
  have hne : q.countyBatch ≠ [] := by
    intro e
    rw [e] at hpos
    simp at hpos
  obtain ⟨hc, hl⟩ := flushBatch_ids hinv hn hne hf
  refine ⟨hpos, assignIds q.db.seqCounties q.countyBatch, hc, forall₂_assignIds_self _ _,
    assignIds_map_id _ _, ?_, ?_⟩
  · rw [← List.getLast?_map, assignIds_map_id, List.getLast?_eq_getElem?]
    simp only [List.length_map, List.length_range]
    rw [List.getElem?_map, List.getElem?_range (by omega)]
    simp only [Option.map_some', Option.some.injEq]
    omega
  · rw [hl, deriveLinks_zip]
    simp

/-- Witness for C2: the `end` handler's flush after two records, each with
two citations. -/
theorem contiguous_ids_witness :
    FlushPoint sampleDates twoRecordRun twoRecordRun.countyBatch.length ∧
    Fault.none ≠ Fault.counties ∧
    1 ≤ twoRecordRun.countyBatch.length ∧
    ∃ rows : List CountyRow,
      (flushBatch twoRecordRun.countyBatch.length Fault.none twoRecordRun).1.db.counties
        = twoRecordRun.db.counties ++ rows ∧
      List.Forall₂ (fun r c => r = countyRow r.id c) rows twoRecordRun.countyBatch ∧
      rows.map (fun r => r.id) = (List.range twoRecordRun.countyBatch.length).map
        (fun (i : Nat) => twoRecordRun.db.seqCounties + 1 + (i : Int)) ∧
      rows.getLast?.map (fun r => r.id)
        = some (twoRecordRun.db.seqCounties + 1
            + ((twoRecordRun.countyBatch.length : Int) - 1)) ∧
      (flushBatch twoRecordRun.countyBatch.length Fault.none twoRecordRun).1.countyCitationsBatch
        = twoRecordRun.countyCitationsBatch ++ (List.zip rows twoRecordRun.countyBatch).flatMap
            (fun rc => rc.2.citation_ids.map
              (fun cid => ({ county_id := rc.1.id, citation_id := cid } : CountyCitation))) :=
  ⟨FlushPoint.atEnd [sampleEvent, texasEvent] (by decide), by decide,
    contiguous_ids sampleDates _ _ Fault.none
      (FlushPoint.atEnd [sampleEvent, texasEvent] (by decide)) (by decide)⟩


/-! ### C4: complete, ordered load -/

theorem assignIds_append (seq : Int) (xs ys : List ParsedRow) :
    assignIds seq (xs ++ ys) = assignIds seq xs ++ assignIds (seq + (xs.length : Int)) ys := by
  induction xs generalizing seq with
  | nil => simp [assignIds]
  | cons x xs ih =>
    show countyRow (seq + 1) x :: assignIds (seq + 1) (xs ++ ys)
      = countyRow (seq + 1) x ::
          (assignIds (seq + 1) xs ++ assignIds (seq + ((x :: xs).length : Int)) ys)
    rw [ih]
    have e : seq + 1 + (xs.length : Int) = seq + ((x :: xs).length : Int) := by
      simp only [List.length_cons]
      push_cast
      ring
    rw [e]

theorem assignIds_map_fields (seq : Int) (xs : List ParsedRow) :
    (assignIds seq xs).map CountyRow.fields = xs.map ParsedRow.fields := by
  induction xs generalizing seq with
  | nil => rfl
  | cons x xs ih =>
    simp only [assignIds, List.map_cons, ih]
    rfl

/-- A flush during which the store does not fail succeeds and moves the
buffered records into `counties`. -/
theorem flushBatch_none {p : Pipeline} (hinv : p.Inv) {n : Nat} (hn : n = p.countyBatch.length) :
    (flushBatch n Fault.none p).2 = .ok () ∧
      (flushBatch n Fault.none p).1.db.counties
        = p.db.counties ++ assignIds p.db.seqCounties p.countyBatch ∧
      (flushBatch n Fault.none p).1.db.seqCounties
        = p.db.seqCounties + (p.countyBatch.length : Int) := by
  subst hn
  have h1 : insertCounties (decide (Fault.none = Fault.counties)) p.db p.countyBatch
      = .ok (p.db.addCounties p.countyBatch) := by
    simp only [insertCounties]
    exact foldlM_insertCounty_eq_ok hinv.batch_insertable
  have hmid := flush_mid_inv hinv
  obtain ⟨db2, h2, _, _, _, e4, e5⟩ :=
    @foldlM_insertCountyCitation_eq_ok (p.db.addCounties p.countyBatch) _ hmid.links_fk
  have h2' : insertCountyCitations (decide (Fault.none = Fault.links))
      (p.db.addCounties p.countyBatch)
      (p.countyCitationsBatch ++ deriveLinksFrom
        ((p.db.addCounties p.countyBatch).lastInsertRowid - (p.countyBatch.length : Int) + 1) 0
        p.countyBatch) = .ok db2 := by
    simp only [insertCountyCitations]
    exact h2
  unfold flushBatch
  simp only [h1, h2']
  exact ⟨trivial, e4, e5⟩


theorem noLinkFault_of_none {evs : List Event} (h : ∀ ev ∈ evs, ev.fault = Fault.none) :
    ∀ ev ∈ evs, ev.fault ≠ Fault.links := by
  intro ev hev hl
  rw [h ev hev] at hl
  cases hl

/-- One `data` event during which no link insert fails: the rows already
stored followed by the rows the buffered records will get are extended by the
row of the new record, if it parsed. -/
theorem onData_none_load (dp : DateParser) {p : Pipeline} (hinv : p.Inv) {ev : Event}
    (hf : ev.fault ≠ Fault.links) (xs : List ParsedRow) :
    (onData dp p ev).db.counties
        ++ assignIds (onData dp p ev).db.seqCounties ((onData dp p ev).countyBatch ++ xs)
      = p.db.counties ++ assignIds p.db.seqCounties (p.countyBatch ++
          (match (parseRow dp { p with totalRows := p.totalRows + 1 } ev.row).2 with
            | .ok parsed => parsed :: xs
            | .error _ => xs)) := by
  obtain ⟨_, a2, a3, _, _⟩ := parseRow_spec dp { p with totalRows := p.totalRows + 1 } ev.row
  have hinv0 : ({ p with totalRows := p.totalRows + 1 } : Pipeline).Inv :=
    hinv.congr rfl rfl rfl rfl rfl rfl
  rcases hpr : parseRow dp { p with totalRows := p.totalRows + 1 } ev.row with ⟨p1, r⟩
  rw [hpr] at a2 a3
  simp only at a2 a3
  have hinv1 := a3 hinv0
  cases r with
  | error e =>
    rw [onData_parse_error hpr]
    simp only
    rw [a2.counties, a2.seqCounties, a2.countyBatch]
  | ok parsed =>
    rw [onData_parse_ok hpr]
    have hinv2 : ({ p1 with countyBatch := p1.countyBatch ++ [parsed] } : Pipeline).Inv := by
      have := onData_spec dp p ev
      have hadm : p1.db.admits parsed := by
        cases hc : parseInt ev.row.Masks_Order_Code.toList with
        | none =>
          have h4 := (parseRow_spec dp { p with totalRows := p.totalRows + 1 } ev.row).2.2.2.1
            hc hinv0
          rw [hpr] at h4
          cases h4
        | some c =>
          obtain ⟨q, hq, b1, b2, b3, _⟩ :=
            (parseRow_spec dp { p with totalRows := p.totalRows + 1 } ev.row).2.2.2.2 c hc
          rw [hpr] at hq b1 b2 b3
          cases hq
          exact admits_of_parse hinv1 b1 b2 b3
      refine ⟨hinv1.db_wf, hinv1.stateCache_sound, hinv1.masksOrderCache_sound,
        hinv1.citationCache_sound, ?_, hinv1.links_fk⟩
      intro x hx
      rcases List.mem_append.1 hx with hx | hx
      · exact hinv1.batch_fk x hx
      · simp only [List.mem_singleton] at hx
        subst hx
        exact hadm
    split
    · rename_i hlen
      cases hfault : ev.fault with
      | none =>
        obtain ⟨g1, g2, g3⟩ := flushBatch_none hinv2 (n := batchSize) hlen.symm
        rcases hfl : flushBatch batchSize Fault.none
          { p1 with countyBatch := p1.countyBatch ++ [parsed] } with ⟨p3, r3⟩
        rw [hfl] at g1 g2 g3
        simp only at g1 g2 g3
        subst g1
        simp only [List.nil_append]
        rw [g2, g3, a2.counties, a2.seqCounties, a2.countyBatch, List.append_assoc,
          ← assignIds_append]
        simp
      | counties =>
        rw [flushBatch_counties_fault]
        simp only
        rw [a2.counties, a2.seqCounties, a2.countyBatch]
        simp
      | links => exact absurd hfault hf
    · simp only
      rw [a2.counties, a2.seqCounties, a2.countyBatch]
      simp

/-- A run in which no link insert fails, followed by an `end` handler whose
flush succeeds: the `counties` table is what it was, followed by the rows of the buffered records and of the
records parsed during the run, in that order, with consecutive ids. -/
theorem load_counties (dp : DateParser) (evs : List Event)
    (hff : ∀ ev ∈ evs, ev.fault ≠ Fault.links) (p : Pipeline) (hinv : p.Inv) :
    (onEnd Fault.none (runFrom dp p evs)).db.counties
      = p.db.counties ++ assignIds p.db.seqCounties (p.countyBatch ++ parsedRecords dp p evs) := by
  induction evs generalizing p with
  | nil =>
    simp only [runFrom, List.foldl_nil, parsedRecords, List.append_nil]
    unfold onEnd
    split
    · obtain ⟨g1, g2, _⟩ := flushBatch_none hinv (n := p.countyBatch.length) rfl
      rcases hfl : flushBatch p.countyBatch.length Fault.none p with ⟨p3, r3⟩
      rw [hfl] at g1 g2
      simp only at g1 g2
      subst g1
      exact g2
    · rename_i hlen
      have : p.countyBatch = [] := by
        cases hb : p.countyBatch with
        | nil => rfl
        | cons x xs => rw [hb] at hlen; simp at hlen
      rw [this]
      simp [assignIds]
  | cons ev evs ih =>
    have hstep := onData_none_load dp hinv (hff ev (by simp)) (parsedRecords dp (onData dp p ev) evs)
    have hinv' := (onData_spec dp p ev).2.1 hinv
    have := ih (fun e he => hff e (by simp [he])) (onData dp p ev) hinv'
    show (onEnd Fault.none (runFrom dp (onData dp p ev) evs)).db.counties = _
    rw [this, hstep]
    congr 3


/-- The records whose `parseRow` call returns are those whose policy code reads
as a number, and the returned objects carry their converted fields. -/
theorem parsedRecords_fields (dp : DateParser) (evs : List Event) (p : Pipeline) (hinv : p.Inv) :
    (parsedRecords dp p evs).map ParsedRow.fields
      = (evs.filter codeIsNumber).map (fun ev => rowFields dp ev.row) := by
  induction evs generalizing p with
  | nil => rfl
  | cons ev evs ih =>
    have hinv0 : ({ p with totalRows := p.totalRows + 1 } : Pipeline).Inv :=
      hinv.congr rfl rfl rfl rfl rfl rfl
    have ih' := ih (onData dp p ev) ((onData_spec dp p ev).2.1 hinv)
    obtain ⟨_, _, _, a4, a5⟩ := parseRow_spec dp { p with totalRows := p.totalRows + 1 } ev.row
    simp only [parsedRecords]
    cases hc : parseInt ev.row.Masks_Order_Code.toList with
    | none =>
      rw [a4 hc hinv0]
      simp only
      rw [ih', List.filter_cons_of_neg (by rw [codeIsNumber, hc]; simp)]
    | some c =>
      obtain ⟨q, hq, _, _, _, f1, f2, f3, f4⟩ := a5 c hc
      rw [hq]
      simp only
      rw [List.filter_cons_of_pos (by rw [codeIsNumber, hc]; rfl), List.map_cons, List.map_cons,
        ih']
      congr 1
      simp only [ParsedRow.fields, rowFields, f1, f2, f3, f4]

/-- The `counties` table after a whole run in which no link insert fails and
the final flush succeeds. -/
theorem load_table (dp : DateParser) (evs : List Event)
    (hff : ∀ ev ∈ evs, ev.fault ≠ Fault.links) :
    (runToEnd dp evs Fault.none).db.counties
      = assignIds 0 (parsedRecords dp Pipeline.init evs) := by
  have := load_counties dp evs hff Pipeline.init Pipeline.Inv.init
  simpa [runToEnd, run, Pipeline.init, Db.empty] using this

/-- The converted fields stored by such a run. -/
theorem load_fields (dp : DateParser) (evs : List Event)
    (hff : ∀ ev ∈ evs, ev.fault ≠ Fault.links) :
    (runToEnd dp evs Fault.none).db.counties.map CountyRow.fields
      = (evs.filter codeIsNumber).map (fun ev => rowFields dp ev.row) := by
  rw [load_table dp evs hff, assignIds_map_fields]
  exact parsedRecords_fields dp evs Pipeline.init Pipeline.Inv.init

/-- A record whose policy code reads as a number gets its row, at the position
given by the number of such records before it. -/
theorem load_row (dp : DateParser) (evs₁ evs₂ : List Event) (ev : Event)
    (hff : ∀ e ∈ evs₁ ++ ev :: evs₂, e.fault ≠ Fault.links) (hcode : codeIsNumber ev = true) :
    ((runToEnd dp (evs₁ ++ ev :: evs₂) Fault.none).db.counties.map CountyRow.fields)[
        (evs₁.filter codeIsNumber).length]? = some (rowFields dp ev.row) := by
  rw [load_fields dp _ hff, List.filter_append, List.filter_cons_of_pos hcode, List.map_append,
    List.map_cons]
  rw [List.getElem?_append_right (by simp)]
  simp

/-- During a run without store failure the `data` handler logs exactly the
records whose policy code does not read as a number. -/
theorem rowErrors_none (dp : DateParser) (evs : List Event)
    (hff : ∀ ev ∈ evs, ev.fault = Fault.none) (p : Pipeline) (hinv : p.Inv) :
    (runFrom dp p evs).rowErrors = p.rowErrors ++ rejectedOrdinals p.totalRows evs := by
  induction evs generalizing p with
  | nil => simp [runFrom, rejectedOrdinals]
  | cons ev evs ih =>
    have hinv' := (onData_spec dp p ev).2.1 hinv
    have htot := (onData_spec dp p ev).2.2.1
    have hrec := ih (fun e he => hff e (by simp [he])) (onData dp p ev) hinv'
    show (runFrom dp (onData dp p ev) evs).rowErrors = _
    rw [hrec, htot]
    obtain ⟨_, a2, a3, a4, a5⟩ := parseRow_spec dp { p with totalRows := p.totalRows + 1 } ev.row
    have hinv0 : ({ p with totalRows := p.totalRows + 1 } : Pipeline).Inv :=
      hinv.congr rfl rfl rfl rfl rfl rfl
    rcases hpr : parseRow dp { p with totalRows := p.totalRows + 1 } ev.row with ⟨p1, r⟩
    rw [hpr] at a2 a3 a4 a5
    simp only at a2 a3 a4 a5
    cases hc : parseInt ev.row.Masks_Order_Code.toList with
    | none =>
      have := a4 hc hinv0
      subst this
      rw [onData_parse_error hpr]
      simp only [rejectedOrdinals, codeIsNumber, hc, Option.isSome_none, Bool.false_eq_true,
        if_false]
      rw [a2.rowErrors, a2.totalRows]
      simp
    | some c =>
      obtain ⟨q, hq, b1, b2, b3, _⟩ := a5 c hc
      subst hq
      rw [onData_parse_ok hpr]
      simp only [rejectedOrdinals, codeIsNumber, hc, Option.isSome_some, if_true]
      congr 1
      have hinv2 : ({ p1 with countyBatch := p1.countyBatch ++ [q] } : Pipeline).Inv := by
        have hinv1 := a3 hinv0
        refine ⟨hinv1.db_wf, hinv1.stateCache_sound, hinv1.masksOrderCache_sound,
          hinv1.citationCache_sound, ?_, hinv1.links_fk⟩
        intro x hx
        rcases List.mem_append.1 hx with hx | hx
        · exact hinv1.batch_fk x hx
        · simp only [List.mem_singleton] at hx
          subst hx
          exact admits_of_parse hinv1 b1 b2 b3
      split
      · rename_i hlen
        rw [hff ev (by simp)]
        obtain ⟨g1, _, _⟩ := flushBatch_none hinv2 (n := batchSize) hlen.symm
        have g4 := (flushBatch_spec batchSize Fault.none
          { p1 with countyBatch := p1.countyBatch ++ [q] }).2.2.2.1
        rcases hfl : flushBatch batchSize Fault.none
          { p1 with countyBatch := p1.countyBatch ++ [q] } with ⟨p3, r3⟩
        rw [hfl] at g1 g4
        simp only at g1 g4
        subst g1
        simp only
        rw [g4]
        exact a2.rowErrors
      · exact a2.rowErrors

/-- C4. Complete, ordered load. For every input stream handled to its end
while no flush fails: the `counties` table ends as exactly the rows of the
records whose `parseRow` call returned, one row each, in input order, the
final partial batch included, with ids 1, 2, 3, …; these are the records
whose policy code reads as a number, each row carrying its record's converted
fields; and the ids increase strictly along the table, so an earlier record's
row always has the smaller id. -/
theorem complete_ordered_load (dp : DateParser) (evs : List Event)
    (hff : ∀ ev ∈ evs, ev.fault = Fault.none) :
    (runToEnd dp evs Fault.none).db.counties
        = assignIds 0 (parsedRecords dp Pipeline.init evs) ∧
      (runToEnd dp evs Fault.none).db.counties.map CountyRow.fields
        = (evs.filter codeIsNumber).map (fun ev => rowFields dp ev.row) ∧
      (runToEnd dp evs Fault.none).db.counties.length = (evs.filter codeIsNumber).length ∧
      (runToEnd dp evs Fault.none).db.counties.Pairwise (fun a b => a.id < b.id) := by
  have h2 := load_fields dp evs (noLinkFault_of_none hff)
  have h3 : (runToEnd dp evs Fault.none).Inv :=
    (onEnd_spec Fault.none (run dp evs)).2 (run_inv dp evs)
  refine ⟨load_table dp evs (noLinkFault_of_none hff), h2, ?_, h3.db_wf.county_ids_sorted⟩
  have := congrArg List.length h2
  simpa using this

/-- Witness for C4: three records, the second with an unreadable policy code. -/
theorem complete_ordered_load_witness :
    (∀ ev ∈ [sampleEvent, badCodeEvent, sampleEvent], ev.fault = Fault.none) ∧
    (runToEnd sampleDates [sampleEvent, badCodeEvent, sampleEvent]
      Fault.none).db.counties.length
      = ([sampleEvent, badCodeEvent, sampleEvent].filter codeIsNumber).length :=
  ⟨by decide, (complete_ordered_load sampleDates _ (by decide)).2.2.1⟩

theorem onEnd_rowErrors (fault : Fault) (p : Pipeline) :
    (onEnd fault p).rowErrors = p.rowErrors := by
  unfold onEnd
  split
  · have f4 := (flushBatch_spec p.countyBatch.length fault p).2.2.2.1
    rcases hfl : flushBatch p.countyBatch.length fault p with ⟨p3, r3⟩
    rw [hfl] at f4
    cases r3 <;> exact f4
  · rfl

theorem mem_rejectedOrdinals {start : Nat} {evs : List Event} {n : Nat}
    (h : n ∈ rejectedOrdinals start evs) :
    ∃ i, ∃ hi : i < evs.length, n = start + i + 1 ∧ codeIsNumber evs[i] = false := by
  induction evs generalizing start with
  | nil => simp [rejectedOrdinals] at h
  | cons ev evs ih =>
    simp only [rejectedOrdinals] at h
    split at h
    · obtain ⟨i, hi, e1, e2⟩ := ih h
      exact ⟨i + 1, by simpa using hi, by omega, by simpa using e2⟩
    · rename_i hc
      rcases List.mem_cons.1 h with rfl | h
      · exact ⟨0, by simp, rfl, by simpa using hc⟩
      · obtain ⟨i, hi, e1, e2⟩ := ih h
        exact ⟨i + 1, by simpa using hi, by omega, by simpa using e2⟩

/-- In a whole run without store failure, a record whose policy code reads as
a number is not logged as rejected. -/
theorem not_rejected (dp : DateParser) (evs₁ evs₂ : List Event) (ev : Event)
    (hff : ∀ e ∈ evs₁ ++ ev :: evs₂, e.fault = Fault.none) (hcode : codeIsNumber ev = true) :
    evs₁.length + 1 ∉ (runToEnd dp (evs₁ ++ ev :: evs₂) Fault.none).rowErrors := by
  intro hmem
  rw [runToEnd, onEnd_rowErrors, run, rowErrors_none dp _ hff _ Pipeline.Inv.init] at hmem
  simp only [Pipeline.init, List.nil_append] at hmem
  obtain ⟨i, hi, e1, e2⟩ := mem_rejectedOrdinals hmem
  have hi' : i = evs₁.length := by omega
  subst hi'
  rw [List.getElem_append_right (by simp)] at e2
  simp only [Nat.sub_self, List.getElem_cons_zero] at e2
  rw [hcode] at e2
  cases e2

/-- A record whose policy code reads as a number makes `parseRow` return. -/
theorem parseAt_of_code (dp : DateParser) (evs : List Event) (row : Row) (c : Int)
    (hc : parseInt row.Masks_Order_Code.toList = some c) :
    ∃ a, (parseAt dp evs row).2 = .ok a ∧ a.fields = rowFields dp row := by
  obtain ⟨a, ha, _, _, _, f1, f2, f3, f4⟩ :=
    (parseRow_spec dp { run dp evs with totalRows := (run dp evs).totalRows + 1 } row).2.2.2.2 c hc
  exact ⟨a, ha, by simp only [ParsedRow.fields, rowFields, f1, f2, f3, f4]⟩

/-! ### C5: an unparseable date -/

/-- C5 as stated fails. In the stream of 100 sample records of which only
record 37 has a date the runtime cannot read, `parseRow` returns for that
record, with `NaN` as its date; the run stores 100 rows, the 37th being that
record's with a `NULL` date, and logs no rejection. -/
theorem unparseable_date_not_rejected :
    sampleDates badDateRow.Date = none ∧
    (parseAt sampleDates [] badDateRow).2 = .ok { sampleParsed with date := none } ∧
    (runToEnd sampleDates stream100 Fault.none).db.counties.length = 100 ∧
    ((runToEnd sampleDates stream100 Fault.none).db.counties.map CountyRow.fields)[36]?
      = some ("Franklin", some 39049, none, 1) ∧
    (runToEnd sampleDates stream100 Fault.none).rowErrors = [] := by
  have hff : ∀ ev ∈ stream100, ev.fault = Fault.none := by decide
  refine ⟨by decide, rfl, ?_, ?_, ?_⟩
  · have := congrArg List.length (load_fields sampleDates stream100 (noLinkFault_of_none hff))
    rw [List.length_map, List.length_map] at this
    rw [this]
    decide
  · rw [load_fields sampleDates stream100 (noLinkFault_of_none hff)]
    decide
  · rw [runToEnd, onEnd_rowErrors, run, rowErrors_none sampleDates _ hff _ Pipeline.Inv.init]
    decide

/-- C5, amended. A date the runtime cannot read does not make `parseRow` fail:
for every record with such a date whose policy code reads as a number,
`parseRow` returns an object whose date is `NaN`; and in every run without
store failure that record gets its `counties` row, with a `NULL` date, at the
position given by the accepted records before it, the table has one row per
record with a numeric policy code, and no rejection is logged for the record. -/
theorem unparseable_date_accepted (dp : DateParser) (evs₁ evs₂ : List Event) (ev : Event)
    (hdate : dp ev.row.Date = none) (hcode : codeIsNumber ev = true)
    (hff : ∀ e ∈ evs₁ ++ ev :: evs₂, e.fault = Fault.none) :
    (∃ a, (parseAt dp evs₁ ev.row).2 = .ok a ∧ a.date = none) ∧
    ((runToEnd dp (evs₁ ++ ev :: evs₂) Fault.none).db.counties.map CountyRow.fields)[
        (evs₁.filter codeIsNumber).length]?
      = some (ev.row.County_Name, parseInt ev.row.FIPS_Code.toList, none,
          faceMasksRequired ev.row.Face_Masks_Required_in_Public.toList) ∧
    (runToEnd dp (evs₁ ++ ev :: evs₂) Fault.none).db.counties.length
      = ((evs₁ ++ ev :: evs₂).filter codeIsNumber).length ∧
    evs₁.length + 1 ∉ (runToEnd dp (evs₁ ++ ev :: evs₂) Fault.none).rowErrors := by
  have hd : unixSeconds dp ev.row.Date = none := by simp [unixSeconds, hdate]
  refine ⟨?_, ?_, ?_, not_rejected dp evs₁ evs₂ ev hff hcode⟩
  · obtain ⟨c, hc⟩ := Option.isSome_iff_exists.1 hcode
    obtain ⟨a, ha, hf⟩ := parseAt_of_code dp evs₁ ev.row c hc
    refine ⟨a, ha, ?_⟩
    have := congrArg (fun t => t.2.2.1) hf
    simp only [ParsedRow.fields, rowFields] at this
    rw [this, hd]
  · have := load_row dp evs₁ evs₂ ev (noLinkFault_of_none hff) hcode
    rw [this, rowFields, hd]
  · have := congrArg List.length (load_fields dp _ (noLinkFault_of_none hff))
    simpa using this

/-- Witness for the amended C5: the record with the unreadable date between
two sample records. -/
theorem unparseable_date_accepted_witness :
    sampleDates badDateEvent.row.Date = none ∧
    (runToEnd sampleDates ([sampleEvent] ++ badDateEvent :: [sampleEvent])
      Fault.none).db.counties.length =
      (([sampleEvent] ++ badDateEvent :: [sampleEvent]).filter codeIsNumber).length :=
  ⟨by decide,
    (unparseable_date_accepted sampleDates [sampleEvent] [sampleEvent] badDateEvent
      (by decide) (by decide) (by decide)).2.2.1⟩

/-! ### C10: a non-numeric county identifier -/

/-- C10 as stated fails. For the sample record with `FIPS_Code` "abc",
`parseRow` returns, with `NaN` as the identifier; the run stores the record's
row with a `NULL` identifier and logs no rejection. -/
theorem non_numeric_fips_not_rejected :
    parseInt badFipsRow.FIPS_Code.toList = none ∧
    (parseAt sampleDates [] badFipsRow).2
      = .ok { sampleParsed with fips_code := none, date := some 1585699200 } ∧
    (runToEnd sampleDates [⟨badFipsRow, Fault.none⟩] Fault.none).db.counties
      = [countyRow 1 { sampleParsed with fips_code := none, date := some 1585699200 }] ∧
    (runToEnd sampleDates [⟨badFipsRow, Fault.none⟩] Fault.none).rowErrors = [] :=
  ⟨by decide, rfl, by decide, by decide⟩

/-- C10, amended. A county identifier that is not a decimal integer does not
make `parseRow` fail: for every record whose `FIPS_Code` has no leading run of
digits (after white space and a sign) and whose policy code reads as a number,
`parseRow` returns an object whose identifier is `NaN`; and in every run
without store failure that record gets its `counties` row, with a `NULL`
identifier, and no rejection is logged for it. -/
theorem non_numeric_fips_accepted (dp : DateParser) (evs₁ evs₂ : List Event) (ev : Event)
    (hfips : parseInt ev.row.FIPS_Code.toList = none) (hcode : codeIsNumber ev = true)
    (hff : ∀ e ∈ evs₁ ++ ev :: evs₂, e.fault = Fault.none) :
    (∃ a, (parseAt dp evs₁ ev.row).2 = .ok a ∧ a.fips_code = none) ∧
    ((runToEnd dp (evs₁ ++ ev :: evs₂) Fault.none).db.counties.map CountyRow.fields)[
        (evs₁.filter codeIsNumber).length]?
      = some (ev.row.County_Name, none, unixSeconds dp ev.row.Date,
          faceMasksRequired ev.row.Face_Masks_Required_in_Public.toList) ∧
    evs₁.length + 1 ∉ (runToEnd dp (evs₁ ++ ev :: evs₂) Fault.none).rowErrors := by
  refine ⟨?_, ?_, not_rejected dp evs₁ evs₂ ev hff hcode⟩
  · obtain ⟨c, hc⟩ := Option.isSome_iff_exists.1 hcode
    obtain ⟨a, ha, hf⟩ := parseAt_of_code dp evs₁ ev.row c hc
    refine ⟨a, ha, ?_⟩
    have := congrArg (fun t => t.2.1) hf
    simp only [ParsedRow.fields, rowFields] at this
    rw [this, hfips]
  · have := load_row dp evs₁ evs₂ ev (noLinkFault_of_none hff) hcode
    rw [this, rowFields, hfips]

/-- Witness for the amended C10: the record with identifier "abc" between two
sample records. -/
theorem non_numeric_fips_accepted_witness :
    parseInt badFipsEvent.row.FIPS_Code.toList = none ∧
    [sampleEvent].length + 1 ∉
      (runToEnd sampleDates ([sampleEvent] ++ badFipsEvent :: [sampleEvent])
        Fault.none).rowErrors :=
  ⟨by decide,
    (non_numeric_fips_accepted sampleDates [sampleEvent] [sampleEvent] badFipsEvent
      (by decide) (by decide) (by decide)).2.2⟩

/-! ### C8: the mandate flag -/

theorem includes_iff_occurs (s needle : List Char) :
    includes s needle = true ↔ needle <:+: s := by
  induction s with
  | nil => simp [includes, List.isEmpty_iff]
  | cons c cs ih =>
    rw [includes, Bool.or_eq_true, ih, List.infix_cons_iff, List.isPrefixOf_iff_prefix]

theorem lowerChar_cases (c : Char) :
    (∃ y, lowerChar c = [y]) ∨ lowerChar c = ['i', Char.ofNat 0x307] := by
  unfold lowerChar
  split
  · exact Or.inl ⟨_, rfl⟩
  · split
    · exact Or.inl ⟨_, rfl⟩
    · split
      · exact Or.inr rfl
      · exact Or.inl ⟨_, rfl⟩

theorem lowerChar_of_whiteSpace {c : Char} (h : isWhiteSpace c = true) : lowerChar c = [c] := by
  unfold isWhiteSpace at h
  simp only [Bool.or_eq_true, Bool.and_eq_true, decide_eq_true_eq] at h
  unfold lowerChar
  rw [if_neg (by omega), if_neg (by omega), if_neg (by omega)]

theorem trim_within (s : List Char) : trim s <:+: s := by
  unfold trim
  have h1 : ((s.dropWhile isWhiteSpace).reverse.dropWhile isWhiteSpace).reverse
      <+: s.dropWhile isWhiteSpace := by
    rw [← List.reverse_suffix, List.reverse_reverse]
    exact List.dropWhile_suffix _
  exact h1.isInfix.trans (List.dropWhile_suffix _).isInfix

theorem dropWhile_append_cons_of_neg {p : Char → Bool} (pre : List Char) {h : Char}
    (rest : List Char) (hp : p h = false) :
    ∃ pre', (pre ++ h :: rest).dropWhile p = pre' ++ h :: rest := by
  induction pre with
  | nil => exact ⟨[], by simp [List.dropWhile_cons, hp]⟩
  | cons a as ih =>
    by_cases ha : p a = true
    · obtain ⟨pre', e⟩ := ih
      exact ⟨pre', by simp [List.dropWhile_cons, ha, e]⟩
    · exact ⟨a :: as, by simp [List.dropWhile_cons, ha]⟩

/-- A stretch of `s` that starts and ends with characters that are not white
space survives `trim`. -/
theorem infix_trim {mid s : List Char} (h : mid <:+: s) {a b : Char}
    (ha : mid.head? = some a) (hb : mid.getLast? = some b)
    (hwa : isWhiteSpace a = false) (hwb : isWhiteSpace b = false) : mid <:+: trim s := by
  obtain ⟨pre, post, e⟩ := h
  obtain ⟨m, rfl⟩ : ∃ m, mid = a :: m := by
    cases mid with
    | nil => simp at ha
    | cons x m => simp at ha; exact ⟨m, by rw [ha]⟩
  obtain ⟨m', hm'⟩ : ∃ m', a :: m = m' ++ [b] := by
    have := List.getLast?_eq_some_iff.1 hb
    obtain ⟨ys, hys⟩ := this
    exact ⟨ys, hys⟩
  subst e
  obtain ⟨pre', e1⟩ := dropWhile_append_cons_of_neg (p := isWhiteSpace) pre (m ++ post) hwa
  have e1' : (pre ++ (a :: m) ++ post).dropWhile isWhiteSpace = pre' ++ (a :: m) ++ post := by
    simpa using e1
  obtain ⟨post', e2⟩ := dropWhile_append_cons_of_neg (p := isWhiteSpace) post.reverse
    (m'.reverse ++ pre'.reverse) hwb
  unfold trim
  rw [e1']
  have e3 : (pre' ++ (a :: m) ++ post).reverse
      = post.reverse ++ b :: (m'.reverse ++ pre'.reverse) := by
    rw [hm']
    simp
  rw [e3, e2]
  refine ⟨pre', post'.reverse, ?_⟩
  rw [hm']
  simp

theorem toLowerCase_append (xs ys : List Char) :
    toLowerCase (xs ++ ys) = toLowerCase xs ++ toLowerCase ys := by
  simp [toLowerCase]

theorem toLowerCase_within {mid s : List Char} (h : mid <:+: s) :
    toLowerCase mid <:+: toLowerCase s := by
  obtain ⟨pre, post, rfl⟩ := h
  rw [toLowerCase_append, toLowerCase_append]
  exact ⟨_, _, rfl⟩


/-- A prefix of a lower-cased text that has no combining dot and does not end
in `i` is the lower case of a prefix of the text. -/
theorem prefix_toLowerCase_inv (s n : List Char) (h : n <+: toLowerCase s)
    (hdot : Char.ofNat 0x307 ∉ n) (hlast : n.getLast? ≠ some 'i') :
    ∃ mid, mid <+: s ∧ toLowerCase mid = n := by
  induction s generalizing n with
  | nil =>
    simp only [toLowerCase, List.flatMap_nil, List.prefix_nil] at h
    exact ⟨[], List.prefix_refl _, by rw [h]; rfl⟩
  | cons c cs ih =>
    cases n with
    | nil => exact ⟨[], List.nil_prefix, rfl⟩
    | cons x n' =>
      have hstep : toLowerCase (c :: cs) = lowerChar c ++ toLowerCase cs := by
        simp [toLowerCase]
      rw [hstep] at h
      have hdot' : Char.ofNat 0x307 ∉ n' := fun hm => hdot (List.mem_cons_of_mem _ hm)
      have hlast' : n'.getLast? ≠ some 'i' := by
        intro hl
        apply hlast
        cases n' with
        | nil => simp at hl
        | cons z zs => rw [List.getLast?_cons_cons]; exact hl
      rcases lowerChar_cases c with ⟨y, hy⟩ | hy
      · rw [hy] at h
        simp only [List.singleton_append, List.cons_prefix_cons] at h
        obtain ⟨mid', hm1, hm2⟩ := ih n' h.2 hdot' hlast'
        refine ⟨c :: mid', by simpa using hm1, ?_⟩
        have : toLowerCase (c :: mid') = lowerChar c ++ toLowerCase mid' := by
          simp [toLowerCase]
        rw [this, hy, hm2, h.1]
        rfl
      · rw [hy] at h
        simp only [List.cons_append, List.nil_append, List.cons_prefix_cons] at h
        cases n' with
        | nil =>
          exfalso
          apply hlast
          rw [h.1]
          rfl
        | cons z zs =>
          exfalso
          simp only [List.cons_prefix_cons] at h
          apply hdot
          rw [h.2.1]
          simp

/-- The same for a stretch anywhere in the lower-cased text. -/
theorem infix_toLowerCase_inv (s n : List Char) (h : n <:+: toLowerCase s)
    (hdot : Char.ofNat 0x307 ∉ n) (hlast : n.getLast? ≠ some 'i') :
    ∃ mid, mid <:+: s ∧ toLowerCase mid = n := by
  induction s with
  | nil =>
    simp only [toLowerCase, List.flatMap_nil, List.infix_nil] at h
    exact ⟨[], List.infix_refl _, by rw [h]; rfl⟩
  | cons c cs ih =>
    have hstep : toLowerCase (c :: cs) = lowerChar c ++ toLowerCase cs := by
      simp [toLowerCase]
    have hpre : n <+: toLowerCase (c :: cs) → ∃ mid, mid <:+: c :: cs ∧ toLowerCase mid = n := by
      intro hp
      obtain ⟨mid, hm1, hm2⟩ := prefix_toLowerCase_inv (c :: cs) n hp hdot hlast
      exact ⟨mid, hm1.isInfix, hm2⟩
    have htail : n <:+: toLowerCase cs → ∃ mid, mid <:+: c :: cs ∧ toLowerCase mid = n := by
      intro ht
      obtain ⟨mid, hm1, hm2⟩ := ih ht
      exact ⟨mid, hm1.trans (List.suffix_cons c cs).isInfix, hm2⟩
    rcases lowerChar_cases c with ⟨y, hy⟩ | hy
    · have h' := h
      rw [hstep, hy, List.singleton_append, List.infix_cons_iff] at h'
      rcases h' with hp | ht
      · apply hpre
        rw [hstep, hy]
        exact hp
      · exact htail ht
    · have h' := h
      rw [hstep, hy] at h'
      simp only [List.cons_append, List.nil_append] at h'
      rw [List.infix_cons_iff] at h'
      rcases h' with hp | h2
      · apply hpre
        rw [hstep, hy]
        exact hp
      · rw [List.infix_cons_iff] at h2
        rcases h2 with hp2 | ht
        · cases n with
          | nil => exact ⟨[], List.nil_infix, rfl⟩
          | cons x n' =>
            exfalso
            simp only [List.cons_prefix_cons] at hp2
            apply hdot
            rw [hp2.1]
            simp
        · exact htail ht

/-- A text whose lower case starts and ends with characters that are not white
space starts and ends with such characters itself. -/
theorem ends_of_toLowerCase {mid n : List Char} (h : toLowerCase mid = n) {a b : Char}
    (ha : n.head? = some a) (hb : n.getLast? = some b)
    (hwa : isWhiteSpace a = false) (hwb : isWhiteSpace b = false) :
    ∃ a' b', mid.head? = some a' ∧ mid.getLast? = some b' ∧
      isWhiteSpace a' = false ∧ isWhiteSpace b' = false := by
  have hne : mid ≠ [] := by
    intro e
    rw [e] at h
    simp only [toLowerCase, List.flatMap_nil] at h
    rw [← h] at ha
    simp at ha
  obtain ⟨a', m, rfl⟩ : ∃ a' m, mid = a' :: m := by
    cases mid with
    | nil => exact absurd rfl hne
    | cons x xs => exact ⟨x, xs, rfl⟩
  obtain ⟨m', b', hm'⟩ : ∃ m' b', a' :: m = m' ++ [b'] := by
    have := List.eq_nil_or_concat (a' :: m)
    rcases this with e | ⟨l, b, e⟩
    · cases e
    · exact ⟨l, b, by simpa using e⟩
  refine ⟨a', b', rfl, by rw [hm']; simp, ?_, ?_⟩
  · by_contra hw
    have hw' : isWhiteSpace a' = true := by simpa using hw
    have : toLowerCase (a' :: m) = a' :: toLowerCase m := by
      simp [toLowerCase, lowerChar_of_whiteSpace hw']
    rw [this] at h
    rw [← h] at ha
    simp only [List.head?_cons, Option.some.injEq] at ha
    rw [ha, hwa] at hw'
    cases hw'
  · by_contra hw
    have hw' : isWhiteSpace b' = true := by simpa using hw
    have : toLowerCase (m' ++ [b']) = toLowerCase m' ++ [b'] := by
      simp [toLowerCase, lowerChar_of_whiteSpace hw']
    rw [hm', this] at h
    rw [← h] at hb
    simp only [List.getLast?_append, List.getLast?_singleton, Option.or_some,
      Option.some.injEq] at hb
    rw [hb, hwb] at hw'
    cases hw'

/-- Line 183 decides containment ignoring case, for a needle that is already
in lower case, has no combining dot, does not end in `i`, and starts and ends
with characters that are not white space. -/
theorem includes_lower_trim_iff (field needle : List Char) {a b : Char}
    (hlow : toLowerCase needle = needle) (hdot : Char.ofNat 0x307 ∉ needle)
    (hlast : needle.getLast? ≠ some 'i')
    (ha : needle.head? = some a) (hb : needle.getLast? = some b)
    (hwa : isWhiteSpace a = false) (hwb : isWhiteSpace b = false) :
    includes (toLowerCase (trim field)) needle = true ↔ containsIgnoringCase field needle := by
  rw [includes_iff_occurs]
  constructor
  · intro h
    obtain ⟨mid, hm1, hm2⟩ := infix_toLowerCase_inv (trim field) needle h hdot hlast
    obtain ⟨pre, post, e⟩ := hm1.trans (trim_within field)
    exact ⟨pre, mid, post, e.symm, by rw [hm2, hlow]⟩
  · rintro ⟨pre, mid, post, e, hm⟩
    rw [hlow] at hm
    obtain ⟨a', b', h1, h2, h3, h4⟩ := ends_of_toLowerCase hm ha hb hwa hwb
    have hin : mid <:+: field := ⟨pre, post, e.symm⟩
    have := toLowerCase_within (infix_trim hin h1 h2 h3 h4)
    rw [hm] at this
    exact this

/-- C8. Mandate flag. For every mandate description, the
`face_masks_required` value `parseRow` produces is 1 exactly when the
description, compared case-insensitively, contains the substring "yes" or the
substring "public mask mandate", and it is 0 otherwise. -/
theorem mandate_flag (field : List Char) :
    (faceMasksRequired field = 1 ↔
      containsIgnoringCase field "yes".toList ∨
        containsIgnoringCase field "public mask mandate".toList) ∧
    (faceMasksRequired field = 0 ↔
      ¬(containsIgnoringCase field "yes".toList ∨
        containsIgnoringCase field "public mask mandate".toList)) := by
  have h1 := includes_lower_trim_iff field "yes".toList (a := 'y') (b := 's')
    (by decide) (by decide) (by decide) (by decide) (by decide) (by decide) (by decide)
  have h2 := includes_lower_trim_iff field "public mask mandate".toList (a := 'p') (b := 'e')
    (by decide) (by decide) (by decide) (by decide) (by decide) (by decide) (by decide)
  unfold faceMasksRequired
  rw [← h1, ← h2, ← Bool.or_eq_true]
  split <;> simp_all


/-! ### C9: the citation list -/

theorem splitOn_ne_nil (sep : Char) (s : List Char) : splitOn sep s ≠ [] := by
  cases s with
  | nil => simp [splitOn]
  | cons c cs =>
    rw [splitOn]
    split
    · simp
    · split <;> simp

theorem intercalate_splitOn (sep : Char) (s : List Char) :
    List.intercalate [sep] (splitOn sep s) = s := by
  induction s with
  | nil => simp [splitOn, List.intercalate]
  | cons c cs ih =>
    rw [splitOn]
    split
    · rename_i hc
      cases hs : splitOn sep cs with
      | nil => exact absurd hs (splitOn_ne_nil sep cs)
      | cons h t =>
        rw [hs] at ih
        simp only [List.intercalate, List.intersperse, List.flatten_cons, List.nil_append,
          List.singleton_append] at ih ⊢
        rw [ih, hc]
    · cases hs : splitOn sep cs with
      | nil => exact absurd hs (splitOn_ne_nil sep cs)
      | cons h t =>
        rw [hs] at ih
        simp only
        cases t with
        | nil =>
          simp only [List.intercalate, List.intersperse, List.flatten_cons, List.flatten_nil,
            List.append_nil] at ih ⊢
          rw [ih]
        | cons h2 t2 =>
          simp only [List.intercalate, List.intersperse, List.flatten_cons,
            List.cons_append] at ih ⊢
          rw [ih]

theorem mem_splitOn {sep : Char} {s p : List Char} (hp : p ∈ splitOn sep s) :
    ∀ c ∈ p, c ∈ s ∧ c ≠ sep := by
  induction s generalizing p with
  | nil =>
    simp only [splitOn, List.mem_singleton] at hp
    subst hp
    simp
  | cons a as ih =>
    rw [splitOn] at hp
    split at hp
    · rcases List.mem_cons.1 hp with rfl | hp
      · simp
      · intro c hc
        exact ⟨List.mem_cons_of_mem _ (ih hp c hc).1, (ih hp c hc).2⟩
    · rename_i hne
      cases hs : splitOn sep as with
      | nil => exact absurd hs (splitOn_ne_nil sep as)
      | cons h t =>
        rw [hs] at hp ih
        simp only at hp
        rcases List.mem_cons.1 hp with rfl | hp
        · intro c hc
          rcases List.mem_cons.1 hc with rfl | hc
          · exact ⟨by simp, hne⟩
          · exact ⟨List.mem_cons_of_mem _ (ih (by simp) c hc).1, (ih (by simp) c hc).2⟩
        · intro c hc
          exact ⟨List.mem_cons_of_mem _ (ih (by simp [hp]) c hc).1, (ih (by simp [hp]) c hc).2⟩


theorem dropWhile_head_false {p : Char → Bool} {l : List Char} {a : Char}
    (h : (l.dropWhile p).head? = some a) : p a = false := by
  have := List.head?_dropWhile_not p l
  rw [h] at this
  exact this

theorem trim_prefix_dropWhile (s : List Char) : trim s <+: s.dropWhile isWhiteSpace := by
  unfold trim
  rw [← List.reverse_suffix, List.reverse_reverse]
  exact List.dropWhile_suffix _

/-- A trimmed text neither starts nor ends with white space. -/
theorem trim_ends (s : List Char) :
    (∀ a, (trim s).head? = some a → isWhiteSpace a = false) ∧
    (∀ b, (trim s).getLast? = some b → isWhiteSpace b = false) := by
  constructor
  · intro a ha
    obtain ⟨t, ht⟩ := trim_prefix_dropWhile s
    apply dropWhile_head_false (p := isWhiteSpace) (l := s)
    rw [← ht]
    cases hts : trim s with
    | nil => rw [hts] at ha; simp at ha
    | cons x xs => rw [hts] at ha; simpa using ha
  · intro b hb
    unfold trim at hb
    rw [List.getLast?_reverse] at hb
    exact dropWhile_head_false hb

/-- What `trim` removes is white space. -/
theorem trim_removed (s : List Char) :
    ∃ l r, s = l ++ trim s ++ r ∧ (∀ c ∈ l, isWhiteSpace c = true) ∧
      (∀ c ∈ r, isWhiteSpace c = true) := by
  have h1 : s = s.takeWhile isWhiteSpace ++ s.dropWhile isWhiteSpace :=
    (List.takeWhile_append_dropWhile _ _).symm
  have h2 : (s.dropWhile isWhiteSpace).reverse
      = (s.dropWhile isWhiteSpace).reverse.takeWhile isWhiteSpace
        ++ (s.dropWhile isWhiteSpace).reverse.dropWhile isWhiteSpace :=
    (List.takeWhile_append_dropWhile _ _).symm
  refine ⟨s.takeWhile isWhiteSpace,
    ((s.dropWhile isWhiteSpace).reverse.takeWhile isWhiteSpace).reverse, ?_, ?_, ?_⟩
  · have h3 := congrArg List.reverse h2
    rw [List.reverse_reverse, List.reverse_append] at h3
    unfold trim
    rw [List.append_assoc, ← h3]
    exact h1
  · intro c hc
    exact (List.mem_takeWhile_imp hc)
  · intro c hc
    rw [List.mem_reverse] at hc
    exact (List.mem_takeWhile_imp hc)

theorem trim_eq_nil_of_whiteSpace {s : List Char} (h : ∀ c ∈ s, isWhiteSpace c = true) :
    trim s = [] := by
  unfold trim
  rw [List.dropWhile_eq_nil_iff.2 h]
  rfl

/-- What `replace(/^\[|\]$/g, '')` removes: a `[` in front when the text starts
with one, and a `]` at the end when what is left ends with one. -/
theorem stripBrackets_spec (s : List Char) :
    ∃ l r, s = l ++ stripBrackets s ++ r ∧
      l = (if s.head? = some '[' then ['['] else []) ∧
      r = (if (s.drop l.length).getLast? = some ']' then [']'] else []) := by
  have key : ∀ t : List Char, ∃ r, t = (match t.reverse with
      | ']' :: r => r.reverse
      | _ => t) ++ r ∧ r = (if t.getLast? = some ']' then [']'] else []) := by
    intro t
    cases hr : t.reverse with
    | nil =>
      have : t = [] := by simpa using hr
      subst this
      exact ⟨[], by simp, by simp⟩
    | cons x xs =>
      have ht : t = xs.reverse ++ [x] := by
        have := congrArg List.reverse hr
        simpa using this
      by_cases hx : x = ']'
      · subst hx
        exact ⟨[']'], by simpa using ht, by rw [ht]; simp⟩
      · refine ⟨[], ?_, ?_⟩
        · split
          · rename_i r heq
            simp only [List.cons.injEq] at heq
            exact absurd heq.1 hx
          · simp
        · rw [ht]
          simp [hx]
  unfold stripBrackets
  cases s with
  | nil =>
    obtain ⟨r, h1, h2⟩ := key []
    exact ⟨[], r, by simpa using h1, by simp, by simpa using h2⟩
  | cons c cs =>
    by_cases hc : c = '['
    · subst hc
      obtain ⟨r, h1, h2⟩ := key cs
      refine ⟨['['], r, ?_, by simp, by simpa using h2⟩
      simp only [List.singleton_append, List.cons_append, List.cons.injEq, true_and]
      exact h1
    · obtain ⟨r, h1, h2⟩ := key (c :: cs)
      have hm : (match c :: cs with
          | '[' :: r => r
          | r => r) = c :: cs := by
        split
        · rename_i r heq
          simp only [List.cons.injEq] at heq
          exact absurd heq.1 hc
        · rfl
      simp only [hm]
      refine ⟨[], r, by simpa using h1, by simp [hc], by simpa [hc] using h2⟩


/-- C9 as stated fails. The field "[[]]" consists only of brackets, yet it
yields one citation, the text "[]": only one `[` in front and one `]` at the
end are removed. -/
theorem brackets_only_field_yields_citation :
    (∀ ch ∈ "[[]]".toList, ch = '[' ∨ ch = ']' ∨ ch = ',' ∨ isWhiteSpace ch = true) ∧
    parseCitations "[[]]".toList = ["[]".toList] ∧
    parseCitations "][".toList = ["][".toList] := by
  decide

/-- C9, amended. For every citation field, `parseRow` removes a `[` at the
very start and a `]` at the very end, splits the rest at its commas, trims
white space off both ends of each piece and discards the pieces left empty,
keeping the others in their order; so every citation text is non-empty and
neither starts nor ends with white space; and a field that, once that one
leading `[` and that one trailing `]` are removed, holds only commas and white
space (an empty field, "[]", "[ , ]") yields no citation. -/
theorem citation_list_parsing (field : List Char) :
    (∃ l r, field = l ++ stripBrackets field ++ r ∧
      l = (if field.head? = some '[' then ['['] else []) ∧
      r = (if (field.drop l.length).getLast? = some ']' then [']'] else [])) ∧
    List.intercalate [','] (splitOn ',' (stripBrackets field)) = stripBrackets field ∧
    (∀ p ∈ splitOn ',' (stripBrackets field), ',' ∉ p) ∧
    (∀ p ∈ splitOn ',' (stripBrackets field), ∃ l r, p = l ++ trim p ++ r ∧
      (∀ c ∈ l, isWhiteSpace c = true) ∧ (∀ c ∈ r, isWhiteSpace c = true)) ∧
    parseCitations field
      = ((splitOn ',' (stripBrackets field)).map trim).filter (fun c => decide (c ≠ [])) ∧
    (∀ c ∈ parseCitations field, c ≠ [] ∧
      (∀ a, c.head? = some a → isWhiteSpace a = false) ∧
      (∀ b, c.getLast? = some b → isWhiteSpace b = false)) ∧
    ((∀ ch ∈ stripBrackets field, ch = ',' ∨ isWhiteSpace ch = true) →
      parseCitations field = []) := by
  have hfilter : parseCitations field
      = ((splitOn ',' (stripBrackets field)).map trim).filter (fun c => decide (c ≠ [])) := by
    unfold parseCitations
    congr 1
    funext c
    cases c <;> simp
  refine ⟨stripBrackets_spec field, intercalate_splitOn ',' _, ?_, ?_, hfilter, ?_, ?_⟩
  · intro p hp hmem
    exact (mem_splitOn hp ',' hmem).2 rfl
  · intro p _
    exact trim_removed p
  · intro c hc
    rw [hfilter, List.mem_filter, List.mem_map] at hc
    obtain ⟨⟨p, _, rfl⟩, hne⟩ := hc
    exact ⟨by simpa using hne, (trim_ends p).1, (trim_ends p).2⟩
  · intro hall
    rw [hfilter, List.filter_eq_nil_iff]
    intro c hc
    rw [List.mem_map] at hc
    obtain ⟨p, hp, rfl⟩ := hc
    have : trim p = [] := by
      apply trim_eq_nil_of_whiteSpace
      intro ch hch
      obtain ⟨h1, h2⟩ := mem_splitOn hp ch hch
      rcases hall ch h1 with h | h
      · exact absurd h h2
      · exact h
    simp [this]

/-- Witness for the amended C9: the field "[ , ]" yields no citation. -/
theorem citation_list_parsing_witness :
    (∀ ch ∈ stripBrackets "[ , ]".toList, ch = ',' ∨ isWhiteSpace ch = true) ∧
    parseCitations "[ , ]".toList = [] :=
  ⟨by decide, (citation_list_parsing "[ , ]".toList).2.2.2.2.2.2 (by decide)⟩


/-! ### C6, C7: a failing flush -/

/-- Once the buffer has reached the threshold without being emptied, the
`data` handler never flushes again: a record is parsed and, if that succeeds,
appended; the `counties` and `county_citations` tables and the link buffer
stay as they are. -/
theorem onData_overfull (dp : DateParser) {p : Pipeline} (ev : Event)
    (hfull : batchSize ≤ p.countyBatch.length) :
    (onData dp p ev).countyBatch = p.countyBatch ++ parsedRecords dp p [ev] ∧
      (onData dp p ev).db.counties = p.db.counties ∧
      (onData dp p ev).db.county_citations = p.db.county_citations ∧
      (onData dp p ev).db.seqCounties = p.db.seqCounties ∧
      (onData dp p ev).countyCitationsBatch = p.countyCitationsBatch ∧
      (p.Inv → (onData dp p ev).rowErrors = p.rowErrors ++ rejectedOrdinals p.totalRows [ev]) := by
  obtain ⟨_, a2, a3, a4, a5⟩ := parseRow_spec dp { p with totalRows := p.totalRows + 1 } ev.row
  simp only [parsedRecords]
  rcases hpr : parseRow dp { p with totalRows := p.totalRows + 1 } ev.row with ⟨p1, r⟩
  rw [hpr] at a2 a3 a4 a5
  simp only at a2 a3 a4 a5
  cases r with
  | error e =>
    rw [onData_parse_error hpr]
    refine ⟨by simpa using a2.countyBatch, a2.counties, a2.county_citations, a2.seqCounties,
      a2.countyCitationsBatch, ?_⟩
    intro hinv
    have hinv0 : ({ p with totalRows := p.totalRows + 1 } : Pipeline).Inv :=
      hinv.congr rfl rfl rfl rfl rfl rfl
    cases hc : parseInt ev.row.Masks_Order_Code.toList with
    | none =>
      simp only [rejectedOrdinals, codeIsNumber, hc, Option.isSome_none, Bool.false_eq_true,
        if_false]
      rw [a2.rowErrors, a2.totalRows]
    | some c =>
      obtain ⟨q, hq, _⟩ := a5 c hc
      cases hq
  | ok parsed =>
    rw [onData_parse_ok hpr]
    have hlen : ¬ (p1.countyBatch ++ [parsed]).length = batchSize := by
      rw [a2.countyBatch, List.length_append, List.length_singleton]
      show ¬ p.countyBatch.length + 1 = batchSize
      omega
    rw [if_neg hlen]
    refine ⟨by simp [a2.countyBatch], a2.counties, a2.county_citations, a2.seqCounties,
      a2.countyCitationsBatch, ?_⟩
    intro hinv
    have hinv0 : ({ p with totalRows := p.totalRows + 1 } : Pipeline).Inv :=
      hinv.congr rfl rfl rfl rfl rfl rfl
    cases hc : parseInt ev.row.Masks_Order_Code.toList with
    | none =>
      have := a4 hc hinv0
      cases this
    | some c =>
      simp only [rejectedOrdinals, codeIsNumber, hc, Option.isSome_some, if_true,
        List.append_nil]
      exact a2.rowErrors

theorem parsedRecords_cons (dp : DateParser) (p : Pipeline) (ev : Event) (evs : List Event) :
    parsedRecords dp p (ev :: evs)
      = parsedRecords dp p [ev] ++ parsedRecords dp (onData dp p ev) evs := by
  simp only [parsedRecords]
  cases (parseRow dp { p with totalRows := p.totalRows + 1 } ev.row).2 <;> rfl

theorem rejectedOrdinals_cons (start : Nat) (ev : Event) (evs : List Event) :
    rejectedOrdinals start (ev :: evs)
      = rejectedOrdinals start [ev] ++ rejectedOrdinals (start + 1) evs := by
  simp only [rejectedOrdinals]
  split <;> rfl

/-- The same over any number of later records. -/
theorem runFrom_overfull (dp : DateParser) (evs : List Event) (p : Pipeline)
    (hfull : batchSize ≤ p.countyBatch.length) :
    (runFrom dp p evs).countyBatch = p.countyBatch ++ parsedRecords dp p evs ∧
      (runFrom dp p evs).db.counties = p.db.counties ∧
      (runFrom dp p evs).db.county_citations = p.db.county_citations ∧
      (runFrom dp p evs).db.seqCounties = p.db.seqCounties ∧
      (runFrom dp p evs).countyCitationsBatch = p.countyCitationsBatch ∧
      (p.Inv → (runFrom dp p evs).rowErrors = p.rowErrors ++ rejectedOrdinals p.totalRows evs) := by
  induction evs generalizing p with
  | nil => simp [runFrom, parsedRecords, rejectedOrdinals]
  | cons ev evs ih =>
    obtain ⟨a1, a2, a3, a4, a5, a6⟩ := onData_overfull dp ev hfull
    have hfull' : batchSize ≤ (onData dp p ev).countyBatch.length := by
      rw [a1, List.length_append]
      omega
    obtain ⟨b1, b2, b3, b4, b5, b6⟩ := ih (onData dp p ev) hfull'
    have e : runFrom dp p (ev :: evs) = runFrom dp (onData dp p ev) evs := rfl
    rw [e]
    refine ⟨?_, b2.trans a2, b3.trans a3, b4.trans a4, b5.trans a5, ?_⟩
    · rw [b1, a1, List.append_assoc, ← parsedRecords_cons]
    · intro hinv
      rw [b6 ((onData_spec dp p ev).2.1 hinv), a6 hinv, (onData_spec dp p ev).2.2.1,
        List.append_assoc, ← rejectedOrdinals_cons]


theorem run_totalRows (dp : DateParser) (evs : List Event) :
    (run dp evs).totalRows = evs.length := by
  have := (runFrom_spec dp Pipeline.init evs).2.2
  simpa [run, Pipeline.init] using this

/-- The `data` event on which a flush fails: the failure is logged under the
ordinal of the record that triggered the flush, the record stays in the
buffer with the others, and the database is as the failed transaction left
it. -/
theorem flush_failure_step (dp : DateParser) (evs : List Event) (ev : Event) (p1 : Pipeline)
    (parsed : ParsedRow) (hparse : parseAt dp evs ev.row = (p1, .ok parsed))
    (hfull : (p1.countyBatch ++ [parsed]).length = batchSize)
    (hfault : ev.fault ≠ Fault.none) :
    (run dp (evs ++ [ev])).rowErrors = (run dp evs).rowErrors ++ [evs.length + 1] ∧
      (run dp (evs ++ [ev])).countyBatch = (run dp evs).countyBatch ++ [parsed] ∧
      (run dp (evs ++ [ev])).countyBatch.length = batchSize ∧
      (ev.fault = Fault.counties → (run dp (evs ++ [ev])).db = p1.db ∧
        (run dp (evs ++ [ev])).countyCitationsBatch = (run dp evs).countyCitationsBatch) ∧
      (ev.fault = Fault.links →
        (run dp (evs ++ [ev])).db = p1.db.addCounties (p1.countyBatch ++ [parsed])) := by
  have hsl := (parseRow_spec dp { run dp evs with totalRows := (run dp evs).totalRows + 1 }
    ev.row).2.1
  unfold parseAt at hparse
  rw [hparse] at hsl
  simp only at hsl
  have htot : p1.totalRows = evs.length + 1 := by
    rw [hsl.totalRows]
    show (run dp evs).totalRows + 1 = _
    rw [run_totalRows]
  rw [run_snoc, onData_parse_ok hparse, if_pos hfull]
  cases hf : ev.fault with
  | none => exact absurd hf hfault
  | counties =>
    rw [flushBatch_counties_fault]
    simp only
    exact ⟨by rw [hsl.rowErrors, htot], by rw [hsl.countyBatch], hfull,
      fun _ => ⟨trivial, hsl.countyCitationsBatch⟩, (fun h => by cases h)⟩
  | links =>
    have hinv2 : ({ p1 with countyBatch := p1.countyBatch ++ [parsed] } : Pipeline).Inv :=
      @push_inv dp evs ev.row _ _ (by unfold parseAt; exact hparse)
    rw [flushBatch_links_fault hinv2]
    simp only
    exact ⟨by rw [hsl.rowErrors, htot], by rw [hsl.countyBatch], hfull,
      (fun h => by cases h), fun _ => trivial⟩

/-- One `data` event without store failure on a buffer below the threshold:
the buffer grows by one if the record parsed, and is emptied when that brings
it to the threshold. -/
theorem onData_none_length (dp : DateParser) {p : Pipeline} (hinv : p.Inv) {ev : Event}
    (hf : ev.fault = Fault.none) (hlt : p.countyBatch.length < batchSize) :
    (onData dp p ev).countyBatch.length
      = (p.countyBatch.length + (if codeIsNumber ev then 1 else 0)) % batchSize := by
  obtain ⟨_, a2, a3, a4, a5⟩ := parseRow_spec dp { p with totalRows := p.totalRows + 1 } ev.row
  have hinv0 : ({ p with totalRows := p.totalRows + 1 } : Pipeline).Inv :=
    hinv.congr rfl rfl rfl rfl rfl rfl
  rcases hpr : parseRow dp { p with totalRows := p.totalRows + 1 } ev.row with ⟨p1, r⟩
  rw [hpr] at a2 a3 a4 a5
  simp only at a2 a3 a4 a5
  have hb : p1.countyBatch = p.countyBatch := a2.countyBatch
  cases hc : parseInt ev.row.Masks_Order_Code.toList with
  | none =>
    have := a4 hc hinv0
    subst this
    rw [onData_parse_error hpr]
    simp only [codeIsNumber, hc, Option.isSome_none, Bool.false_eq_true, if_false, Nat.add_zero]
    rw [hb, Nat.mod_eq_of_lt hlt]
  | some c =>
    obtain ⟨q, hq, b1, b2, b3, _⟩ := a5 c hc
    subst hq
    rw [onData_parse_ok hpr]
    simp only [codeIsNumber, hc, Option.isSome_some, if_true]
    have hinv2 : ({ p1 with countyBatch := p1.countyBatch ++ [q] } : Pipeline).Inv := by
      have hinv1 := a3 hinv0
      refine ⟨hinv1.db_wf, hinv1.stateCache_sound, hinv1.masksOrderCache_sound,
        hinv1.citationCache_sound, ?_, hinv1.links_fk⟩
      intro x hx
      rcases List.mem_append.1 hx with hx | hx
      · exact hinv1.batch_fk x hx
      · simp only [List.mem_singleton] at hx
        subst hx
        exact admits_of_parse hinv1 b1 b2 b3
    have hlen : (p1.countyBatch ++ [q]).length = p.countyBatch.length + 1 := by
      rw [hb, List.length_append, List.length_singleton]
    split
    · rename_i hfl
      rw [hf]
      obtain ⟨g1, _, _⟩ := flushBatch_none hinv2 (n := batchSize) hfl.symm
      rcases hfr : flushBatch batchSize Fault.none
        { p1 with countyBatch := p1.countyBatch ++ [q] } with ⟨p3, r3⟩
      rw [hfr] at g1
      simp only at g1
      subst g1
      simp only [List.length_nil]
      rw [← hlen, hfl, Nat.mod_self]
    · rename_i hfl
      show (p1.countyBatch ++ [q]).length = _
      rw [hlen] at hfl ⊢
      rw [Nat.mod_eq_of_lt (by omega)]

/-- During a run without store failure the buffer holds the number of parsed
records modulo the threshold. -/
theorem batch_length_none (dp : DateParser) (evs : List Event)
    (hff : ∀ ev ∈ evs, ev.fault = Fault.none) (p : Pipeline) (hinv : p.Inv)
    (hlt : p.countyBatch.length < batchSize) :
    (runFrom dp p evs).countyBatch.length
      = (p.countyBatch.length + (evs.filter codeIsNumber).length) % batchSize := by
  induction evs generalizing p with
  | nil => simp [runFrom, Nat.mod_eq_of_lt hlt]
  | cons ev evs ih =>
    have h1 := onData_none_length dp hinv (hff ev (by simp)) hlt
    have hlt' : (onData dp p ev).countyBatch.length < batchSize := by
      rw [h1]
      exact Nat.mod_lt _ (by decide)
    have h2 := ih (fun e he => hff e (by simp [he])) (onData dp p ev)
      ((onData_spec dp p ev).2.1 hinv) hlt'
    show (runFrom dp (onData dp p ev) evs).countyBatch.length = _
    rw [h2, h1]
    by_cases hc : codeIsNumber ev = true
    · rw [List.filter_cons_of_pos hc, List.length_cons]
      simp only [hc, if_true]
      rw [Nat.mod_add_mod]
      congr 1
      omega
    · rw [List.filter_cons_of_neg hc]
      simp only [hc, if_false, Bool.false_eq_true]
      rw [Nat.mod_add_mod]
      rfl


theorem rejectedOrdinals_of_numeric (start : Nat) (evs : List Event)
    (h : ∀ ev ∈ evs, codeIsNumber ev = true) : rejectedOrdinals start evs = [] := by
  induction evs generalizing start with
  | nil => rfl
  | cons ev evs ih =>
    simp only [rejectedOrdinals, h ev (by simp), if_true]
    exact ih _ (fun e he => h e (by simp [he]))

theorem parsedRecords_length (dp : DateParser) (evs : List Event) (p : Pipeline) (hinv : p.Inv) :
    (parsedRecords dp p evs).length = (evs.filter codeIsNumber).length := by
  have := congrArg List.length (parsedRecords_fields dp evs p hinv)
  simpa using this

/-- The `end` handler when the store works: the whole buffer is inserted. -/
theorem onEnd_none_counties {p : Pipeline} (hinv : p.Inv) :
    (onEnd Fault.none p).db.counties
      = p.db.counties ++ assignIds p.db.seqCounties p.countyBatch := by
  have := load_counties (fun _ => none) [] (by simp) p hinv
  simpa [runFrom, parsedRecords] using this

/-- What follows a flush that failed in the `data` handler, for any later
events. -/
theorem after_flush_failure (dp : DateParser) (evs evs₂ : List Event) (ev : Event)
    (parsed : ParsedRow) (hparse : (parseAt dp evs ev.row).2 = .ok parsed)
    (hfull : (run dp evs).countyBatch.length + 1 = batchSize)
    (hfault : ev.fault ≠ Fault.none) :
    (run dp (evs ++ [ev])).rowErrors = (run dp evs).rowErrors ++ [evs.length + 1] ∧
      (run dp (evs ++ ev :: evs₂)).countyBatch
        = (run dp evs).countyBatch ++ parsed :: parsedRecords dp (run dp (evs ++ [ev])) evs₂ ∧
      (run dp (evs ++ ev :: evs₂)).db.counties = (run dp (evs ++ [ev])).db.counties ∧
      (run dp (evs ++ ev :: evs₂)).db.county_citations
        = (run dp (evs ++ [ev])).db.county_citations ∧
      (run dp (evs ++ ev :: evs₂)).rowErrors
        = (run dp evs).rowErrors ++ (evs.length + 1) :: rejectedOrdinals (evs.length + 1) evs₂ ∧
      (ev.fault = Fault.counties →
        (run dp (evs ++ [ev])).db.counties = (run dp evs).db.counties ∧
        (runToEnd dp (evs ++ ev :: evs₂) Fault.none).db.counties
          = (run dp evs).db.counties ++ assignIds (run dp evs).db.seqCounties
              ((run dp evs).countyBatch ++ parsed ::
                parsedRecords dp (run dp (evs ++ [ev])) evs₂)) := by
  have hsl := (parseRow_spec dp { run dp evs with totalRows := (run dp evs).totalRows + 1 }
    ev.row).2.1
  have hp : parseAt dp evs ev.row = ((parseAt dp evs ev.row).1, .ok parsed) := by
    rw [← hparse]
  have hb : (parseAt dp evs ev.row).1.countyBatch = (run dp evs).countyBatch := hsl.countyBatch
  have hfull' : ((parseAt dp evs ev.row).1.countyBatch ++ [parsed]).length = batchSize := by
    rw [hb, List.length_append, List.length_singleton]
    exact hfull
  obtain ⟨s1, s2, s3, s4, _⟩ := flush_failure_step dp evs ev _ parsed hp hfull' hfault
  have hrun : run dp (evs ++ ev :: evs₂) = runFrom dp (run dp (evs ++ [ev])) evs₂ := by
    rw [run_append_cons, run_snoc]
  obtain ⟨o1, o2, o3, o4, _, o6⟩ :=
    runFrom_overfull dp evs₂ (run dp (evs ++ [ev])) (by rw [s3])
  have htot : (run dp (evs ++ [ev])).totalRows = evs.length + 1 := by
    rw [run_totalRows]
    simp
  refine ⟨s1, ?_, by rw [hrun, o2], by rw [hrun, o3], ?_, ?_⟩
  · rw [hrun, o1, s2]
    simp
  · rw [hrun, o6 (run_inv dp _), s1, htot]
    simp
  · intro hc
    obtain ⟨d1, _⟩ := s4 hc
    have hcount : (run dp (evs ++ [ev])).db.counties = (run dp evs).db.counties := by
      rw [d1]
      exact hsl.counties
    have hseq : (run dp (evs ++ [ev])).db.seqCounties = (run dp evs).db.seqCounties := by
      rw [d1]
      exact hsl.seqCounties
    refine ⟨hcount, ?_⟩
    rw [runToEnd, onEnd_none_counties (run_inv dp _), hrun, o1, o2, o4, s2, hcount, hseq]
    simp


/-- The 999 sample records before the failing flush of `failingStream`: they
fill the buffer to one below the threshold, and the next sample record
parses. -/
theorem failingStream_prefix :
    (run sampleDates (List.replicate 999 sampleEvent)).countyBatch.length + 1 = batchSize ∧
      (run sampleDates (List.replicate 999 sampleEvent)).rowErrors = [] ∧
      ∃ parsed, (parseAt sampleDates (List.replicate 999 sampleEvent) countyFaultEvent.row).2
        = .ok parsed := by
  have hff : ∀ ev ∈ List.replicate 999 sampleEvent, ev.fault = Fault.none := by
    intro ev hev
    rw [(List.mem_replicate.1 hev).2]
    rfl
  have hnum : ∀ ev ∈ List.replicate 999 sampleEvent, codeIsNumber ev = true := by
    intro ev hev
    rw [(List.mem_replicate.1 hev).2]
    decide
  refine ⟨?_, ?_, ?_⟩
  · have := batch_length_none sampleDates _ hff Pipeline.init Pipeline.Inv.init (by decide)
    rw [run, this, List.filter_eq_self.2 hnum, List.length_replicate]
    rfl
  · rw [run, rowErrors_none sampleDates _ hff Pipeline.init Pipeline.Inv.init,
      rejectedOrdinals_of_numeric _ _ hnum]
    rfl
  · obtain ⟨a, ha, _⟩ := parseAt_of_code sampleDates (List.replicate 999 sampleEvent)
      countyFaultEvent.row 12 (by decide)
    exact ⟨a, ha⟩

/-- C6 as stated fails. In the stream of 1001 sample records in which the
store fails the county insert of the flush triggered by record 1000, the run
does not abort: record 1001 is processed and buffered behind the 1000 pending
ones, the failure is logged as the error of row 1000 like any row-level error,
and the `end` handler then commits all 1001 records. -/
theorem flush_failure_not_fatal :
    (run sampleDates failingStream).totalRows = 1001 ∧
    (run sampleDates failingStream).rowErrors = [1000] ∧
    (run sampleDates failingStream).countyBatch.length = 1001 ∧
    (runToEnd sampleDates failingStream Fault.none).db.counties.length = 1001 := by
  obtain ⟨h1, h2, parsed, h3⟩ := failingStream_prefix
  obtain ⟨_, a2, _, _, a5, _⟩ := after_flush_failure sampleDates (List.replicate 999 sampleEvent)
    [sampleEvent] countyFaultEvent parsed h3 h1 (by decide)
  have hnum : ∀ ev ∈ failingStream, codeIsNumber ev = true := by
    intro ev hev
    simp only [failingStream, List.mem_append, List.mem_cons, List.mem_singleton,
      List.not_mem_nil, or_false] at hev
    rcases hev with hev | rfl | rfl
    · rw [(List.mem_replicate.1 hev).2]
      decide
    · decide
    · decide
  have hnl : ∀ ev ∈ failingStream, ev.fault ≠ Fault.links := by
    intro ev hev
    simp only [failingStream, List.mem_append, List.mem_cons, List.mem_singleton,
      List.not_mem_nil, or_false] at hev
    rcases hev with hev | rfl | rfl
    · rw [(List.mem_replicate.1 hev).2]
      decide
    · decide
    · decide
  refine ⟨?_, ?_, ?_, ?_⟩
  · rw [run_totalRows]
    show (List.replicate 999 sampleEvent ++ countyFaultEvent :: [sampleEvent]).length = 1001
    rw [List.length_append, List.length_replicate]
    rfl
  · show (run sampleDates (List.replicate 999 sampleEvent ++ countyFaultEvent ::
      [sampleEvent])).rowErrors = [1000]
    rw [a5, h2, rejectedOrdinals_of_numeric _ _ (by decide), List.length_replicate]
    rfl
  · show (run sampleDates (List.replicate 999 sampleEvent ++ countyFaultEvent ::
      [sampleEvent])).countyBatch.length = 1001
    rw [a2, List.length_append, List.length_cons,
      parsedRecords_length _ _ _ (run_inv _ _)]
    have : ([sampleEvent].filter codeIsNumber).length = 1 := by decide
    rw [this]
    have hb : batchSize = 1000 := rfl
    omega
  · have := congrArg List.length (load_fields sampleDates failingStream hnl)
    rw [List.length_map, List.length_map, List.filter_eq_self.2 hnum] at this
    rw [this]
    show (List.replicate 999 sampleEvent ++ countyFaultEvent :: [sampleEvent]).length = 1001
    rw [List.length_append, List.length_replicate]
    rfl

/-- C6, amended. When a flush of the `data` handler fails (either
transaction), the run does not abort: the handler's `catch` logs the failure
under the ordinal of the record that triggered the flush, as it logs a
row-level error; the rows committed before stay where they are; the pending
records stay in the buffer; every later record is still processed, and parsed
records are appended to the buffer, which has passed the threshold so that the
`data` handler commits nothing more. If it was the county insert that failed
and the final flush succeeds, the `end` handler commits every buffered
record. -/
theorem flush_failure_absorbed (dp : DateParser) (evs evs₂ : List Event) (ev : Event)
    (parsed : ParsedRow) (hparse : (parseAt dp evs ev.row).2 = .ok parsed)
    (hfull : (run dp evs).countyBatch.length + 1 = batchSize)
    (hfault : ev.fault ≠ Fault.none) :
    (run dp (evs ++ [ev])).rowErrors = (run dp evs).rowErrors ++ [evs.length + 1] ∧
    (run dp evs).db.Extends (run dp (evs ++ ev :: evs₂)).db ∧
    (run dp (evs ++ ev :: evs₂)).totalRows = evs.length + 1 + evs₂.length ∧
    (run dp (evs ++ ev :: evs₂)).countyBatch
      = (run dp evs).countyBatch ++ parsed :: parsedRecords dp (run dp (evs ++ [ev])) evs₂ ∧
    (run dp (evs ++ ev :: evs₂)).db.counties = (run dp (evs ++ [ev])).db.counties ∧
    (run dp (evs ++ ev :: evs₂)).db.county_citations
      = (run dp (evs ++ [ev])).db.county_citations ∧
    (ev.fault = Fault.counties →
      (run dp (evs ++ [ev])).db.counties = (run dp evs).db.counties ∧
      (runToEnd dp (evs ++ ev :: evs₂) Fault.none).db.counties
        = (run dp evs).db.counties ++ assignIds (run dp evs).db.seqCounties
            ((run dp evs).countyBatch ++ parsed ::
              parsedRecords dp (run dp (evs ++ [ev])) evs₂)) := by
  obtain ⟨a1, a2, a3, a4, _, a6⟩ := after_flush_failure dp evs evs₂ ev parsed hparse hfull hfault
  refine ⟨a1, ?_, ?_, a2, a3, a4, a6⟩
  · have h1 := (onData_spec dp (run dp evs) ev).1
    have h2 := (runFrom_spec dp (onData dp (run dp evs) ev) evs₂).1
    rw [← run_append_cons] at h2
    exact (h1.step h2).db
  · rw [run_totalRows]
    simp
    omega

/-- Witness for the amended C6: the failing flush of `failingStream`. -/
theorem flush_failure_absorbed_witness :
    ∃ parsed, (parseAt sampleDates (List.replicate 999 sampleEvent) countyFaultEvent.row).2
        = .ok parsed ∧
      (run sampleDates (List.replicate 999 sampleEvent)).countyBatch.length + 1 = batchSize ∧
      countyFaultEvent.fault ≠ Fault.none ∧
      (run sampleDates (List.replicate 999 sampleEvent ++ [countyFaultEvent])).rowErrors
        = (run sampleDates (List.replicate 999 sampleEvent)).rowErrors
          ++ [(List.replicate 999 sampleEvent).length + 1] :=
  failingStream_prefix.2.2.elim fun parsed h =>
    ⟨parsed, h, failingStream_prefix.1, by decide,
      (flush_failure_absorbed sampleDates (List.replicate 999 sampleEvent) [] countyFaultEvent
        parsed h failingStream_prefix.1 (by decide)).1⟩


/-- A flush during which the store does not fail stores every link of the
buffer and every derived link. -/
theorem flushBatch_none_links {p : Pipeline} (hinv : p.Inv) {n : Nat}
    (hn : n = p.countyBatch.length) :
    (∀ l ∈ p.countyCitationsBatch ++ deriveLinksFrom (p.db.seqCounties + 1) 0 p.countyBatch,
      l ∈ (flushBatch n Fault.none p).1.db.county_citations) ∧
    (∀ l ∈ (flushBatch n Fault.none p).1.db.county_citations,
      l ∈ p.db.county_citations ∨
      l ∈ p.countyCitationsBatch ++ deriveLinksFrom (p.db.seqCounties + 1) 0 p.countyBatch) := by
  subst hn
  have h1 : insertCounties (decide (Fault.none = Fault.counties)) p.db p.countyBatch
      = .ok (p.db.addCounties p.countyBatch) := by
    simp only [insertCounties]
    exact foldlM_insertCounty_eq_ok hinv.batch_insertable
  have hmid := flush_mid_inv hinv
  obtain ⟨db2, h2, _⟩ :=
    @foldlM_insertCountyCitation_eq_ok (p.db.addCounties p.countyBatch) _ hmid.links_fk
  obtain ⟨_, _, _, _, _, _, i7, i8⟩ := foldlM_insertCountyCitation_ok_inv h2
  have h2' : insertCountyCitations (decide (Fault.none = Fault.links))
      (p.db.addCounties p.countyBatch)
      (p.countyCitationsBatch ++ deriveLinksFrom
        ((p.db.addCounties p.countyBatch).lastInsertRowid - (p.countyBatch.length : Int) + 1) 0
        p.countyBatch) = .ok db2 := by
    simp only [insertCountyCitations]
    exact h2
  have hfirst : deriveLinksFrom
      ((p.db.addCounties p.countyBatch).lastInsertRowid - (p.countyBatch.length : Int) + 1) 0
      p.countyBatch = deriveLinksFrom (p.db.seqCounties + 1) 0 p.countyBatch := by
    cases hb : p.countyBatch with
    | nil => rfl
    | cons c cs =>
      rw [← hb, Db.addCounties_lastInsertRowid _ _ (by rw [hb]; simp)]
      congr 1
      omega
  unfold flushBatch
  simp only [h1, h2']
  rw [hfirst] at i7 i8
  exact ⟨i8, i7⟩

/-- C7 as stated fails. When the store fails the link insert of the flush the
`end` handler makes for one sample record, the record's `counties` row is
left in the store although none of its two links is. -/
theorem link_failure_leaves_counties :
    (runToEnd sampleDates [sampleEvent] Fault.links).db.counties
      = [countyRow 1 sampleParsedDated] ∧
    (runToEnd sampleDates [sampleEvent] Fault.links).db.county_citations = [] ∧
    (runToEnd sampleDates [sampleEvent] Fault.none).db.county_citations
      = [⟨1, 1⟩, ⟨1, 2⟩] := by
  decide

/-- C7, amended. Each of the two transactions of a flush is atomic on its
own, not the pair. At every flush of either handler: if the county insert
fails, nothing at all changes; if the link insert fails, the batch's county
rows are in the store and the `county_citations` table is unchanged; if
neither fails, the batch's county rows are in the store together with every
link derived for them. -/
theorem flush_transactions (dp : DateParser) (q : Pipeline) (n : Nat)
    (h : FlushPoint dp q n) :
    flushBatch n Fault.counties q = (q, .error .storeFailure) ∧
    ((flushBatch n Fault.links q).2 = .error .storeFailure ∧
      (flushBatch n Fault.links q).1.db.counties
        = q.db.counties ++ assignIds q.db.seqCounties q.countyBatch ∧
      (flushBatch n Fault.links q).1.db.county_citations = q.db.county_citations) ∧
    ((flushBatch n Fault.none q).2 = .ok () ∧
      (flushBatch n Fault.none q).1.db.counties
        = q.db.counties ++ assignIds q.db.seqCounties q.countyBatch ∧
      (∀ l ∈ deriveLinksFrom (q.db.seqCounties + 1) 0 q.countyBatch,
        l ∈ (flushBatch n Fault.none q).1.db.county_citations)) := by
  obtain ⟨hinv, hn, _⟩ := h.inv
  refine ⟨flushBatch_counties_fault n q, ?_, ?_⟩
  · rw [flushBatch_links_fault hinv]
    exact ⟨rfl, rfl, rfl⟩
  · obtain ⟨g1, g2, _⟩ := flushBatch_none hinv hn
    exact ⟨g1, g2, fun l hl =>
      (flushBatch_none_links hinv hn).1 l (List.mem_append_right _ hl)⟩

/-- Witness for the amended C7: the `end` handler's flush after one record. -/
theorem flush_transactions_witness :
    FlushPoint sampleDates (run sampleDates [sampleEvent])
      (run sampleDates [sampleEvent]).countyBatch.length ∧
    flushBatch (run sampleDates [sampleEvent]).countyBatch.length Fault.counties
      (run sampleDates [sampleEvent])
      = (run sampleDates [sampleEvent], .error .storeFailure) :=
  ⟨FlushPoint.atEnd _ (by decide),
    (flush_transactions sampleDates _ _ (FlushPoint.atEnd [sampleEvent] (by decide))).1⟩


/-! ### C11: the case-sensitivity boundary -/

theorem eq_of_mem_sorted_ids {l : List StateRow}
    (h : l.Pairwise (fun a b => a.id < b.id)) {x y : StateRow} (hx : x ∈ l) (hy : y ∈ l)
    (hid : x.id = y.id) : x = y := by
  induction l with
  | nil => simp at hx
  | cons z zs ih =>
    rw [List.pairwise_cons] at h
    rcases List.mem_cons.1 hx with hxz | hx
    · rcases List.mem_cons.1 hy with hyz | hy
      · rw [hxz, hyz]
      · have := h.1 y hy
        rw [hxz] at hid
        omega
    · rcases List.mem_cons.1 hy with hyz | hy
      · have := h.1 x hx
        rw [hyz] at hid
        omega
      · exact ih h.2 hx hy

/-- The lookup of the county query: it answers with the id of a stored row
whose `TRIM(LOWER(name))` equals that of the requested name when there is such
a row, and with "not found" only when there is none. -/
theorem lookupState_spec {db : Db} (hw : db.WF) (decoded : String)
    (hne : String.mk (trim decoded.toList) ≠ "") :
    ((∃ r ∈ db.states, sqlKey r.name = sqlKey (String.mk (trim decoded.toList))) →
      ∃ r ∈ db.states, lookupState db decoded = .found r.id ∧
        sqlKey r.name = sqlKey (String.mk (trim decoded.toList))) ∧
    (lookupState db decoded = .notFound →
      ∀ r ∈ db.states, sqlKey r.name ≠ sqlKey (String.mk (trim decoded.toList))) ∧
    lookupState db decoded ≠ .badRequest := by
  unfold lookupState
  simp only [hne, if_false]
  cases hf : db.states.find?
      (fun r => decide (sqlKey r.name = sqlKey (String.mk (trim decoded.toList)))) with
  | none =>
    rw [List.find?_eq_none] at hf
    refine ⟨?_, ?_, by simp⟩
    · rintro ⟨r, hr, hk⟩
      exact absurd (by simpa using hk) (hf r hr)
    · intro _ r hr hk
      exact hf r hr (by simpa using hk)
  | some r =>
    have h1 := List.find?_some hf
    have h2 := List.mem_of_find?_eq_some hf
    simp only [decide_eq_true_eq] at h1
    have hpos := hw.state_ids_pos r h2
    have hr0 : r.id ≠ 0 := by omega
    simp only [hr0, if_false]
    exact ⟨fun _ => ⟨r, h2, rfl, h1⟩, (fun h => by cases h), (fun h => by cases h)⟩

/-- C11 as stated fails. The jurisdiction names "Texas" followed by a tab and
"Texas" differ only by surrounding white space (trimmed and lower-cased they
are the same text), yet the lookup of the county query does not find the
stored name when "Texas" is requested: SQLite's `TRIM` removes spaces only. -/
theorem lookup_misses_tab :
    (run sampleDates [texasTabEvent]).db.states = [⟨1, "Texas\t"⟩] ∧
    toLowerCase (trim "Texas\t".toList) = toLowerCase (trim "Texas".toList) ∧
    lookupState (run sampleDates [texasTabEvent]).db "Texas" = .notFound := by
  decide

/-- C11, amended. The write-side resolver treats two jurisdiction names that
are different texts as distinct keys, also when they differ only by the case
of ASCII letters or by surrounding spaces (as "Texas" and "texas " do): the
two `parseRow` calls return different ids and the store holds one row for
each name. The lookup of the county query treats such names as equal: it
matches a stored name whenever its `TRIM(LOWER(name))` (ASCII letters
lower-cased, spaces trimmed) equals that of the requested name, itself first
trimmed of white space; so whichever of the two spellings is requested, the
lookup answers with the id of a stored row having that same normal form. -/
theorem case_sensitivity_boundary (dp : DateParser) (evs₁ evs₂ : List Event) (e₁ : Event)
    (row₂ : Row) (a b : ParsedRow)
    (h₁ : (parseAt dp evs₁ e₁.row).2 = .ok a)
    (h₂ : (parseAt dp (evs₁ ++ e₁ :: evs₂) row₂).2 = .ok b)
    (hne : e₁.row.State_Tribe_Territory ≠ row₂.State_Tribe_Territory)
    (hkey : sqlKey e₁.row.State_Tribe_Territory = sqlKey row₂.State_Tribe_Territory) :
    a.state_id ≠ b.state_id ∧
    ({ id := a.state_id, name := e₁.row.State_Tribe_Territory } : StateRow)
      ∈ (parseAt dp (evs₁ ++ e₁ :: evs₂) row₂).1.db.states ∧
    ({ id := b.state_id, name := row₂.State_Tribe_Territory } : StateRow)
      ∈ (parseAt dp (evs₁ ++ e₁ :: evs₂) row₂).1.db.states ∧
    (∀ decoded : String, String.mk (trim decoded.toList) ≠ "" →
      (sqlKey (String.mk (trim decoded.toList)) = sqlKey e₁.row.State_Tribe_Territory ∨
        sqlKey (String.mk (trim decoded.toList)) = sqlKey row₂.State_Tribe_Territory) →
      ∃ r ∈ (parseAt dp (evs₁ ++ e₁ :: evs₂) row₂).1.db.states,
        lookupState (parseAt dp (evs₁ ++ e₁ :: evs₂) row₂).1.db decoded = .found r.id ∧
        sqlKey r.name = sqlKey e₁.row.State_Tribe_Territory ∧
        sqlKey r.name = sqlKey row₂.State_Tribe_Territory) := by
  have hinv := parseAt_inv dp (evs₁ ++ e₁ :: evs₂) row₂
  have hle := parseAt_le dp evs₁ evs₂ e₁ row₂
  have ra := hle.db.states.subset (parseAt_rows h₁).1.1
  have rb := (parseAt_rows h₂).1.1
  refine ⟨?_, ra, rb, ?_⟩
  · intro hid
    have := eq_of_mem_sorted_ids hinv.db_wf.state_ids_sorted ra rb hid
    exact hne (congrArg StateRow.name this)
  · intro decoded hd hk
    have hex : ∃ r ∈ (parseAt dp (evs₁ ++ e₁ :: evs₂) row₂).1.db.states,
        sqlKey r.name = sqlKey (String.mk (trim decoded.toList)) := by
      rcases hk with hk | hk
      · exact ⟨_, ra, hk.symm⟩
      · exact ⟨_, rb, hk.symm⟩
    obtain ⟨r, hr, hf, hrk⟩ := (lookupState_spec hinv.db_wf decoded hd).1 hex
    refine ⟨r, hr, hf, ?_, ?_⟩
    · rcases hk with hk | hk
      · rw [hrk, hk]
      · rw [hrk, hk, hkey]
    · rcases hk with hk | hk
      · rw [hrk, hk, hkey]
      · rw [hrk, hk]

/-- Witness for the amended C11: "Texas", then "texas ". -/
theorem case_sensitivity_boundary_witness :
    (parseAt sampleDates [] texasEvent.row).2 = .ok texasParsed ∧
    (parseAt sampleDates ([] ++ texasEvent :: []) texasLowerEvent.row).2
      = .ok texasLowerParsed ∧
    texasEvent.row.State_Tribe_Territory ≠ texasLowerEvent.row.State_Tribe_Territory ∧
    sqlKey texasEvent.row.State_Tribe_Territory
      = sqlKey texasLowerEvent.row.State_Tribe_Territory ∧
    texasParsed.state_id ≠ texasLowerParsed.state_id :=
  ⟨rfl, rfl, by decide, by decide,
    (case_sensitivity_boundary sampleDates [] [] texasEvent texasLowerEvent.row texasParsed
      texasLowerParsed rfl rfl (by decide) (by decide)).1⟩


/-! ### C13: the end-to-end scenario -/

theorem parseRow_congr {dp₁ dp₂ : DateParser} (p : Pipeline) (row : Row)
    (h : dp₁ row.Date = dp₂ row.Date) : parseRow dp₁ p row = parseRow dp₂ p row := by
  simp only [parseRow, unixSeconds, h]

theorem onData_congr {dp₁ dp₂ : DateParser} (p : Pipeline) (ev : Event)
    (h : dp₁ ev.row.Date = dp₂ ev.row.Date) : onData dp₁ p ev = onData dp₂ p ev := by
  simp only [onData, parseRow_congr _ _ h]

/-- A run depends on the date reader only through the dates of its records. -/
theorem runFrom_congr {dp₁ dp₂ : DateParser} (evs : List Event) (p : Pipeline)
    (h : ∀ ev ∈ evs, dp₁ ev.row.Date = dp₂ ev.row.Date) :
    runFrom dp₁ p evs = runFrom dp₂ p evs := by
  induction evs generalizing p with
  | nil => rfl
  | cons ev evs ih =>
    show runFrom dp₁ (onData dp₁ p ev) evs = runFrom dp₂ (onData dp₂ p ev) evs
    rw [onData_congr p ev (h ev (by simp)), ih _ (fun e he => h e (by simp [he]))]

/-- C13. End-to-end scenario. On an empty store, for the single record
{"Ohio", "Franklin", "39049", "12", "Yes - Public Mask Mandate",
"[Exec Order 2020-01, Exec Order 2020-02]", "2020-04-01"}, with a runtime that
reads the date-only text as midnight UTC of that day as ECMAScript prescribes,
the run ends with exactly one `counties` row, with `face_masks_required` 1,
`fips_code` 39049 and date 1585699200, exactly the two `citations` rows
"Exec Order 2020-01" and "Exec Order 2020-02", and exactly two
`county_citations` rows joining that county row to those two citations. -/
theorem end_to_end_scenario (dp : DateParser)
    (hdate : dp "2020-04-01" = some (utcMidnightMs 2020 4 1)) :
    (runToEnd dp [sampleEvent] Fault.none).db.counties
      = [{ id := 1, state_id := 1, county_name := "Franklin", fips_code := some 39049,
           date := some 1585699200, masks_order_id := 1, face_masks_required := 1 }] ∧
    (runToEnd dp [sampleEvent] Fault.none).db.states = [⟨1, "Ohio"⟩] ∧
    (runToEnd dp [sampleEvent] Fault.none).db.masks_orders = [⟨1, some 12⟩] ∧
    (runToEnd dp [sampleEvent] Fault.none).db.citations
      = [⟨1, "Exec Order 2020-01"⟩, ⟨2, "Exec Order 2020-02"⟩] ∧
    (runToEnd dp [sampleEvent] Fault.none).db.county_citations = [⟨1, 1⟩, ⟨1, 2⟩] ∧
    (runToEnd dp [sampleEvent] Fault.none).rowErrors = [] ∧
    (runToEnd dp [sampleEvent] Fault.none).finalError = false := by
  have h : runToEnd dp [sampleEvent] Fault.none = runToEnd sampleDates [sampleEvent] Fault.none := by
    unfold runToEnd run
    rw [runFrom_congr [sampleEvent] Pipeline.init]
    intro ev hev
    simp only [List.mem_singleton] at hev
    subst hev
    rw [show sampleEvent.row.Date = "2020-04-01" from rfl, hdate]
    decide
  rw [h]
  decide

/-- Witness for C13: the date reader of the worked examples. -/
theorem end_to_end_scenario_witness :
    sampleDates "2020-04-01" = some (utcMidnightMs 2020 4 1) ∧
    (runToEnd sampleDates [sampleEvent] Fault.none).db.county_citations = [⟨1, 1⟩, ⟨1, 2⟩] :=
  ⟨by decide, (end_to_end_scenario sampleDates (by decide)).2.2.2.2.1⟩


/-! ### C15: the batch threshold -/

/-- One `data` event without store failure, from a state with an empty link
buffer: what happens to the buffers and the two tables, by cases on the parse
result and on whether the buffer reaches the threshold. -/
theorem onData_none_cases (dp : DateParser) {p : Pipeline} (hinv : p.Inv) {ev : Event}
    (hf : ev.fault = Fault.none) (hlinks : p.countyCitationsBatch = []) :
    (onData dp p ev).countyCitationsBatch = [] ∧
    (∀ e, (parseRow dp { p with totalRows := p.totalRows + 1 } ev.row).2 = .error e →
      (onData dp p ev).countyBatch = p.countyBatch ∧
      (onData dp p ev).db.counties = p.db.counties ∧
      (onData dp p ev).db.county_citations = p.db.county_citations) ∧
    (∀ parsed, (parseRow dp { p with totalRows := p.totalRows + 1 } ev.row).2 = .ok parsed →
      (p.countyBatch.length + 1 = batchSize →
        (onData dp p ev).countyBatch = [] ∧
        (onData dp p ev).db.counties
          = p.db.counties ++ assignIds p.db.seqCounties (p.countyBatch ++ [parsed]) ∧
        (∀ l ∈ deriveLinksFrom (p.db.seqCounties + 1) 0 (p.countyBatch ++ [parsed]),
          l ∈ (onData dp p ev).db.county_citations)) ∧
      (p.countyBatch.length + 1 ≠ batchSize →
        (onData dp p ev).countyBatch = p.countyBatch ++ [parsed] ∧
        (onData dp p ev).db.counties = p.db.counties ∧
        (onData dp p ev).db.county_citations = p.db.county_citations)) := by
  obtain ⟨_, a2, a3, a4, a5⟩ := parseRow_spec dp { p with totalRows := p.totalRows + 1 } ev.row
  have hinv0 : ({ p with totalRows := p.totalRows + 1 } : Pipeline).Inv :=
    hinv.congr rfl rfl rfl rfl rfl rfl
  rcases hpr : parseRow dp { p with totalRows := p.totalRows + 1 } ev.row with ⟨p1, r⟩
  rw [hpr] at a2 a3 a4 a5
  simp only at a2 a3 a4 a5
  have hinv1 := a3 hinv0
  cases r with
  | error e =>
    rw [onData_parse_error hpr]
    exact ⟨a2.countyCitationsBatch.trans hlinks,
      fun _ _ => ⟨a2.countyBatch, a2.counties, a2.county_citations⟩,
      fun q hq => by cases hq⟩
  | ok parsed =>
    rw [onData_parse_ok hpr]
    have hadm : p1.db.admits parsed := by
      cases hc : parseInt ev.row.Masks_Order_Code.toList with
      | none =>
        have := a4 hc hinv0
        cases this
      | some c =>
        obtain ⟨q, hq, b1, b2, b3, _⟩ := a5 c hc
        cases hq
        exact admits_of_parse hinv1 b1 b2 b3
    have hinv2 : ({ p1 with countyBatch := p1.countyBatch ++ [parsed] } : Pipeline).Inv := by
      refine ⟨hinv1.db_wf, hinv1.stateCache_sound, hinv1.masksOrderCache_sound,
        hinv1.citationCache_sound, ?_, hinv1.links_fk⟩
      intro x hx
      rcases List.mem_append.1 hx with hx | hx
      · exact hinv1.batch_fk x hx
      · simp only [List.mem_singleton] at hx
        subst hx
        exact hadm
    have hlen : (p1.countyBatch ++ [parsed]).length = p.countyBatch.length + 1 := by
      rw [a2.countyBatch, List.length_append, List.length_singleton]
    by_cases hfull : (p1.countyBatch ++ [parsed]).length = batchSize
    · rw [if_pos hfull, hf]
      obtain ⟨g1, g2, _⟩ := flushBatch_none hinv2 (n := batchSize) hfull.symm
      have g4 := (flushBatch_none_links hinv2 (n := batchSize) hfull.symm).1
      rcases hfl : flushBatch batchSize Fault.none
        { p1 with countyBatch := p1.countyBatch ++ [parsed] } with ⟨p3, r3⟩
      rw [hfl] at g1 g2 g4
      simp only at g1 g2 g4
      subst g1
      refine ⟨rfl, (fun e he => by cases he), ?_⟩
      intro q hq
      cases hq
      refine ⟨fun _ => ⟨rfl, ?_, ?_⟩, fun hne => absurd (hlen ▸ hfull) hne⟩
      · show p3.db.counties = _
        rw [g2, a2.counties, a2.seqCounties, a2.countyBatch]
      · intro l hl
        apply g4 l
        rw [a2.seqCounties, a2.countyBatch]
        exact List.mem_append_right _ hl
    · rw [if_neg hfull]
      refine ⟨a2.countyCitationsBatch.trans hlinks, (fun e he => by cases he), ?_⟩
      intro q hq
      cases hq
      refine ⟨fun h => absurd (hlen.trans h) hfull, fun _ => ⟨?_, a2.counties,
        a2.county_citations⟩⟩
      show p1.countyBatch ++ [parsed] = _
      rw [a2.countyBatch]

/-- During a run without store failure the link buffer is empty after every
record. -/
theorem linkBuffer_none (dp : DateParser) (evs : List Event)
    (hff : ∀ ev ∈ evs, ev.fault = Fault.none) (p : Pipeline) (hinv : p.Inv)
    (hlinks : p.countyCitationsBatch = []) : (runFrom dp p evs).countyCitationsBatch = [] := by
  induction evs generalizing p with
  | nil => exact hlinks
  | cons ev evs ih =>
    exact ih (fun e he => hff e (by simp [he])) (onData dp p ev)
      ((onData_spec dp p ev).2.1 hinv) (onData_none_cases dp hinv (hff ev (by simp)) hlinks).1

/-- C15. Batch threshold. In a run in which no store write fails, for every
record processed: the threshold is 1000; a record that does not parse changes
neither the buffer nor the two tables; a parsed record is appended to the
buffer, and a flush happens exactly when that brings the buffer to the
threshold: then the buffered records are written to `counties` in the order
they were appended, with all their links, and both buffers are emptied;
otherwise nothing is written. So after every processed record the pending
buffer holds fewer than 1000 records and the link buffer is empty. -/
theorem batch_threshold (dp : DateParser) (evs : List Event) (ev : Event)
    (hff : ∀ e ∈ evs ++ [ev], e.fault = Fault.none) :
    batchSize = 1000 ∧
    (run dp (evs ++ [ev])).countyBatch.length < batchSize ∧
    (run dp (evs ++ [ev])).countyCitationsBatch = [] ∧
    (∀ e, (parseAt dp evs ev.row).2 = .error e →
      (run dp (evs ++ [ev])).countyBatch = (run dp evs).countyBatch ∧
      (run dp (evs ++ [ev])).db.counties = (run dp evs).db.counties ∧
      (run dp (evs ++ [ev])).db.county_citations = (run dp evs).db.county_citations) ∧
    (∀ parsed, (parseAt dp evs ev.row).2 = .ok parsed →
      ((run dp evs).countyBatch.length + 1 = batchSize →
        (run dp (evs ++ [ev])).countyBatch = [] ∧
        (run dp (evs ++ [ev])).db.counties
          = (run dp evs).db.counties ++ assignIds (run dp evs).db.seqCounties
              ((run dp evs).countyBatch ++ [parsed]) ∧
        (∀ l ∈ deriveLinksFrom ((run dp evs).db.seqCounties + 1) 0
            ((run dp evs).countyBatch ++ [parsed]),
          l ∈ (run dp (evs ++ [ev])).db.county_citations)) ∧
      ((run dp evs).countyBatch.length + 1 ≠ batchSize →
        (run dp (evs ++ [ev])).countyBatch = (run dp evs).countyBatch ++ [parsed] ∧
        (run dp (evs ++ [ev])).db.counties = (run dp evs).db.counties ∧
        (run dp (evs ++ [ev])).db.county_citations = (run dp evs).db.county_citations)) := by
  have hff1 : ∀ e ∈ evs, e.fault = Fault.none := fun e he => hff e (by simp [he])
  have hlinks : (run dp evs).countyCitationsBatch = [] :=
    linkBuffer_none dp evs hff1 Pipeline.init Pipeline.Inv.init rfl
  have hlen : (run dp (evs ++ [ev])).countyBatch.length < batchSize := by
    have := batch_length_none dp (evs ++ [ev]) hff Pipeline.init Pipeline.Inv.init (by decide)
    rw [run, this]
    exact Nat.mod_lt _ (by decide)
  obtain ⟨c1, c2, c3⟩ := onData_none_cases dp (run_inv dp evs) (hff ev (by simp)) hlinks
  rw [run_snoc]
  rw [run_snoc] at hlen
  exact ⟨rfl, hlen, c1, c2, c3⟩

/-- Witness for C15: the first record of a run. -/
theorem batch_threshold_witness :
    (∀ e ∈ [] ++ [sampleEvent], e.fault = Fault.none) ∧
    (run sampleDates ([] ++ [sampleEvent])).countyBatch.length < batchSize :=
  ⟨by decide, (batch_threshold sampleDates [] sampleEvent (by decide)).2.1⟩


/-! ### C14: a record on which `parseRow` throws -/

/-- The objects the `parseRow` calls of a run return belong to the records
whose policy code reads as a number, in order, and each names the reference
rows of its record's jurisdiction name and policy code in every later store. -/
theorem parsedRecords_resolved (dp : DateParser) (evs : List Event) (p : Pipeline)
    (hinv : p.Inv) (D : Db) (hD : (runFrom dp p evs).db.Extends D) :
    List.Forall₂ (fun ev c => D.rowOf dp ev.row (countyRow 0 c))
      (evs.filter codeIsNumber) (parsedRecords dp p evs) := by
  induction evs generalizing p with
  | nil => exact List.Forall₂.nil
  | cons ev evs ih =>
    have hinv0 : ({ p with totalRows := p.totalRows + 1 } : Pipeline).Inv :=
      hinv.congr rfl rfl rfl rfl rfl rfl
    have hD' : (runFrom dp (onData dp p ev) evs).db.Extends D := hD
    have ih' := ih (onData dp p ev) ((onData_spec dp p ev).2.1 hinv) hD'
    obtain ⟨_, _, a3, a4, a5⟩ := parseRow_spec dp { p with totalRows := p.totalRows + 1 } ev.row
    have hle := (parseRow_le_onData dp p ev).db.andThen
      ((runFrom_spec dp (onData dp p ev) evs).1.db.andThen hD')
    simp only [parsedRecords]
    cases hc : parseInt ev.row.Masks_Order_Code.toList with
    | none =>
      rw [a4 hc hinv0]
      simp only
      rw [List.filter_cons_of_neg (by rw [codeIsNumber, hc]; simp)]
      exact ih'
    | some c =>
      obtain ⟨q, hq, b1, b2, _, f1, f2, f3, f4⟩ := a5 c hc
      rw [hq]
      simp only
      rw [List.filter_cons_of_pos (by rw [codeIsNumber, hc]; rfl)]
      refine List.Forall₂.cons ⟨?_, ?_, ?_⟩ ih'
      · simp only [CountyRow.fields, countyRow, rowFields, f1, f2, f3, f4]
      · exact hle.states.subset ((a3 hinv0).stateCache_sound _ _ b1)
      · rw [hc]
        exact hle.masks_orders.subset ((a3 hinv0).masksOrderCache_sound _ _ b2).1

theorem forall₂_assignIds {α : Type} {R : α → CountyRow → Prop} {l : List α}
    {cs : List ParsedRow} (hR : ∀ a c i j, R a (countyRow i c) → R a (countyRow j c))
    (h : List.Forall₂ (fun a c => R a (countyRow 0 c)) l cs) (seq : Int) :
    List.Forall₂ R l (assignIds seq cs) := by
  induction h generalizing seq with
  | nil => exact List.Forall₂.nil
  | cons hd _ ih => exact List.Forall₂.cons (hR _ _ _ _ hd) (ih (seq + 1))

theorem Db.rowOf_countyRow (db : Db) (dp : DateParser) (row : Row) (c : ParsedRow) (i j : Int)
    (h : db.rowOf dp row (countyRow i c)) : db.rowOf dp row (countyRow j c) := h

/-- After a whole run in which no link insert fails and the final flush
succeeds, the `counties` table holds, in input order, the rows of the records
whose policy code reads as a number. -/
theorem load_resolved (dp : DateParser) (evs : List Event)
    (hff : ∀ ev ∈ evs, ev.fault ≠ Fault.links) :
    List.Forall₂ (fun ev r => (runToEnd dp evs Fault.none).db.rowOf dp ev.row r)
      (evs.filter codeIsNumber) (runToEnd dp evs Fault.none).db.counties := by
  rw [load_table dp evs hff]
  apply forall₂_assignIds (fun ev c i j h => Db.rowOf_countyRow _ dp ev.row c i j h)
  exact parsedRecords_resolved dp evs Pipeline.init Pipeline.Inv.init _
    (onEnd_spec Fault.none (run dp evs)).1.db

/-- A record on which `parseRow` throws does not have a policy code that reads
as a number. -/
theorem not_number_of_throw {dp : DateParser} {evs : List Event} {ev : Event} {e : JsError}
    (h : (parseAt dp evs ev.row).2 = .error e) : codeIsNumber ev = false := by
  cases hc : parseInt ev.row.Masks_Order_Code.toList with
  | none => rw [codeIsNumber, hc]; rfl
  | some c =>
    obtain ⟨a, ha, _⟩ := parseAt_of_code dp evs ev.row c hc
    rw [ha] at h
    cases h

/-- The `data` event of a record on which `parseRow` throws. -/
theorem throw_step (dp : DateParser) (evs : List Event) (ev : Event) (e : JsError)
    (h : (parseAt dp evs ev.row).2 = .error e) :
    (run dp (evs ++ [ev])).countyBatch = (run dp evs).countyBatch ∧
    (run dp (evs ++ [ev])).countyCitationsBatch = (run dp evs).countyCitationsBatch ∧
    (run dp (evs ++ [ev])).db.counties = (run dp evs).db.counties ∧
    (run dp (evs ++ [ev])).db.county_citations = (run dp evs).db.county_citations ∧
    (run dp (evs ++ [ev])).rowErrors = (run dp evs).rowErrors ++ [evs.length + 1] := by
  have hsl := (parseRow_spec dp { run dp evs with totalRows := (run dp evs).totalRows + 1 }
    ev.row).2.1
  have hp : parseRow dp { run dp evs with totalRows := (run dp evs).totalRows + 1 } ev.row
      = ((parseAt dp evs ev.row).1, .error e) := by
    rw [← h]
    rfl
  rw [run_snoc, onData_parse_error hp]
  refine ⟨hsl.countyBatch, hsl.countyCitationsBatch, hsl.counties, hsl.county_citations, ?_⟩
  show (parseAt dp evs ev.row).1.rowErrors ++ [(parseAt dp evs ev.row).1.totalRows] = _
  have h1 : (parseAt dp evs ev.row).1.rowErrors = (run dp evs).rowErrors := hsl.rowErrors
  have h2 : (parseAt dp evs ev.row).1.totalRows = (run dp evs).totalRows + 1 := hsl.totalRows
  rw [h1, h2, run_totalRows]


/-- C14 as stated fails. When the record with the non-numeric policy code
(jurisdiction "Ohio") precedes the "Texas" record, `parseRow` throws on it,
yet the "Texas" record is not processed as it would have been without it: the
failing record has left a `states` row and a `NULL` `masks_orders` row behind,
so the "Texas" record gets state id 2 and policy-code id 2 instead of 1 and 1,
and its `counties` row differs. -/
theorem later_record_differs :
    (parseAt sampleDates [] badCodeEvent.row).2 = .error .typeError ∧
    (parseAt sampleDates [badCodeEvent] texasEvent.row).2 = .ok texasAfterBadParsed ∧
    (parseAt sampleDates [] texasEvent.row).2 = .ok texasParsed ∧
    (runToEnd sampleDates [badCodeEvent, texasEvent] Fault.none).db.counties
      = [countyRow 1 texasAfterBadParsed] ∧
    (runToEnd sampleDates [texasEvent] Fault.none).db.counties = [countyRow 1 texasParsed] ∧
    countyRow 1 texasAfterBadParsed ≠ countyRow 1 texasParsed ∧
    (runToEnd sampleDates [badCodeEvent, texasEvent] Fault.none).db.states
      = [⟨1, "Ohio"⟩, ⟨2, "Texas"⟩] ∧
    (runToEnd sampleDates [badCodeEvent, texasEvent] Fault.none).db.masks_orders
      = [⟨1, none⟩, ⟨2, some 12⟩] :=
  ⟨rfl, rfl, rfl, by decide, by decide, by decide, by decide, by decide⟩

/-- C14, amended. For every record on which `parseRow` throws, the driver logs
the record's ordinal, discards the record and continues: the pending batch,
the link buffer and the `counties` and `county_citations` tables are the same
after the record as before it, and every later record is still processed. In
a run without store failure the `counties` table then ends with the same rows
as if the failing record had been absent, up to surrogate ids: the same
records in the same order, each row carrying its record's converted fields
and naming the `states` row of its jurisdiction name and the `masks_orders`
row of its policy code. (The reference tables and the ids of later reference
rows may differ.) -/
theorem record_failure_isolated (dp : DateParser) (evs₁ evs₂ : List Event) (ev : Event)
    (e : JsError) (hthrow : (parseAt dp evs₁ ev.row).2 = .error e) :
    (run dp (evs₁ ++ [ev])).countyBatch = (run dp evs₁).countyBatch ∧
    (run dp (evs₁ ++ [ev])).countyCitationsBatch = (run dp evs₁).countyCitationsBatch ∧
    (run dp (evs₁ ++ [ev])).db.counties = (run dp evs₁).db.counties ∧
    (run dp (evs₁ ++ [ev])).db.county_citations = (run dp evs₁).db.county_citations ∧
    (run dp (evs₁ ++ [ev])).rowErrors = (run dp evs₁).rowErrors ++ [evs₁.length + 1] ∧
    (run dp (evs₁ ++ ev :: evs₂)).totalRows = evs₁.length + 1 + evs₂.length ∧
    ((∀ x ∈ evs₁ ++ ev :: evs₂, x.fault = Fault.none) →
      List.Forall₂
        (fun x r => (runToEnd dp (evs₁ ++ ev :: evs₂) Fault.none).db.rowOf dp x.row r)
        ((evs₁ ++ evs₂).filter codeIsNumber)
        (runToEnd dp (evs₁ ++ ev :: evs₂) Fault.none).db.counties ∧
      List.Forall₂
        (fun x r => (runToEnd dp (evs₁ ++ evs₂) Fault.none).db.rowOf dp x.row r)
        ((evs₁ ++ evs₂).filter codeIsNumber)
        (runToEnd dp (evs₁ ++ evs₂) Fault.none).db.counties ∧
      (runToEnd dp (evs₁ ++ ev :: evs₂) Fault.none).db.counties.map CountyRow.fields
        = (runToEnd dp (evs₁ ++ evs₂) Fault.none).db.counties.map CountyRow.fields) := by
  obtain ⟨t1, t2, t3, t4, t5⟩ := throw_step dp evs₁ ev e hthrow
  refine ⟨t1, t2, t3, t4, t5, ?_, ?_⟩
  · rw [run_totalRows]
    simp only [List.length_append, List.length_cons]
    omega
  · intro hff
    have hnum := not_number_of_throw hthrow
    have hfilter : (evs₁ ++ ev :: evs₂).filter codeIsNumber
        = (evs₁ ++ evs₂).filter codeIsNumber := by
      rw [List.filter_append, List.filter_append,
        List.filter_cons_of_neg (by rw [hnum]; simp)]
    have hff' : ∀ x ∈ evs₁ ++ evs₂, x.fault = Fault.none := by
      intro x hx
      apply hff x
      rcases List.mem_append.1 hx with hx | hx
      · exact List.mem_append_left _ hx
      · exact List.mem_append_right _ (List.mem_cons_of_mem _ hx)
    have r1 := load_resolved dp _ (noLinkFault_of_none hff)
    have r2 := load_resolved dp _ (noLinkFault_of_none hff')
    rw [hfilter] at r1
    refine ⟨r1, r2, ?_⟩
    rw [load_fields dp _ (noLinkFault_of_none hff), load_fields dp _ (noLinkFault_of_none hff'),
      hfilter]

/-- Witness for the amended C14: the record with the non-numeric policy code
as the first record of a run. -/
theorem record_failure_isolated_witness :
    (parseAt sampleDates [] badCodeEvent.row).2 = .error .typeError ∧
    (run sampleDates ([] ++ [badCodeEvent])).db.counties = (run sampleDates []).db.counties :=
  ⟨rfl, (record_failure_isolated sampleDates [] [texasEvent] badCodeEvent .typeError rfl).2.2.1⟩


/-! ### C12: the summary average -/

theorem aggOf_concat {α β : Type} (init : α → β) (step : β → α → β) (l : List α) (a : α) :
    aggOf init step (l ++ [a]) =
      match aggOf init step l with
      | none => some (init a)
      | some v => some (step v a) := by
  cases l with
  | nil => rfl
  | cons b bs => simp [aggOf, List.foldl_append]

theorem aggOf_eq_none {α β : Type} (init : α → β) (step : β → α → β) (l : List α) :
    aggOf init step l = none ↔ l = [] := by
  cases l <;> simp [aggOf]

theorem groupAggregate_concat {α κ β : Type} [DecidableEq κ] (key : α → κ) (init : α → β)
    (step : β → α → β) (l : List α) (a : α) :
    groupAggregate key init step (l ++ [a])
      = groupStep key init step (groupAggregate key init step l) a := by
  simp [groupAggregate, List.foldl_append]

/-- What `GROUP BY` with an aggregate returns: one group per key that occurs,
each carrying the aggregate of the rows with its key. -/
theorem groupAggregate_spec {α κ β : Type} [DecidableEq κ] (key : α → κ) (init : α → β)
    (step : β → α → β) (l : List α) :
    ((groupAggregate key init step l).map Prod.fst).Nodup ∧
    ∀ k v, (k, v) ∈ groupAggregate key init step l ↔
      aggOf init step (l.filter (fun a => decide (key a = k))) = some v := by
  induction l using List.reverseRecOn with
  | nil => simp [groupAggregate, aggOf]
  | append_singleton l a ih =>
    obtain ⟨hn, hm⟩ := ih
    rw [groupAggregate_concat]
    have hfilter : ∀ k, (l ++ [a]).filter (fun x => decide (key x = k))
        = l.filter (fun x => decide (key x = k)) ++ (if key a = k then [a] else []) := by
      intro k
      rw [List.filter_append]
      congr 1
      by_cases hk : key a = k <;> simp [hk]
    unfold groupStep
    split
    · rename_i hany
      simp only [List.any_eq_true, decide_eq_true_eq] at hany
      obtain ⟨g, hg, hgk⟩ := hany
      constructor
      · have : (List.map (fun g => if g.1 = key a then (g.1, step g.2 a) else g)
            (groupAggregate key init step l)).map Prod.fst
            = (groupAggregate key init step l).map Prod.fst := by
          rw [List.map_map]
          apply List.map_congr_left
          intro x _
          simp only [Function.comp]
          split <;> rfl
        rw [this]
        exact hn
      · intro k v
        rw [hfilter, List.mem_map]
        by_cases hk : key a = k
        · subst hk
          have hv0 := (hm (key a) g.2).1 (by rw [← hgk]; exact hg)
          rw [if_pos rfl, aggOf_concat, hv0]
          simp only [Option.some.injEq]
          constructor
          · rintro ⟨x, hx, hfx⟩
            by_cases hxk : x.1 = key a
            · rw [if_pos hxk] at hfx
              have e2 : step x.2 a = v := congrArg Prod.snd hfx
              have hx' := (hm (key a) x.2).1 (by rw [← hxk]; exact hx)
              rw [hv0] at hx'
              rw [← e2, ← Option.some.inj hx']
            · rw [if_neg hxk] at hfx
              exact absurd (by rw [hfx]) hxk
          · intro hv
            exact ⟨g, hg, by rw [if_pos hgk, hgk, hv]⟩
        · rw [if_neg hk, List.append_nil, ← hm]
          constructor
          · rintro ⟨x, hx, hfx⟩
            by_cases hxk : x.1 = key a
            · rw [if_pos hxk] at hfx
              have : x.1 = k := congrArg Prod.fst hfx
              exact absurd (hxk.symm.trans this) hk
            · rw [if_neg hxk] at hfx
              rw [← hfx]
              exact hx
          · intro hx
            refine ⟨(k, v), hx, ?_⟩
            rw [if_neg]
            intro h
            exact hk h.symm
    · rename_i hany
      simp only [List.any_eq_true, decide_eq_true_eq, not_exists, not_and] at hany
      constructor
      · rw [List.map_append, List.map_singleton]
        apply List.Nodup.append hn (List.nodup_singleton _)
        intro x hx hx'
        simp only [List.mem_singleton] at hx'
        subst hx'
        rw [List.mem_map] at hx
        obtain ⟨y, hy, hyx⟩ := hx
        exact hany y hy hyx
      · intro k v
        rw [hfilter, List.mem_append, List.mem_singleton]
        by_cases hk : key a = k
        · subst hk
          have hnone : aggOf init step (l.filter (fun x => decide (key x = key a))) = none := by
            cases hagg : aggOf init step (l.filter (fun x => decide (key x = key a))) with
            | none => rfl
            | some w => exact absurd rfl (hany (key a, w) ((hm (key a) w).2 hagg))
          rw [if_pos rfl, aggOf_concat, hnone]
          simp only [Option.some.injEq]
          constructor
          · rintro (h | h)
            · exact absurd rfl (hany _ h)
            · exact (congrArg Prod.snd h).symm
          · intro h
            exact Or.inr (by rw [h])
        · rw [if_neg hk, List.append_nil, ← hm]
          constructor
          · rintro (h | h)
            · exact h
            · exact absurd (congrArg Prod.fst h).symm hk
          · exact Or.inl


theorem foldl_count {α : Type} (l : List α) (c : Nat) :
    l.foldl (fun (n : Nat) (_ : α) => n + 1) c = c + l.length := by
  induction l generalizing c with
  | nil => rfl
  | cons a as ih => rw [List.foldl_cons, ih, List.length_cons]; omega

theorem aggOf_count {α : Type} (l : List α) (v : Nat) :
    aggOf (fun _ : α => 1) (fun (n : Nat) (_ : α) => n + 1) l = some v ↔
      0 < l.length ∧ v = l.length := by
  cases l with
  | nil => simp [aggOf]
  | cons a as =>
    simp only [aggOf, foldl_count, Option.some.injEq, List.length_cons]
    constructor
    · intro h; exact ⟨by omega, by omega⟩
    · intro h; omega

theorem foldl_sums {κ : Type} (l : List (κ × Nat)) (acc : Nat × Nat) :
    l.foldl (fun (acc : Nat × Nat) (g : κ × Nat) => (acc.1 + g.2, acc.2 + 1)) acc
      = (acc.1 + (l.map Prod.snd).sum, acc.2 + l.length) := by
  induction l generalizing acc with
  | nil => rfl
  | cons a as ih =>
    rw [List.foldl_cons, ih, List.map_cons, List.sum_cons, List.length_cons]
    simp only [Prod.mk.injEq]
    constructor <;> omega

theorem aggOf_sums {κ : Type} (l : List (κ × Nat)) (v : Nat × Nat) :
    aggOf (fun g : κ × Nat => (g.2, 1))
        (fun (acc : Nat × Nat) (g : κ × Nat) => (acc.1 + g.2, acc.2 + 1)) l = some v ↔
      0 < l.length ∧ v = ((l.map Prod.snd).sum, l.length) := by
  cases l with
  | nil => simp [aggOf]
  | cons a as =>
    simp only [aggOf, foldl_sums, Option.some.injEq, List.length_cons, List.map_cons,
      List.sum_cons]
    constructor
    · intro h
      refine ⟨by omega, ?_⟩
      rw [← h, Nat.add_comm 1]
    · intro h
      rw [h.2, Nat.add_comm 1]

/-- The inner query has a group for a jurisdiction and county name exactly
when some row of theirs has the flag, and the group carries the number of such
rows. -/
theorem mem_countyMandateCounts (db : Db) (sid : Int) (name : String) (n : Nat) :
    ((sid, name), n) ∈ countyMandateCounts db ↔ 0 < n ∧ n = mandateCount db sid name := by
  unfold countyMandateCounts
  rw [(groupAggregate_spec _ _ _ _).2, aggOf_count, List.filter_filter,
    ← List.countP_eq_length_filter]
  have hp : db.counties.countP (fun a =>
      decide ((a.state_id, a.county_name) = (sid, name)) && decide (a.face_masks_required = 1))
      = mandateCount db sid name := by
    unfold mandateCount
    congr 1
    funext a
    simp only [Prod.mk.injEq, Bool.decide_and, Bool.and_assoc]
  rw [hp]
  constructor
  · rintro ⟨h1, h2⟩
    exact ⟨h2 ▸ h1, h2⟩
  · rintro ⟨h1, h2⟩
    exact ⟨h2 ▸ h1, h2⟩

theorem countyMandateCounts_nodup (db : Db) :
    ((countyMandateCounts db).map Prod.fst).Nodup :=
  (groupAggregate_spec _ _ _ _).1

theorem mandateCount_pos (db : Db) (sid : Int) (name : String) :
    0 < mandateCount db sid name ↔ name ∈ mandatedNames db sid := by
  unfold mandateCount mandatedNames
  rw [List.countP_pos_iff, List.mem_toFinset, List.mem_map]
  constructor
  · rintro ⟨r, hr, hp⟩
    simp only [decide_eq_true_eq] at hp
    refine ⟨r, ?_, hp.2.1⟩
    rw [List.mem_filter]
    exact ⟨hr, by simp only [decide_eq_true_eq]; exact ⟨hp.1, hp.2.2⟩⟩
  · rintro ⟨r, hr, hn⟩
    rw [List.mem_filter] at hr
    simp only [decide_eq_true_eq] at hr
    exact ⟨r, hr.1, by simp only [decide_eq_true_eq]; exact ⟨hr.2.1, hn, hr.2.2⟩⟩


/-- The groups of the inner query that belong to one jurisdiction: their
county names are the names with a flagged row, each once, and each group
carries the number of flagged rows of its name. -/
theorem stateGroups_spec (db : Db) (sid : Int) :
    let F := (countyMandateCounts db).filter (fun g => decide (g.1.1 = sid))
    (F.map (fun g => g.1.2)).Nodup ∧
    (F.map (fun g => g.1.2)).toFinset = mandatedNames db sid ∧
    F.map Prod.snd = (F.map (fun g => g.1.2)).map (mandateCount db sid) := by
  intro F
  have hF : ∀ g ∈ F, g.1.1 = sid ∧ 0 < g.2 ∧ g.2 = mandateCount db sid g.1.2 := by
    intro g hg
    rw [List.mem_filter] at hg
    have hs : g.1.1 = sid := by simpa using hg.2
    have := (mem_countyMandateCounts db g.1.1 g.1.2 g.2).1 hg.1
    rw [hs] at this
    exact ⟨hs, this⟩
  refine ⟨?_, ?_, ?_⟩
  · have h1 : (F.map Prod.fst).Nodup :=
      ((countyMandateCounts_nodup db).sublist
        ((List.filter_sublist _).map Prod.fst))
    have h2 : F.map (fun g => g.1.2) = (F.map Prod.fst).map Prod.snd := by
      rw [List.map_map]; rfl
    rw [h2]
    apply List.Nodup.map_on _ h1
    intro x hx y hy hxy
    rw [List.mem_map] at hx hy
    obtain ⟨gx, hgx, rfl⟩ := hx
    obtain ⟨gy, hgy, rfl⟩ := hy
    exact Prod.ext ((hF gx hgx).1.trans (hF gy hgy).1.symm) hxy
  · ext name
    rw [List.mem_toFinset, List.mem_map, ← mandateCount_pos]
    constructor
    · rintro ⟨g, hg, rfl⟩
      have := hF g hg
      rw [← this.2.2]
      exact this.2.1
    · intro hpos
      refine ⟨((sid, name), mandateCount db sid name), ?_, rfl⟩
      rw [List.mem_filter]
      exact ⟨(mem_countyMandateCounts db sid name _).2 ⟨hpos, rfl⟩, by simp⟩
  · rw [List.map_map]
    apply List.map_congr_left
    intro g hg
    exact (hF g hg).2.2

/-- The outer query before the division: a jurisdiction has a group exactly
when some county name of its has a flagged row, and the group carries the sum
of the per-name numbers and the number of such names. -/
theorem mem_stateMandateSums (db : Db) (sid : Int) (sc : Nat × Nat) :
    (sid, sc) ∈ stateMandateSums db ↔
      (mandatedNames db sid).Nonempty ∧
      sc = (Finset.sum (mandatedNames db sid) (mandateCount db sid),
            (mandatedNames db sid).card) := by
  obtain ⟨hnd, hset, hval⟩ := stateGroups_spec db sid
  unfold stateMandateSums
  rw [(groupAggregate_spec _ _ _ _).2, aggOf_sums, hval, ← hset,
    List.sum_toFinset _ hnd, List.toFinset_card_of_nodup hnd, List.length_map]
  constructor
  · rintro ⟨hpos, hsc⟩
    refine ⟨?_, hsc⟩
    obtain ⟨g, hg⟩ := List.exists_mem_of_length_pos hpos
    exact ⟨g.1.2, by rw [List.mem_toFinset, List.mem_map]; exact ⟨g, hg, rfl⟩⟩
  · rintro ⟨⟨name, hname⟩, hsc⟩
    refine ⟨?_, hsc⟩
    rw [List.mem_toFinset, List.mem_map] at hname
    obtain ⟨g, hg, _⟩ := hname
    exact List.length_pos_of_mem hg

theorem stateMandateSums_nodup (db : Db) : ((stateMandateSums db).map Prod.fst).Nodup :=
  (groupAggregate_spec _ _ _ _).1

theorem log2Aux_spec (fuel n : Nat) (hle : n ≤ fuel) (hn : n ≠ 0) :
    2 ^ log2Aux fuel n ≤ n ∧ n < 2 ^ (log2Aux fuel n + 1) := by
  induction fuel generalizing n with
  | zero => omega
  | succ fuel ih =>
    unfold log2Aux
    split
    · simp only [pow_zero, zero_add, pow_one]
      omega
    · obtain ⟨h1, h3⟩ := ih (n / 2) (by omega) (by omega)
      rw [Nat.pow_succ] at h3
      rw [Nat.pow_succ, Nat.pow_succ, Nat.pow_succ]
      constructor <;> omega

/-- The binary logarithm brackets a positive number between two powers. -/
theorem log2Floor_spec (n : Nat) (hn : n ≠ 0) :
    2 ^ log2Floor n ≤ n ∧ n < 2 ^ (log2Floor n + 1) :=
  log2Aux_spec n n (Nat.le_refl n) hn

/-- Rounding moves a quotient by at most one half. -/
theorem roundHalfEven_spec (num den : Nat) (hd : 0 < den) :
    2 * (den * roundHalfEven num den) ≤ 2 * num + den ∧
    2 * num ≤ 2 * (den * roundHalfEven num den) + den := by
  have hdm := Nat.div_add_mod num den
  have hr := Nat.mod_lt num hd
  unfold roundHalfEven
  split
  · constructor <;> omega
  · split
    · constructor <;> omega
    · rw [Nat.mul_succ]
      constructor <;> omega

/-- The scaling of `divDouble` brings the quotient to `2 ^ 52` at least. -/
theorem divDouble_scale (s c : Nat) (hs : 0 < s) (hc : 0 < c) :
    2 ^ 52 * c ≤ s * 2 ^ (if 2 ^ 52 * c ≤ s * 2 ^ (52 + log2Floor c - log2Floor s)
      then 52 + log2Floor c - log2Floor s else 52 + log2Floor c - log2Floor s + 1) := by
  split
  · rename_i h
    exact h
  · have h1 := (log2Floor_spec s (by omega)).1
    have h2 := (log2Floor_spec c (by omega)).2
    have h3 : 52 + (log2Floor c + 1)
        ≤ log2Floor s + (52 + log2Floor c - log2Floor s + 1) := by omega
    calc 2 ^ 52 * c ≤ 2 ^ 52 * 2 ^ (log2Floor c + 1) := Nat.mul_le_mul_left _ (Nat.le_of_lt h2)
      _ = 2 ^ (52 + (log2Floor c + 1)) := (Nat.pow_add 2 52 _).symm
      _ ≤ 2 ^ (log2Floor s + (52 + log2Floor c - log2Floor s + 1)) :=
          Nat.pow_le_pow_right (by decide) h3
      _ = 2 ^ log2Floor s * 2 ^ (52 + log2Floor c - log2Floor s + 1) := Nat.pow_add 2 _ _
      _ ≤ s * 2 ^ (52 + log2Floor c - log2Floor s + 1) := Nat.mul_le_mul_right _ h1

/-- The double-precision quotient of two positive integers is within the
relative error `2 ^ (-53)` of the exact quotient. -/
theorem divDouble_error (s c : Nat) (hs : 0 < s) (hc : 0 < c) :
    |divDouble s c - (s : ℚ) / (c : ℚ)| ≤ (s : ℚ) / (c : ℚ) / 2 ^ 53 := by
  have hscale := divDouble_scale s c hs hc
  unfold divDouble
  simp only
  generalize (if 2 ^ 52 * c ≤ s * 2 ^ (52 + log2Floor c - log2Floor s)
      then 52 + log2Floor c - log2Floor s else 52 + log2Floor c - log2Floor s + 1) = t
    at hscale ⊢
  obtain ⟨h1, h2⟩ := roundHalfEven_spec (s * 2 ^ t) c hc
  generalize roundHalfEven (s * 2 ^ t) c = m at h1 h2 ⊢
  have hC : (0 : ℚ) < (c : ℚ) := by exact_mod_cast hc
  have hT : (0 : ℚ) < (2 : ℚ) ^ t := by positivity
  have q1 : 2 * ((c : ℚ) * (m : ℚ)) ≤ 2 * ((s : ℚ) * 2 ^ t) + (c : ℚ) := by exact_mod_cast h1
  have q2 : 2 * ((s : ℚ) * 2 ^ t) ≤ 2 * ((c : ℚ) * (m : ℚ)) + (c : ℚ) := by exact_mod_cast h2
  have q3 : (2 : ℚ) ^ 52 * (c : ℚ) ≤ (s : ℚ) * 2 ^ t := by exact_mod_cast hscale
  have hB : (c : ℚ) / 2 ≤ (s : ℚ) * 2 ^ t / 2 ^ 53 := by
    have h53 : (2 : ℚ) ^ 53 = 2 * 2 ^ 52 := by norm_num
    rw [div_le_div_iff₀ (by norm_num) (by positivity), h53]
    linarith
  have hE : |(m : ℚ) * (c : ℚ) - (s : ℚ) * 2 ^ t| ≤ (s : ℚ) * 2 ^ t / 2 ^ 53 := by
    rw [abs_le]
    constructor <;> linarith
  have e1 : (m : ℚ) / 2 ^ t - (s : ℚ) / (c : ℚ)
      = ((m : ℚ) * (c : ℚ) - (s : ℚ) * 2 ^ t) / (2 ^ t * (c : ℚ)) := by
    field_simp
    ring
  have e2 : (s : ℚ) / (c : ℚ) / 2 ^ 53 = (s : ℚ) * 2 ^ t / 2 ^ 53 / (2 ^ t * (c : ℚ)) := by
    field_simp
    ring
  rw [e1, e2, abs_div, abs_of_pos (mul_pos hT hC)]
  exact div_le_div_of_nonneg_right hE (le_of_lt (mul_pos hT hC))

/-- A quotient that is an integer is stored exactly. -/
theorem divDouble_of_dvd (s c : Nat) (hc : 0 < c) (hdvd : c ∣ s) :
    divDouble s c = (s : ℚ) / (c : ℚ) := by
  unfold divDouble
  simp only
  generalize (if 2 ^ 52 * c ≤ s * 2 ^ (52 + log2Floor c - log2Floor s)
      then 52 + log2Floor c - log2Floor s else 52 + log2Floor c - log2Floor s + 1) = t
  have hd : c ∣ s * 2 ^ t := Dvd.dvd.mul_right hdvd _
  have hmod : (s * 2 ^ t) % c = 0 := Nat.mod_eq_zero_of_dvd hd
  have hround : roundHalfEven (s * 2 ^ t) c = s * 2 ^ t / c := by
    unfold roundHalfEven
    rw [hmod, if_pos (by omega)]
  have hC : (c : ℚ) ≠ 0 := by exact_mod_cast (Nat.pos_iff_ne_zero.1 hc)
  rw [hround, Nat.cast_div hd hC]
  push_cast
  field_simp
  ring

theorem calculateAverage_nodup (db : Db) : ((calculateAverage db).map Prod.fst).Nodup := by
  unfold calculateAverage
  rw [List.map_map]
  have : (Prod.fst ∘ fun s : Int × (Nat × Nat) => (s.1, divDouble s.2.1 s.2.2)) = Prod.fst := rfl
  rw [this]
  exact ((List.perm_insertionSort _ _).map Prod.fst).nodup_iff.2 (stateMandateSums_nodup db)

/-- What `calculateAverageStmt.all()` returns: one item for each jurisdiction
id that has a county name with a flagged row, carrying the double-precision
quotient of the sum of the numbers of flagged rows of those names by the
number of those names. -/
theorem mem_calculateAverage (db : Db) (sid : Int) (avg : ℚ) :
    (sid, avg) ∈ calculateAverage db ↔
      (mandatedNames db sid).Nonempty ∧ avg = doubleMean db sid := by
  unfold calculateAverage doubleMean
  rw [List.mem_map]
  constructor
  · rintro ⟨⟨k, sc⟩, hmem, heq⟩
    rw [List.mem_insertionSort] at hmem
    simp only [Prod.mk.injEq] at heq
    obtain ⟨rfl, rfl⟩ := heq
    obtain ⟨hne, rfl⟩ := (mem_stateMandateSums db k sc).1 hmem
    exact ⟨hne, rfl⟩
  · rintro ⟨hne, rfl⟩
    exact ⟨(sid, _), (List.mem_insertionSort _).2
      ((mem_stateMandateSums db sid _).2 ⟨hne, rfl⟩), rfl⟩

/-- The value the job stores is the mean over the county names with a
flagged row, rounded to a double: within the relative error `2 ^ (-53)` of
the exact mean, and the exact mean when that is an integer. -/
theorem doubleMean_spec (db : Db) (sid : Int) (hne : (mandatedNames db sid).Nonempty) :
    |doubleMean db sid - meanOver db sid (mandatedNames db sid)|
        ≤ meanOver db sid (mandatedNames db sid) / 2 ^ 53 ∧
      ((mandatedNames db sid).card ∣ Finset.sum (mandatedNames db sid) (mandateCount db sid) →
        doubleMean db sid = meanOver db sid (mandatedNames db sid)) := by
  have hc : 0 < (mandatedNames db sid).card := Finset.card_pos.2 hne
  have hs : 0 < Finset.sum (mandatedNames db sid) (mandateCount db sid) := by
    obtain ⟨name, hname⟩ := hne
    exact Nat.lt_of_lt_of_le ((mandateCount_pos db sid name).2 hname)
      (Finset.single_le_sum (fun _ _ => Nat.zero_le _) hname)
  unfold doubleMean meanOver
  rw [← Nat.cast_sum]
  exact ⟨divDouble_error _ _ hs hc, divDouble_of_dvd _ _ hc⟩

theorem eq_of_countP_le_one {α : Type} {l : List α} {q : α → Bool} (h : l.countP q ≤ 1)
    {x y : α} (hx : x ∈ l) (hy : y ∈ l) (qx : q x = true) (qy : q y = true) : x = y := by
  induction l with
  | nil => simp at hx
  | cons z zs ih =>
    rw [List.countP_cons] at h
    rcases List.mem_cons.1 hx with hxz | hx
    · rcases List.mem_cons.1 hy with hyz | hy
      · rw [hxz, hyz]
      · have : 0 < zs.countP q := List.countP_pos_iff.2 ⟨y, hy, qy⟩
        rw [← hxz, if_pos qx] at h
        omega
    · have hpos : 0 < zs.countP q := List.countP_pos_iff.2 ⟨x, hx, qx⟩
      rcases List.mem_cons.1 hy with hyz | hy
      · rw [← hyz, if_pos qy] at h
        omega
      · exact ih (by omega) hx hy

/-- In a well-formed store the lookup object maps an id to the name of the
row of `states` with that id. -/
theorem stateIdToName_spec {db : Db} (hwf : db.WF) (id : Int) (name : String) :
    stateIdToName db id = some name ↔ ({ id := id, name := name } : StateRow) ∈ db.states := by
  unfold stateIdToName
  constructor
  · intro h
    rw [Option.map_eq_some'] at h
    obtain ⟨r, hr, hname⟩ := h
    have hmem := List.mem_reverse.1 (List.mem_of_find?_eq_some hr)
    have hid : r.id = id := by simpa using List.find?_some hr
    rw [← hid, ← hname]
    exact hmem
  · intro h
    cases hf : db.states.reverse.find? (fun r => decide (r.id = id)) with
    | none =>
      rw [List.find?_eq_none] at hf
      exact absurd (by simp) (hf _ (List.mem_reverse.2 h))
    | some r =>
      have hmem := List.mem_reverse.1 (List.mem_of_find?_eq_some hf)
      have hid : r.id = id := by simpa using List.find?_some hf
      have := eq_of_mem_sorted_ids hwf.state_ids_sorted hmem h hid
      rw [this]
      rfl

theorem itemRow_spec {db : Db} (hwf : db.WF) (item : Int × ℚ) (r : SummaryRow) :
    itemRow db item = some r ↔
      r.state_id = item.1 ∧ r.average_mandate_count = item.2 ∧ r.state_name ≠ "" ∧
      ({ id := r.state_id, name := r.state_name } : StateRow) ∈ db.states := by
  unfold itemRow
  constructor
  · intro h
    split at h
    · rename_i name hname
      split at h
      · cases h
      · rename_i hne
        cases h
        exact ⟨rfl, rfl, hne, (stateIdToName_spec hwf _ _).1 hname⟩
    · cases h
  · rintro ⟨h1, h2, h3, h4⟩
    rw [h1] at h4
    rw [(stateIdToName_spec hwf _ _).2 h4]
    simp only [if_neg h3]
    rw [← h1, ← h2]

theorem insertItem_eq (db : Db) (tbl : List SummaryRow) (item : Int × ℚ) :
    insertItem db tbl item =
      match itemRow db item with
      | none => .ok tbl
      | some r => insertOrUpdate tbl r := by
  unfold insertItem itemRow
  cases stateIdToName db item.1 with
  | none => rfl
  | some name =>
    by_cases hn : name = ""
    · simp only [if_pos hn]
    · simp only [if_neg hn]


/-- The upsert of a row that names a row of `states` into a table that agrees
with the store does not throw; the table afterwards holds the row and the old
rows of other ids, and still agrees with the store. -/
theorem insertOrUpdate_spec {db : Db} (hwf : db.WF) {tbl : List SummaryRow}
    (hok : SummaryOK db tbl) (r : SummaryRow)
    (hr : ({ id := r.state_id, name := r.state_name } : StateRow) ∈ db.states) :
    ∃ t, insertOrUpdate tbl r = .ok t ∧ SummaryOK db t ∧
      ∀ x, x ∈ t ↔ x = r ∨ (x ∈ tbl ∧ x.state_id ≠ r.state_id) := by
  have hno : tbl.any (fun x => decide (x.state_id ≠ r.state_id ∧ x.state_name = r.state_name))
      = false := by
    rw [List.any_eq_false]
    intro x hx hp
    simp only [decide_eq_true_eq] at hp
    have hxs := hok.names x hx
    have := eq_of_countP_le_one (hwf.state_names r.state_name) hxs hr
      (by simp only [decide_eq_true_eq]; exact hp.2) (by simp)
    exact hp.1 (congrArg StateRow.id this)
  unfold insertOrUpdate
  rw [hno]
  simp only [Bool.false_eq_true, if_false]
  split
  · rename_i hany
    simp only [List.any_eq_true, decide_eq_true_eq] at hany
    obtain ⟨y, hy, hyid⟩ := hany
    have hmem : ∀ x, x ∈ tbl.map (fun x => if x.state_id = r.state_id then r else x) ↔
        x = r ∨ (x ∈ tbl ∧ x.state_id ≠ r.state_id) := by
      intro x
      rw [List.mem_map]
      constructor
      · rintro ⟨z, hz, hfz⟩
        by_cases hzid : z.state_id = r.state_id
        · rw [if_pos hzid] at hfz
          exact Or.inl hfz.symm
        · rw [if_neg hzid] at hfz
          rw [← hfz]
          exact Or.inr ⟨hz, hzid⟩
      · rintro (rfl | ⟨hx, hxid⟩)
        · exact ⟨y, hy, by rw [if_pos hyid]⟩
        · exact ⟨x, hx, by rw [if_neg hxid]⟩
    refine ⟨_, rfl, ⟨?_, ?_⟩, hmem⟩
    · have : (tbl.map (fun x => if x.state_id = r.state_id then r else x)).map
          (fun x => x.state_id) = tbl.map (fun x => x.state_id) := by
        rw [List.map_map]
        apply List.map_congr_left
        intro z _
        simp only [Function.comp]
        split
        · rename_i h; exact h.symm
        · rfl
      rw [this]
      exact hok.ids_nodup
    · intro x hx
      rcases (hmem x).1 hx with rfl | ⟨hx, _⟩
      · exact hr
      · exact hok.names x hx
  · rename_i hany
    simp only [List.any_eq_true, decide_eq_true_eq, not_exists, not_and] at hany
    have hmem : ∀ x, x ∈ tbl ++ [r] ↔ x = r ∨ (x ∈ tbl ∧ x.state_id ≠ r.state_id) := by
      intro x
      rw [List.mem_append, List.mem_singleton]
      constructor
      · rintro (hx | hx)
        · exact Or.inr ⟨hx, hany x hx⟩
        · exact Or.inl hx
      · rintro (hx | ⟨hx, _⟩)
        · exact Or.inr hx
        · exact Or.inl hx
    refine ⟨_, rfl, ⟨?_, ?_⟩, hmem⟩
    · rw [List.map_append, List.map_singleton]
      apply List.Nodup.append hok.ids_nodup (List.nodup_singleton _)
      intro i hi hi'
      simp only [List.mem_singleton] at hi'
      subst hi'
      rw [List.mem_map] at hi
      obtain ⟨z, hz, hzid⟩ := hi
      exact hany z hz hzid
    · intro x hx
      rcases (hmem x).1 hx with rfl | ⟨hx, _⟩
      · exact hr
      · exact hok.names x hx

/-- The transaction over items of distinct ids does not throw; the table
afterwards holds the rows of the items and the old rows of ids that no item
wrote. -/
theorem insertMany_spec {db : Db} (hwf : db.WF) (data : List (Int × ℚ))
    (hnd : (data.map Prod.fst).Nodup) (tbl : List SummaryRow) (hok : SummaryOK db tbl) :
    ∃ t, insertMany db tbl data = .ok t ∧ SummaryOK db t ∧
      ∀ x, x ∈ t ↔ (∃ item ∈ data, itemRow db item = some x) ∨
        (x ∈ tbl ∧ ∀ item ∈ data, ∀ r, itemRow db item = some r → r.state_id ≠ x.state_id) := by
  induction data generalizing tbl with
  | nil =>
    refine ⟨tbl, rfl, hok, fun x => ?_⟩
    simp
  | cons item rest ih =>
    rw [List.map_cons, List.nodup_cons] at hnd
    unfold insertMany
    rw [List.foldlM_cons, insertItem_eq]
    cases hrow : itemRow db item with
    | none =>
      obtain ⟨t, ht, hokt, hmem⟩ := ih hnd.2 tbl hok
      refine ⟨t, ht, hokt, fun x => ?_⟩
      rw [hmem x]
      constructor
      · rintro (⟨i, hi, hix⟩ | ⟨hx, hall⟩)
        · exact Or.inl ⟨i, List.mem_cons_of_mem _ hi, hix⟩
        · refine Or.inr ⟨hx, fun i hi r hir => ?_⟩
          rcases List.mem_cons.1 hi with rfl | hi
          · rw [hrow] at hir; cases hir
          · exact hall i hi r hir
      · rintro (⟨i, hi, hix⟩ | ⟨hx, hall⟩)
        · rcases List.mem_cons.1 hi with rfl | hi
          · rw [hrow] at hix; cases hix
          · exact Or.inl ⟨i, hi, hix⟩
        · exact Or.inr ⟨hx, fun i hi r hir => hall i (List.mem_cons_of_mem _ hi) r hir⟩
    | some r =>
      obtain ⟨hr1, _, _, hr4⟩ := (itemRow_spec hwf item r).1 hrow
      obtain ⟨t1, ht1, hok1, hmem1⟩ := insertOrUpdate_spec hwf hok r hr4
      obtain ⟨t, ht, hokt, hmem⟩ := ih hnd.2 t1 hok1
      simp only [ht1]
      refine ⟨t, ht, hokt, fun x => ?_⟩
      have hfresh : ∀ i ∈ rest, ∀ r2, itemRow db i = some r2 → r2.state_id ≠ r.state_id := by
        intro i hi r2 hi2 heq
        have h2 := ((itemRow_spec hwf i r2).1 hi2).1
        apply hnd.1
        rw [List.mem_map]
        exact ⟨i, hi, by rw [← h2, heq, hr1]⟩
      rw [hmem x, hmem1 x]
      constructor
      · rintro (⟨i, hi, hix⟩ | ⟨hx | ⟨hx, hxid⟩, hall⟩)
        · exact Or.inl ⟨i, List.mem_cons_of_mem _ hi, hix⟩
        · exact Or.inl ⟨item, List.mem_cons_self _ _, by rw [hrow, hx]⟩
        · refine Or.inr ⟨hx, fun i hi r2 hi2 => ?_⟩
          rcases List.mem_cons.1 hi with rfl | hi
          · rw [hrow] at hi2
            cases hi2
            exact fun h => hxid h.symm
          · exact hall i hi r2 hi2
      · rintro (⟨i, hi, hix⟩ | ⟨hx, hall⟩)
        · rcases List.mem_cons.1 hi with rfl | hi
          · rw [hrow] at hix
            cases hix
            exact Or.inr ⟨Or.inl rfl, hfresh⟩
          · exact Or.inl ⟨i, hi, hix⟩
        · exact Or.inr ⟨Or.inr ⟨hx, fun h => hall item (List.mem_cons_self _ _) r hrow h.symm⟩,
            fun i hi r2 hi2 => hall i (List.mem_cons_of_mem _ hi) r2 hi2⟩


theorem countP_eq_one_of_nodup_map {α κ : Type} [DecidableEq κ] (f : α → κ) {l : List α}
    (hnd : (l.map f).Nodup) {x : α} (hx : x ∈ l) :
    l.countP (fun y => decide (f y = f x)) = 1 := by
  induction l with
  | nil => simp at hx
  | cons z zs ih =>
    rw [List.map_cons, List.nodup_cons] at hnd
    rw [List.countP_cons]
    rcases List.mem_cons.1 hx with hxz | hx
    · have h0 : zs.countP (fun y => decide (f y = f x)) = 0 := by
        rw [List.countP_eq_zero]
        intro y hy hp
        simp only [decide_eq_true_eq] at hp
        apply hnd.1
        rw [List.mem_map]
        exact ⟨y, hy, by rw [hp, hxz]⟩
      rw [h0, hxz]
      simp
    · have hne : f z ≠ f x := by
        intro h
        apply hnd.1
        rw [List.mem_map]
        exact ⟨x, hx, h.symm⟩
      rw [ih hnd.2 hx, if_neg (by simpa using hne)]

/-- The table after the job on a well-formed store: the job does not fail, and
the table holds one row for each jurisdiction that has a non-empty name and a
county name with a flagged row, carrying the mean over those names, next to the
old rows of the other jurisdictions. -/
theorem populate_spec {db : Db} (hwf : db.WF) (tbl : List SummaryRow) (hok : SummaryOK db tbl) :
    SummaryOK db (populate db tbl) ∧
    ∀ x, x ∈ populate db tbl ↔
      ((mandatedNames db x.state_id).Nonempty ∧ x.state_name ≠ "" ∧
        ({ id := x.state_id, name := x.state_name } : StateRow) ∈ db.states ∧
        x.average_mandate_count = doubleMean db x.state_id) ∨
      (x ∈ tbl ∧ ¬ ((mandatedNames db x.state_id).Nonempty ∧ x.state_name ≠ "")) := by
  have hnd : ((calculateAverage db).map Prod.fst).Nodup := calculateAverage_nodup db
  obtain ⟨t, ht, hokt, hmem⟩ := insertMany_spec hwf (calculateAverage db) hnd tbl hok
  have hpop : populate db tbl = t := by
    unfold populate
    rw [ht]
  rw [hpop]
  refine ⟨hokt, fun x => ?_⟩
  rw [hmem x]
  apply or_congr
  · constructor
    · rintro ⟨item, hitem, hrow⟩
      obtain ⟨h1, h2, h3, h4⟩ := (itemRow_spec hwf item x).1 hrow
      have := (mem_calculateAverage db item.1 item.2).1 hitem
      rw [← h1, ← h2] at this
      exact ⟨this.1, h3, h4, this.2⟩
    · rintro ⟨h1, h2, h3, h4⟩
      refine ⟨(x.state_id, x.average_mandate_count),
        (mem_calculateAverage db _ _).2 ⟨h1, h4⟩, (itemRow_spec hwf _ x).2 ⟨rfl, rfl, h2, h3⟩⟩
  · apply and_congr_right
    intro hx
    constructor
    · rintro hall ⟨hne, hname⟩
      exact hall (x.state_id, doubleMean db x.state_id)
        ((mem_calculateAverage db _ _).2 ⟨hne, rfl⟩)
        { state_id := x.state_id, state_name := x.state_name,
          average_mandate_count := doubleMean db x.state_id }
        ((itemRow_spec hwf _ _).2 ⟨rfl, rfl, hname, hok.names x hx⟩) rfl
    · intro hnot item hitem r hrow hid
      obtain ⟨h1, _, h3, h4⟩ := (itemRow_spec hwf item r).1 hrow
      have hne := ((mem_calculateAverage db item.1 item.2).1 hitem).1
      rw [← h1, hid] at hne
      have := eq_of_mem_sorted_ids hwf.state_ids_sorted h4 (hok.names x hx) hid
      have hname : r.state_name = x.state_name := congrArg StateRow.name this
      exact hnot ⟨hne, hname ▸ h3⟩

theorem twoCountyDb_wf : twoCountyDb.WF :=
  ((onEnd_spec Fault.none _).2 (run_inv sampleDates [sampleEvent, noMandateEvent])).db_wf


theorem staleSummary_ok : SummaryOK twoCountyDb staleSummary :=
  ⟨by simp [staleSummary], by
    intro x hx
    simp only [staleSummary, List.mem_singleton] at hx
    subst hx
    decide⟩

theorem divDouble_one : divDouble 1 1 = 1 := by
  rw [divDouble_of_dvd 1 1 (by decide) (dvd_refl 1)]
  norm_num

/-- The double nearest to 4/3 is 6004799503160661 / 2 ^ 52, which prints as
1.3333333333333333. -/
theorem divDouble_four_thirds : divDouble 4 3 = 6004799503160661 / 4503599627370496 := by
  have ht : (if 2 ^ 52 * 3 ≤ 4 * 2 ^ (52 + log2Floor 3 - log2Floor 4)
      then 52 + log2Floor 3 - log2Floor 4 else 52 + log2Floor 3 - log2Floor 4 + 1) = 52 := by
    decide
  have hm : roundHalfEven (4 * 2 ^ 52) 3 = 6004799503160661 := by decide
  unfold divDouble
  simp only [ht, hm]
  norm_num

/-- C12 as stated fails, in two ways. (a) In the store with two Ohio records,
Franklin with a mandate and Delaware without, Ohio has two county names and
one flagged row, so the mean across its county names is 1/2; the job stores 1,
because Delaware has no flagged row and so no group in the inner query.
(b) In the store with four flagged Ohio records, one for Franklin, one for
Delaware and two for Cuyahoga, every county name has a flagged row and the
mean is 4/3; the job stores the double 6004799503160661 / 2 ^ 52, which is not
4/3. -/
theorem stored_average_differs :
    populate twoCountyDb [] =
      [{ state_id := 1, state_name := "Ohio", average_mandate_count := 1 }] ∧
    (countyNames twoCountyDb 1).card = 2 ∧
    Finset.sum (countyNames twoCountyDb 1) (mandateCount twoCountyDb 1) = 1 ∧
    meanOver twoCountyDb 1 (countyNames twoCountyDb 1) = 1 / 2 ∧
    populate threeCountyDb [] =
      [{ state_id := 1, state_name := "Ohio",
         average_mandate_count := 6004799503160661 / 4503599627370496 }] ∧
    countyNames threeCountyDb 1 = mandatedNames threeCountyDb 1 ∧
    meanOver threeCountyDb 1 (countyNames threeCountyDb 1) = 4 / 3 ∧
    (6004799503160661 / 4503599627370496 : ℚ) ≠ 4 / 3 := by
  have hsums : stateMandateSums twoCountyDb = [(1, (1, 1))] := by decide
  have hname : stateIdToName twoCountyDb 1 = some "Ohio" := by decide
  have hcard : (countyNames twoCountyDb 1).card = 2 := by decide
  have hsum : Finset.sum (countyNames twoCountyDb 1) (mandateCount twoCountyDb 1) = 1 := by
    decide
  have hsums3 : stateMandateSums threeCountyDb = [(1, (4, 3))] := by decide
  have hname3 : stateIdToName threeCountyDb 1 = some "Ohio" := by decide
  have hcard3 : (countyNames threeCountyDb 1).card = 3 := by decide
  have hsum3 : Finset.sum (countyNames threeCountyDb 1) (mandateCount threeCountyDb 1) = 4 := by
    decide
  refine ⟨?_, hcard, hsum, ?_, ?_, by decide, ?_, by norm_num⟩
  · unfold populate calculateAverage insertMany
    rw [hsums]
    simp [insertItem, hname, insertOrUpdate, divDouble_one]
  · unfold meanOver
    rw [← Nat.cast_sum, hsum, hcard]
    norm_num
  · unfold populate calculateAverage insertMany
    rw [hsums3]
    simp [insertItem, hname3, insertOrUpdate, divDouble_four_thirds]
  · unfold meanOver
    rw [← Nat.cast_sum, hsum3, hcard3]
    norm_num

/-- C12, amended. On a store that satisfies its constraints, with a summary
table that agrees with it (the empty table, or one left by an earlier run),
the job does not fail and: (1) each jurisdiction with a non-empty name and at
least one county name that has a row with mask_required = true gets the row of
its id and name whose average_mandate_count is the double-precision quotient
of the sum, over the county names of that jurisdiction that have at least one
such row, of the numbers of such rows of the names, by the number of these
names; this double is within the relative error `2 ^ (-53)` of the exact mean
over these names, and is the exact mean when that is an integer; (2) a row
with a non-empty name in the table afterwards is such a row, or an old row of
a jurisdiction without a flagged row; (3) the old rows of jurisdictions
without a flagged row are kept; (4) each jurisdiction id in the table
afterwards has exactly one row. -/
theorem summary_average (db : Db) (hwf : db.WF) (tbl : List SummaryRow)
    (hok : SummaryOK db tbl) :
    (∀ s ∈ db.states, s.name ≠ "" → (mandatedNames db s.id).Nonempty →
      ({ state_id := s.id, state_name := s.name,
         average_mandate_count := doubleMean db s.id } : SummaryRow) ∈ populate db tbl ∧
      |doubleMean db s.id - meanOver db s.id (mandatedNames db s.id)|
        ≤ meanOver db s.id (mandatedNames db s.id) / 2 ^ 53 ∧
      ((mandatedNames db s.id).card ∣ Finset.sum (mandatedNames db s.id) (mandateCount db s.id) →
        doubleMean db s.id = meanOver db s.id (mandatedNames db s.id))) ∧
    (∀ x ∈ populate db tbl, x.state_name ≠ "" →
      ((mandatedNames db x.state_id).Nonempty ∧
        ({ id := x.state_id, name := x.state_name } : StateRow) ∈ db.states ∧
        x.average_mandate_count = doubleMean db x.state_id) ∨
      (x ∈ tbl ∧ ¬ (mandatedNames db x.state_id).Nonempty)) ∧
    (∀ x ∈ tbl, ¬ (mandatedNames db x.state_id).Nonempty → x ∈ populate db tbl) ∧
    (∀ x ∈ populate db tbl,
      (populate db tbl).countP (fun y => decide (y.state_id = x.state_id)) = 1) := by
  obtain ⟨hokt, hmem⟩ := populate_spec hwf tbl hok
  refine ⟨?_, ?_, ?_, ?_⟩
  · intro s hs hname hne
    exact ⟨(hmem _).2 (Or.inl ⟨hne, hname, hs, rfl⟩), doubleMean_spec db s.id hne⟩
  · intro x hx hname
    rcases (hmem x).1 hx with ⟨h1, _, h3, h4⟩ | ⟨h1, h2⟩
    · exact Or.inl ⟨h1, h3, h4⟩
    · exact Or.inr ⟨h1, fun hne => h2 ⟨hne, hname⟩⟩
  · intro x hx hne
    exact (hmem x).2 (Or.inr ⟨hx, fun h => hne h.1⟩)
  · intro x hx
    exact countP_eq_one_of_nodup_map (fun y : SummaryRow => y.state_id) hokt.ids_nodup hx

/-- Witness for the amended C12: the job on the store with the two Ohio
records, over the table an earlier run left. -/
theorem summary_average_witness :
    twoCountyDb.WF ∧ SummaryOK twoCountyDb staleSummary ∧
    ({ state_id := 1, state_name := "Ohio", average_mandate_count := doubleMean twoCountyDb 1 }
      : SummaryRow) ∈ populate twoCountyDb staleSummary :=
  ⟨twoCountyDb_wf, staleSummary_ok,
    ((summary_average twoCountyDb twoCountyDb_wf staleSummary staleSummary_ok).1
      { id := 1, name := "Ohio" } (by decide) (by decide) ⟨"Franklin", by decide⟩).1⟩

end MaskMap
